import Mathlib

/-!
# fightvm: assembler, virtual machine and round resolver

A shallow embedding of `src/main.c`.

* Source text is a `List Char`; a C pointer into `asmcode` is the `Nat` offset
  from the start of the buffer and `end` is the offset `asmcode_len`.
* A C `int` is an `Int`; results of arithmetic are reduced to the 32-bit
  two's-complement range by `wrap32`, and a C `long` is 64 bits wide.
* Accesses outside an array (`buf`, `labels`, `registers`, `bytecode`) have no
  defined result in C; the embedding reports them as a separate outcome.
-/

namespace FightVM

/-! ## Machine integers -/

/-- Reduction of an integer to the range of a 32-bit two's-complement `int`. -/
def wrap32 (x : Int) : Int := (x + 2147483648) % 4294967296 - 2147483648

/-- The range of a C `int`. -/
def inInt32 (x : Int) : Prop := -2147483648 ≤ x ∧ x ≤ 2147483647

instance (x : Int) : Decidable (inInt32 x) := by unfold inInt32; infer_instance

/-! ## Enumerations and string tables -/

/-- The enumeration `program_result_enum`. -/
def Defend : Int := 0
/-- The enumeration `program_result_enum`. -/
def Attack : Int := 1
/-- The enumeration `program_result_enum`. -/
def Gamble : Int := 2

/-- The enumeration `ops_enum`; the constructor order is the numbering of the source. -/
inductive ops_enum where
  | INC | DEC | INCEQ | DECEQ | ADD | SUB | MUL | STORE | MOVE
  | LABEL | JMP | JMPEQ | JMPNE | JMPGT | JMPLT | CMP | RET
  deriving DecidableEq, Repr

namespace ops_enum

/-- Numeric value of an opcode. -/
def code : ops_enum → Nat
  | INC => 0 | DEC => 1 | INCEQ => 2 | DECEQ => 3 | ADD => 4 | SUB => 5 | MUL => 6
  | STORE => 7 | MOVE => 8 | LABEL => 9 | JMP => 10 | JMPEQ => 11 | JMPNE => 12
  | JMPGT => 13 | JMPLT => 14 | CMP => 15 | RET => 16

/-- All opcodes in increasing numeric order, the order `next_opcode` tries them in. -/
def all : List ops_enum :=
  [INC, DEC, INCEQ, DECEQ, ADD, SUB, MUL, STORE, MOVE, LABEL, JMP, JMPEQ, JMPNE, JMPGT, JMPLT,
    CMP, RET]

/-- The opcode with a given numeric value, when there is one. -/
def ofInt? (w : Int) : Option ops_enum :=
  all.find? fun o => (o.code : Int) = w

end ops_enum

/-- The table `ops_enum_strings` (without its `OPS_COUNT` sentinel, which is never indexed). -/
def ops_enum_strings : ops_enum → List Char
  | .INC => ['I', 'N', 'C']
  | .DEC => ['D', 'E', 'C']
  | .INCEQ => ['I', 'N', 'C', 'E', 'Q']
  | .DECEQ => ['D', 'E', 'C', 'E', 'Q']
  | .ADD => ['A', 'D', 'D']
  | .SUB => ['S', 'U', 'B']
  | .MUL => ['M', 'U', 'L']
  | .STORE => ['S', 'T', 'O', 'R', 'E']
  | .MOVE => ['M', 'O', 'V', 'E']
  | .LABEL => ['L', 'A', 'B', 'E', 'L']
  | .JMP => ['J', 'M', 'P']
  | .JMPEQ => ['J', 'M', 'P', 'E', 'Q']
  | .JMPNE => ['J', 'M', 'P', 'N', 'E']
  | .JMPGT => ['J', 'M', 'P', 'G', 'T']
  | .JMPLT => ['J', 'M', 'P', 'L', 'T']
  | .CMP => ['C', 'M', 'P']
  | .RET => ['R', 'E', 'T']

/-- Number of registers, `REGISTERS_COUNT`. -/
def REGISTERS_COUNT : Nat := 11

/-- Register indices of `registers_enum`. -/
def R0 : Fin 11 := 0
/-- Register indices of `registers_enum`. -/
def R1 : Fin 11 := 1
/-- Register indices of `registers_enum`. -/
def R2 : Fin 11 := 2
/-- Register indices of `registers_enum`. -/
def C0 : Fin 11 := 3
/-- Register indices of `registers_enum`. -/
def C1 : Fin 11 := 4
/-- Register indices of `registers_enum`. -/
def E0 : Fin 11 := 5
/-- Register indices of `registers_enum`. -/
def E1 : Fin 11 := 6
/-- Register indices of `registers_enum`. -/
def I0 : Fin 11 := 7
/-- Register indices of `registers_enum`. -/
def I1 : Fin 11 := 8
/-- Register indices of `registers_enum`. -/
def O0 : Fin 11 := 9
/-- Register indices of `registers_enum`. -/
def T0 : Fin 11 := 10

/-- The table `registers_enum_strings`, entries `0 .. REGISTERS_COUNT - 1`. -/
def registers_enum_strings : List (List Char) :=
  [['R', '0'], ['R', '1'], ['R', '2'], ['C', '0'], ['C', '1'], ['E', '0'], ['E', '1'],
   ['I', '0'], ['I', '1'], ['O', '0'], ['T', '0']]

/-! ## Lexer helpers -/

/-- The NUL character. -/
def nul : Char := Char.ofNat 0

/-- The test `*p == ' ' || *p == '\t' || *p == '\r' || *p == '\n'`. -/
def isBlank (c : Char) : Bool :=
  c == ' ' || c == '\t' || c == '\r' || c == '\n'

/-- The loop `for (; p < end && go(*p); ++p);`: the final value of `p`.  The first argument
bounds the number of iterations; `e - p` iterations always suffice. -/
def scan (go : Char → Bool) (s : List Char) (e : Nat) : Nat → Nat → Nat
  | 0, p => p
  | fuel + 1, p => if p < e ∧ go (s.getD p nul) = true then scan go s e fuel (p + 1) else p

/-- The tail `return p <= end ? p : NULL;` shared by the four scanners. -/
def inBuffer (e p : Nat) : Option Nat := if p ≤ e then some p else none

/-- The function `skip_space`. -/
def skip_space (s : List Char) (p e : Nat) : Option Nat :=
  inBuffer e (scan isBlank s e (e - p) p)

/-- The function `next_space`. -/
def next_space (s : List Char) (p e : Nat) : Option Nat :=
  inBuffer e (scan (fun c => !isBlank c) s e (e - p) p)

/-- The function `skip_comma`. -/
def skip_comma (s : List Char) (p e : Nat) : Option Nat :=
  inBuffer e (scan (fun c => c == ',') s e (e - p) p)

/-- The function `next_eol`. -/
def next_eol (s : List Char) (p e : Nat) : Option Nat :=
  inBuffer e (scan (fun c => c != '\n') s e (e - p) p)

/-- The bytes `p[0 .. n-1]` of the buffer. -/
def bytesAt (s : List Char) (p n : Nat) : List Char := (s.drop p).take n

/-- The function `is_opcode`: the token starting at `p` has exactly the length of the
mnemonic and the same characters. -/
def is_opcode (s : List Char) (p e : Nat) (opcode : ops_enum) : Bool :=
  match next_space s p e with
  | none => false
  | some t =>
    let n := (ops_enum_strings opcode).length
    let oplen := t - p
    if n ≠ oplen then false
    else bytesAt s p oplen == ops_enum_strings opcode

/-- The function `next_opcode`: the first opcode, in numeric order, that `is_opcode` accepts;
`none` is the source's `-1`. -/
def next_opcode (s : List Char) (p e : Nat) : Option ops_enum :=
  ops_enum.all.find? fun o => is_opcode s p e o

/-- The function `get_register`, called with `t ≤ end`: the first table index whose name is
shorter than the rest of the buffer and equal to the bytes at `t`; `none` is the source's
`-1`. -/
def get_register (s : List Char) (t e : Nat) : Option Nat :=
  (List.range REGISTERS_COUNT).find? fun i =>
    let name := registers_enum_strings.getD i []
    decide (name.length < e - t) && (bytesAt s t name.length == name)

/-! ## The C library function `strtol` with base 0 -/

/-- The test `isspace` of the C locale. -/
def isspace (c : Char) : Bool :=
  c == ' ' || c == '\t' || c == '\n' || c == Char.ofNat 11 || c == Char.ofNat 12 || c == '\r'

/-- Value of a character as a digit, for bases up to 36. -/
def digitVal (c : Char) : Option Nat :=
  let n := c.toNat
  if 48 ≤ n ∧ n ≤ 57 then some (n - 48)
  else if 97 ≤ n ∧ n ≤ 122 then some (n - 87)
  else if 65 ≤ n ∧ n ≤ 90 then some (n - 55)
  else none

/-- The digit loop of `strtol`: accumulates digits below `base` and stops at the first other
character.  `none` means the array ended before a stopping character was read. -/
def strtol_digits (base : Nat) : List Char → Nat → Option Nat
  | [], _ => none
  | c :: cs, acc =>
    match digitVal c with
    | some d => if d < base then strtol_digits base cs (acc * base + d) else some acc
    | none => some acc

/-- After white space and sign: base detection (`0x`/`0X` followed by a hexadecimal digit
selects 16, another leading `0` selects 8, anything else 10) and the digit loop. -/
def strtol_magnitude : List Char → Option Nat
  | [] => none
  | c :: cs =>
    if c == '0' then
      match cs with
      | [] => none
      | x :: ds =>
        if x == 'x' || x == 'X' then
          match ds with
          | [] => none
          | d :: _ =>
            match digitVal d with
            | some v => if v < 16 then strtol_digits 16 ds 0 else some 0
            | none => some 0
        else strtol_digits 8 cs 0
    else strtol_digits 10 (c :: cs) 0

/-- After white space: the optional sign, then the magnitude, saturated to the range of a
64-bit `long`. -/
def strtol_signed : List Char → Option Int
  | [] => none
  | c :: cs =>
    if c == '-' then
      (strtol_magnitude cs).map fun (m : Nat) => max (-(m : Int)) (-9223372036854775808)
    else if c == '+' then
      (strtol_magnitude cs).map fun (m : Nat) => min (m : Int) 9223372036854775807
    else
      (strtol_magnitude (c :: cs)).map fun (m : Nat) => min (m : Int) 9223372036854775807

/-- The call `strtol(buf, NULL, 0)` on the characters of an array: leading white space is
skipped first.  `none` means that the conversion reads beyond the array. -/
def strtol : List Char → Option Int
  | [] => none
  | c :: cs => if isspace c then strtol cs else strtol_signed (c :: cs)

/-! ## Programs and the assembler -/

/-- The fields of `struct program` that the assembler, the virtual machine and the round
resolver use.  `asmcode_len` is the length of `asmcode` and `bytecode_len` that of
`bytecode`. -/
structure program where
  hp : Int
  asmcode : List Char
  bytecode : List Int
  labels : Fin 10 → Int
  result : Int
  strength : Int

/-- The function `program_set_bytecode`. -/
def program_set_bytecode (p : program) (code : Int) : program :=
  { p with bytecode := p.bytecode ++ [code] }

/-- How a call of `parse_code` ends, followed as far as its first access outside `buf` or
`labels`.  The source makes such an access without a test and goes on; what it goes on with
depends on the memory next to the array, which this embedding does not hold, so the call is
followed no further here.  Its checks and cursor beyond that point are those of
`parse_checks`. -/
inductive parse_result where
  /-- The `return` after the loop, with the assembled program. -/
  | returned (p : program)
  /-- A failed `check`: `goto error`, `exit(100)`; the program as it stood then. -/
  | exit100 (p : program)
  /-- The call has reached a copy of an operand text that does not fit in `buf`, or a
  `strtol` that reads beyond `buf`; the program as it stood then. -/
  | buf_overflow (p : program)
  /-- The call has reached the store `labels[v]` with `v` outside `0 .. 9`; the program as
  it stood then. -/
  | label_out_of_bounds (p : program) (v : Int)
  /-- The iteration bound of the embedding was reached. -/
  | out_of_fuel (p : program)

/-- The lines `memset(buf, 0, sizeof(buf))`, `memcpy(buf, t, t_end - t)` and
`v = strtol(buf, NULL, 0)`: the integer read from the text `[t, t_end)`, as an `int`.
`none` when the text is longer than the 64 bytes of `buf` or the conversion leaves `buf`. -/
def read_int (s : List Char) (t t_end : Nat) : Option Int :=
  let n := t_end - t
  if 64 < n then none
  else (strtol (bytesAt s t n ++ List.replicate (64 - n) nul)).map wrap32

/-- Index into the label table for an `int`, when it is inside the table. -/
def label_index (v : Int) : Option (Fin 10) :=
  if h : 0 ≤ v ∧ v < 10 then some ⟨v.toNat, by omega⟩ else none

/-- One iteration of the `for (;;)` loop of `parse_code`, from the `switch` on: `up` is the
program so far, `t` the start of the mnemonic.  `Sum.inl (up, p)` continues the loop with the
cursor at `p`; `Sum.inr r` leaves `parse_code` through the error exit, or ends the part of
the call followed here at an access outside `buf` or `labels`, which the source makes
without a test. -/
def parse_instruction (s : List Char) (e : Nat) (up : program) (t : Nat) (opcode : ops_enum) :
    program × Nat ⊕ parse_result :=
  match opcode with
  | .STORE =>
    let up := program_set_bytecode up opcode.code
    let t := t + (ops_enum_strings opcode).length
    match skip_space s t e with
    | none => .inr (.exit100 up)
    | some t =>
    match get_register s t e with
    | none => .inr (.exit100 up)
    | some r =>
    let up := program_set_bytecode up r
    let t := t + 2
    match skip_space s t e with
    | none => .inr (.exit100 up)
    | some t =>
    match skip_comma s t e with
    | none => .inr (.exit100 up)
    | some t =>
    match skip_space s t e with
    | none => .inr (.exit100 up)
    | some t =>
    match next_eol s t e with
    | none => .inr (.exit100 up)
    | some t_end =>
    match read_int s t t_end with
    | none => .inr (.buf_overflow up)
    | some v =>
    let up := program_set_bytecode up v
    .inl (up, t_end)
  | .MOVE =>
    let up := program_set_bytecode up opcode.code
    let t := t + (ops_enum_strings opcode).length
    match skip_space s t e with
    | none => .inr (.exit100 up)
    | some t =>
    match get_register s t e with
    | none => .inr (.exit100 up)
    | some r =>
    let up := program_set_bytecode up r
    let t := t + 2
    match skip_space s t e with
    | none => .inr (.exit100 up)
    | some t =>
    match skip_comma s t e with
    | none => .inr (.exit100 up)
    | some t =>
    match skip_space s t e with
    | none => .inr (.exit100 up)
    | some t =>
    match next_eol s t e with
    | none => .inr (.exit100 up)
    | some t_end =>
    match get_register s t e with
    | none => .inr (.exit100 up)
    | some r =>
    let up := program_set_bytecode up r
    .inl (up, t_end)
  | .INC | .INCEQ | .DEC | .DECEQ =>
    let up := program_set_bytecode up opcode.code
    let t := t + (ops_enum_strings opcode).length
    match skip_space s t e with
    | none => .inr (.exit100 up)
    | some t =>
    match get_register s t e with
    | none => .inr (.exit100 up)
    | some r =>
    let t := t + 2
    let up := program_set_bytecode up r
    match next_eol s t e with
    | none => .inr (.exit100 up)
    | some t_end => .inl (up, t_end)
  | .LABEL | .JMP | .JMPLT | .JMPGT | .JMPNE | .JMPEQ =>
    let up := program_set_bytecode up opcode.code
    let t := t + (ops_enum_strings opcode).length
    match skip_space s t e with
    | none => .inr (.exit100 up)
    | some t =>
    match next_eol s t e with
    | none => .inr (.exit100 up)
    | some t_end =>
    match read_int s t t_end with
    | none => .inr (.buf_overflow up)
    | some v =>
    let up := program_set_bytecode up v
    if opcode = .LABEL then
      match label_index v with
      | none => .inr (.label_out_of_bounds up v)
      | some i =>
        .inl ({ up with labels := Function.update up.labels i ((up.bytecode.length : Int) - 1) },
          t_end)
    else .inl (up, t_end)
  | .CMP | .ADD | .SUB | .MUL | .RET =>
    let up := program_set_bytecode up opcode.code
    let t := t + (ops_enum_strings opcode).length
    .inl (up, t)

/-- The `for (;;)` loop of `parse_code`; the first argument bounds the number of iterations. -/
def parse_loop (s : List Char) (e : Nat) : Nat → program → Nat → parse_result
  | 0, up, _ => .out_of_fuel up
  | fuel + 1, up, p =>
    match skip_space s p e with
    | none => .exit100 up
    | some t =>
    match next_opcode s t e with
    | none => .returned up
    | some opcode =>
    match parse_instruction s e up t opcode with
    | .inl (up, p) => parse_loop s e fuel up p
    | .inr r => r

/-- The function `parse_code`.  Every iteration that continues moves the cursor forward, so
`asmcode_len + 1` iterations are enough for any input. -/
def parse_code (user_program : program) : parse_result :=
  let s := user_program.asmcode
  let e := s.length
  parse_loop s e (e + 1) { user_program with bytecode := [] } 0

/-! ## The virtual machine -/

/-- The array `int flags[FLAGS_COUNT]`, one field per index of `flags_enum`. -/
structure flags_t where
  LT : Int
  GT : Int
  EQ : Int
  ER : Int
  deriving DecidableEq, Repr

/-- The global state of the process: the two programs, `flags` and `registers`. -/
structure globals where
  user_program : Fin 2 → program
  flags : flags_t
  registers : Fin 11 → Int

/-- Index into `registers` for an `int`, when it is inside the array. -/
def register_index (v : Int) : Option (Fin 11) :=
  if h : 0 ≤ v ∧ v < 11 then some ⟨v.toNat, by omega⟩ else none

/-- The read `code[ip]`, defined for indices below `bytecode_len`. -/
def fetch (code : List Int) (ip : Int) : Option Int :=
  if 0 ≤ ip then code.get? ip.toNat else none

/-- The registers and flags, the part of the global state the loop of `fightvm_run_program`
changes. -/
structure machine where
  registers : Fin 11 → Int
  flags : flags_t

/-- The assignment `registers[r] = v`. -/
def machine.set (m : machine) (r : Fin 11) (v : Int) : machine :=
  { m with registers := Function.update m.registers r v }

/-- A C truth value as an `int`. -/
def c_bool (b : Bool) : Int := if b then 1 else 0

/-- The `switch (op)` of `fightvm_run_program` for the word `op` fetched at `ip`: the value of
`ip` before the closing `ip++` and the new registers and flags.  A word that is no opcode
matches no `case`.  `none` is an access outside `bytecode`, `registers` or `labels`. -/
def exec (code : List Int) (labels : Fin 10 → Int) (op ip : Int) (m : machine) :
    Option (Int × machine) :=
  match ops_enum.ofInt? op with
  | none => some (ip, m)
  | some .STORE => do
    let i0 ← fetch code (ip + 1)
    let i1 ← fetch code (ip + 2)
    let r ← register_index i0
    pure (ip + 2, m.set r i1)
  | some .MOVE => do
    let i0 ← fetch code (ip + 1)
    let i1 ← fetch code (ip + 2)
    let dst ← register_index i0
    let src ← register_index i1
    pure (ip + 2, m.set dst (m.registers src))
  | some .ADD => some (ip, m.set O0 (wrap32 (m.registers I0 + m.registers I1)))
  | some .SUB => some (ip, m.set O0 (wrap32 (m.registers I0 - m.registers I1)))
  | some .MUL => some (ip, m.set O0 (wrap32 (m.registers I0 * m.registers I1)))
  | some .INC => do
    let r ← (fetch code (ip + 1)).bind register_index
    pure (ip + 1, m.set r (wrap32 (m.registers r + 1)))
  | some .DEC => do
    let r ← (fetch code (ip + 1)).bind register_index
    pure (ip + 1, m.set r (wrap32 (m.registers r - 1)))
  | some .INCEQ =>
    if m.flags.EQ ≠ 0 then do
      let r ← (fetch code (ip + 1)).bind register_index
      pure (ip + 1, m.set r (wrap32 (m.registers r + 1)))
    else some (ip + 1, m)
  | some .DECEQ =>
    if m.flags.EQ ≠ 0 then do
      let r ← (fetch code (ip + 1)).bind register_index
      pure (ip + 1, m.set r (wrap32 (m.registers r - 1)))
    else some (ip + 1, m)
  | some .LABEL => some (ip + 1, m)
  | some .RET => some (code.length, m)
  | some .CMP =>
    let i0 := m.registers I0
    let i1 := m.registers I1
    some (ip, { m with flags :=
      { EQ := c_bool (decide (i0 = i1)), LT := c_bool (decide (i0 < i1)),
        GT := c_bool (decide (i0 > i1)), ER := 0 } })
  | some .JMPEQ => do
    let i0 ← fetch code (ip + 1)
    if m.flags.EQ ≠ 0 then (label_index i0).map fun l => (labels l, m) else pure (ip + 1, m)
  | some .JMPNE => do
    let i0 ← fetch code (ip + 1)
    if m.flags.EQ = 0 then (label_index i0).map fun l => (labels l, m) else pure (ip + 1, m)
  | some .JMPGT => do
    let i0 ← fetch code (ip + 1)
    if m.flags.GT ≠ 0 then (label_index i0).map fun l => (labels l, m) else pure (ip + 1, m)
  | some .JMPLT => do
    let i0 ← fetch code (ip + 1)
    if m.flags.LT ≠ 0 then (label_index i0).map fun l => (labels l, m) else pure (ip + 1, m)
  | some .JMP => do
    let i0 ← fetch code (ip + 1)
    (label_index i0).map fun l => (labels l, m)

/-- What one evaluation of the loop condition and, when it holds, one loop body give. -/
inductive step_result where
  /-- The body ran; the loop goes on with this `ip`. -/
  | running (ip : Int) (m : machine)
  /-- The loop condition failed; the loop is left. -/
  | halted (m : machine)
  /-- An access outside an array. -/
  | fault

/-- One round of `while (ip < len && (op = p->bytecode[ip]) != -1) { ... ip++; }`:
`tick` is the value `SDL_GetTicks()` returns in this round. -/
def step (code : List Int) (labels : Fin 10 → Int) (tick : Nat) (ip : Int) (m : machine) :
    step_result :=
  if ip < code.length then
    match fetch code ip with
    | none => .fault
    | some op =>
      if op = -1 then .halted m
      else
        match exec code labels op ip (m.set T0 (wrap32 tick)) with
        | none => .fault
        | some (ip, m) => .running (ip + 1) m
  else .halted m

/-- How the `while` loop of `fightvm_run_program` ends. -/
inductive loop_result where
  /-- The loop was left with these registers and flags. -/
  | done (m : machine)
  /-- An access outside an array. -/
  | fault
  /-- The loop is still running after the given number of rounds. -/
  | out_of_fuel

/-- The `while` loop of `fightvm_run_program`, for at most `fuel` rounds; `k` counts the
rounds done so far and `ticks k` is the clock value read in round `k`. -/
def run_loop (code : List Int) (labels : Fin 10 → Int) (ticks : Nat → Nat) :
    Nat → Nat → Int → machine → loop_result
  | 0, _, _, _ => .out_of_fuel
  | fuel + 1, k, ip, m =>
    match step code labels (ticks k) ip m with
    | .running ip m => run_loop code labels ticks fuel (k + 1) ip m
    | .halted m => .done m
    | .fault => .fault

/-- How a call of `fightvm_run_program` ends. -/
inductive run_result where
  /-- The call returned `intent`, leaving the global state `g`. -/
  | returned (intent : Int) (g : globals)
  /-- An access outside an array. -/
  | fault
  /-- The loop is still running after the given number of rounds. -/
  | out_of_fuel

/-- The registers at loop entry: all zero, then `C0` and `E0` set to the two health values. -/
def initial_registers (g : globals) (program_index : Fin 2) : Fin 11 → Int :=
  let registers : Fin 11 → Int := fun _ => 0
  if program_index = 0 then
    Function.update (Function.update registers C0 (g.user_program 0).hp) E0 (g.user_program 1).hp
  else
    Function.update (Function.update registers C0 (g.user_program 1).hp) E0 (g.user_program 0).hp

/-- The loop of `fightvm_run_program` from its entry state. -/
def run_program_loop (fuel : Nat) (ticks : Nat → Nat) (g : globals) (program_index : Fin 2) :
    loop_result :=
  let p := g.user_program program_index
  run_loop p.bytecode p.labels ticks fuel 0 0
    { registers := initial_registers g program_index, flags := g.flags }

/-- The lines after the loop: `R0` outside `0 .. 2` is set to `0`, then `R0` is returned. -/
def clamp_intent (m : machine) : machine :=
  if m.registers R0 < 0 ∨ m.registers R0 > 2 then m.set R0 0 else m

/-- The function `fightvm_run_program`, its loop bounded by `fuel` rounds. -/
def fightvm_run_program (fuel : Nat) (ticks : Nat → Nat) (g : globals) (program_index : Fin 2) :
    run_result :=
  match run_program_loop fuel ticks g program_index with
  | .done m =>
    let m := clamp_intent m
    .returned (m.registers R0) { g with registers := m.registers, flags := m.flags }
  | .fault => .fault
  | .out_of_fuel => .out_of_fuel

/-! ## The round resolver -/

/-- One row of `result_table`. -/
structure program_result_lut where
  program_one_intent : Int
  program_two_intent : Int
  program_one_damage_taken : Int
  program_two_damage_taken : Int

/-- The table `result_table`. -/
def result_table : List program_result_lut :=
  [⟨Attack, Attack, 5, 5⟩, ⟨Defend, Attack, 1, 0⟩, ⟨Attack, Defend, 0, 1⟩, ⟨Defend, Defend, 0, 0⟩]

/-- The function `randrange`, given the value `rand()` returns, which is not negative. -/
def randrange (rand : Nat) (lower upper : Int) : Int :=
  ((rand : Int) % (upper - lower + 1)) + lower

/-- The state of `fightvm_resolve_round`: the two programs, the array `results` and the
number of calls of `rand()` made so far. -/
structure round_state where
  user_program : Fin 2 → program
  results : Fin 2 → Int
  draws : Nat

/-- The body of the first loop of `fightvm_resolve_round` for index `i`; `rands k` is the
value of the call number `k` of `rand()`. -/
def resolve_gamble (rands : Nat → Nat) (st : round_state) (i : Fin 2) : round_state :=
  if st.results i = Gamble then
    let gamble_win : Bool := decide (randrange (rands st.draws) 1 100 > 90)
    let results := Function.update st.results i (if gamble_win then Attack else Defend)
    let user_program :=
      if gamble_win then
        Function.update st.user_program i
          { st.user_program i with strength := wrap32 ((st.user_program i).strength + 1) }
      else st.user_program
    { user_program := user_program, results := results, draws := st.draws + 1 }
  else st

/-- The body of the second loop of `fightvm_resolve_round` for the row `t`. -/
def apply_row (results : Fin 2 → Int) (up : Fin 2 → program) (t : program_result_lut) :
    Fin 2 → program :=
  if t.program_one_intent = results 0 ∧ t.program_two_intent = results 1 then
    let damage := wrap32 (t.program_one_damage_taken * (up 1).strength)
    let up := Function.update up 0 { up 0 with hp := wrap32 ((up 0).hp - damage) }
    let damage := wrap32 (t.program_two_damage_taken * (up 0).strength)
    Function.update up 1 { up 1 with hp := wrap32 ((up 1).hp - damage) }
  else up

/-- The second loop of `fightvm_resolve_round`: every row of `result_table` in turn. -/
def apply_damage (results : Fin 2 → Int) (up : Fin 2 → program) : Fin 2 → program :=
  result_table.foldl (apply_row results) up

/-- The last two lines of `fightvm_resolve_round`: health below `0` becomes `0`. -/
def clamp_hp (up : Fin 2 → program) : Fin 2 → program :=
  let up := if (up 0).hp < 0 then Function.update up 0 { up 0 with hp := 0 } else up
  if (up 1).hp < 0 then Function.update up 1 { up 1 with hp := 0 } else up

/-- The first loop of `fightvm_resolve_round`: Gamble resolution for program 0, then 1. -/
def resolve_gambles (rands : Nat → Nat) (st : round_state) : round_state :=
  resolve_gamble rands (resolve_gamble rands st 0) 1

/-- The function `fightvm_resolve_round`. -/
def fightvm_resolve_round (rands : Nat → Nat) (st : round_state) : round_state :=
  let st := resolve_gambles rands st
  { st with user_program := clamp_hp (apply_damage st.results st.user_program) }

/-! ## Observations and specification-side notions -/

/-- The value a call returned, when it returned. -/
def run_result.intent? : run_result → Option Int
  | .returned v _ => some v
  | _ => none

/-- The global state a call left, when it returned. -/
def run_result.globals? : run_result → Option globals
  | .returned _ g => some g
  | _ => none

/-- The registers and flags at loop exit, when the loop was left. -/
def loop_result.final? : loop_result → Option machine
  | .done m => some m
  | _ => none

/-- The program in its state at the end of `parse_code`, however the call ended. -/
def parse_result.program : parse_result → program
  | .returned p => p
  | .exit100 p => p
  | .buf_overflow p => p
  | .label_out_of_bounds p _ => p
  | .out_of_fuel p => p

/-- The assembled bytecode, when `parse_code` returned. -/
def parse_result.bytecode? : parse_result → Option (List Int)
  | .returned p => some p.bytecode
  | _ => none

/-- The three-line program of the specification's first testable property. -/
def demo_source : List Char := "STORE R0, 7\nMOVE O0, R0\nRET\n".toList

/-- A program record holding a source text, before assembly. -/
def program_of_source (src : List Char) (hp : Int) : program :=
  { hp := hp, asmcode := src, bytecode := [], labels := fun _ => 0, result := 0, strength := 1 }

/-- A program record holding bytecode and a label table. -/
def program_of_bytecode (code : List Int) (labels : Fin 10 → Int) (hp : Int) : program :=
  { hp := hp, asmcode := [], bytecode := code, labels := labels, result := 0, strength := 1 }

/-- Global state with all flags and registers zero. -/
def globals_of (p0 p1 : program) : globals :=
  { user_program := fun i => if i = 0 then p0 else p1, flags := ⟨0, 0, 0, 0⟩,
    registers := fun _ => 0 }

/-- The jump predicates as the specification words them: always for `JMP`, Equal set for
`JMPEQ`, Equal clear for `JMPNE`, GreaterThan set for `JMPGT`, LessThan set for `JMPLT`. -/
def jump_taken : ops_enum → flags_t → Bool
  | .JMP, _ => true
  | .JMPEQ, f => decide (f.EQ ≠ 0)
  | .JMPNE, f => decide (f.EQ = 0)
  | .JMPGT, f => decide (f.GT ≠ 0)
  | .JMPLT, f => decide (f.LT ≠ 0)
  | _, _ => false

/-- The five jump opcodes. -/
def jump_ops : List ops_enum := [.JMP, .JMPEQ, .JMPNE, .JMPGT, .JMPLT]

/-- The damage matrix as the specification words it: the pair (damage to program 0, damage
to program 1) before multiplication by the opponent's strength. -/
def damage_matrix (a b : Int) : Int × Int :=
  if a = Attack ∧ b = Attack then (5, 5)
  else if a = Attack ∧ b = Defend then (0, 1)
  else if a = Defend ∧ b = Attack then (1, 0)
  else (0, 0)

/-- The assembled form of a source text, in a program record with the given health. -/
def assemble (src : List Char) (hp : Int) : program :=
  (parse_code (program_of_source src hp)).program

/-- A source that writes only the arithmetic output register `O0`. -/
def output_only_source : List Char := "STORE O0, 1\nRET\n".toList

/-- A source that stores into the tick register `T0` and reads it back. -/
def tick_read_source : List Char := "STORE T0, 5\nMOVE R0, T0\n".toList

/-- A source that chooses Gamble. -/
def gamble_source : List Char := "STORE R0, 2\nRET\n".toList

/-- A machine state with all registers and flags zero. -/
def zero_machine : machine := { registers := fun _ => 0, flags := ⟨0, 0, 0, 0⟩ }

/-- Two programs with health 1000 and 40 and strengths 3 and 2. -/
def sample_programs : Fin 2 → program := fun i =>
  if i = 0 then { program_of_bytecode [] (fun _ => 0) 1000 with strength := 3 }
  else { program_of_bytecode [] (fun _ => 0) 40 with strength := 2 }

/-- Program 0 chooses Gamble and program 1 Attack, before any draw. -/
def attack_after_gamble : round_state :=
  { user_program := sample_programs, results := fun i => if i = 0 then Gamble else Attack,
    draws := 0 }

/-- Program 0 chooses Gamble and program 1 Defend, before any draw. -/
def gamble_state : round_state :=
  { user_program := sample_programs, results := fun i => if i = 0 then Gamble else Defend,
    draws := 0 }

/-- Both programs choose Gamble, before any draw. -/
def both_gamble_state : round_state :=
  { user_program := sample_programs, results := fun _ => Gamble, draws := 0 }

/-- Values of `rand()`: the first call returns 1234590, every later call 5. -/
def win_then_lose (k : Nat) : Nat := if k = 0 then 1234590 else 5

/-- The number of the call of `rand()` that resolves the Gamble of program `i` in
`fightvm_resolve_round`: the next call for program 0, and for program 1 the call after that
one when program 0 gambles too. -/
def gamble_draw (st : round_state) (i : Fin 2) : Nat :=
  if i = 1 ∧ st.results 0 = Gamble then st.draws + 1 else st.draws

/-! ## Integer literals and source lines, for stating claims about the assembler -/

/-- The three ways of writing an integer literal that `strtol` with base 0 tells apart. -/
inductive radix where
  | dec | hex | oct
  deriving DecidableEq

/-- The base a way of writing selects. -/
def radix.base : radix → Nat
  | .dec => 10 | .hex => 16 | .oct => 8

/-- The characters that announce the base: nothing, `0x`, or a leading `0`. -/
def radix.lead : radix → List Char
  | .dec => [] | .hex => ['0', 'x'] | .oct => ['0']

/-- The character for a digit value: `0 .. 9`, then `a .. f`. -/
def digit_char (d : Nat) : Char := Char.ofNat (if d < 10 then 48 + d else 87 + d)

/-- An integer literal: an optional minus sign, the way of writing, and the digit values
after the lead, most significant first. -/
structure int_literal where
  neg : Bool
  radix : radix
  digits : List Nat

/-- The characters of a literal as written in a source line. -/
def int_literal.text (l : int_literal) : List Char :=
  (if l.neg then ['-'] else []) ++ l.radix.lead ++ l.digits.map digit_char

/-- The integer a literal denotes, by positional notation in its base. -/
def int_literal.value (l : int_literal) : Int :=
  if l.neg then -(Nat.ofDigits l.radix.base l.digits.reverse : Nat)
  else (Nat.ofDigits l.radix.base l.digits.reverse : Nat)

/-- Every digit is below the base; a decimal literal has a digit and does not start with `0`;
a hexadecimal literal has a digit after `0x`. -/
def int_literal.well_formed (l : int_literal) : Prop :=
  (∀ d ∈ l.digits, d < l.radix.base) ∧
    match l.radix with
    | .dec => l.digits ≠ [] ∧ l.digits.head? ≠ some 0
    | .hex => l.digits ≠ []
    | .oct => True

instance (l : int_literal) : Decidable l.well_formed := by
  unfold int_literal.well_formed
  cases l.radix <;> infer_instance

/-- The two-character name of a register. -/
def register_name (r : Fin 11) : List Char := registers_enum_strings.getD r []

/-- The source line `STORE r, v` followed by a newline. -/
def store_line (r : Fin 11) (l : int_literal) : List Char :=
  ['S', 'T', 'O', 'R', 'E', ' '] ++ register_name r ++ [',', ' '] ++ l.text ++ ['\n']

/-- The opcode whose mnemonic is exactly the given token. -/
def opcode_of_token (tok : List Char) : Option ops_enum :=
  ops_enum.all.find? fun o => ops_enum_strings o == tok

/-- The function `get_register` on the characters from `t` to the end of the buffer. -/
def register_of_text (rest : List Char) : Option Nat :=
  (List.range REGISTERS_COUNT).find? fun i =>
    let name := registers_enum_strings.getD i []
    decide (name.length < rest.length) && (rest.take name.length == name)

/-- The opcode words the loop of `parse_code` emits, in order: for every round that reaches
the `switch`, the value of `bytecode_len` on entry, which is the index the opcode word is
written to, and the opcode.  The recursion is that of `parse_loop`. -/
def emitted_opcodes (s : List Char) (e : Nat) : Nat → program → Nat → List (Nat × ops_enum)
  | 0, _, _ => []
  | fuel + 1, up, p =>
    match skip_space s p e with
    | none => []
    | some t =>
    match next_opcode s t e with
    | none => []
    | some opcode =>
      (up.bytecode.length, opcode) ::
        match parse_instruction s e up t opcode with
        | .inl (up, p) => emitted_opcodes s e fuel up p
        | .inr _ => []

/-- The opcode words a call of `parse_code` emits, with their bytecode indices. -/
def parse_code_opcodes (user_program : program) : List (Nat × ops_enum) :=
  let s := user_program.asmcode
  let e := s.length
  emitted_opcodes s e (e + 1) { user_program with bytecode := [] } 0

/-- A source with a label and a backward jump to it. -/
def loop_source : List Char := "LABEL 3\nINC R1\nJMP 3\n".toList

/-! ## Further notions for claims about rounds, runs and sources -/

/-- One round of the match as the resolver sees it: the array `results` handed to
`fightvm_resolve_round` and the values `rand()` returns during the call. -/
def play_round (up : Fin 2 → program) (r : (Fin 2 → Int) × (Nat → Nat)) : Fin 2 → program :=
  (fightvm_resolve_round r.2 { user_program := up, results := r.1, draws := 0 }).user_program

/-- A sequence of rounds, each with its own intents and draws. -/
def play_rounds (up : Fin 2 → program) (rs : List ((Fin 2 → Int) × (Nat → Nat))) :
    Fin 2 → program :=
  rs.foldl play_round up

/-- The first whitespace-delimited token of a source text. -/
def first_token (s : List Char) : List Char :=
  (s.dropWhile isBlank).takeWhile fun c => !isBlank c

/-- The registers and flags with which the loop of `fightvm_run_program` is entered. -/
def entry_machine (g : globals) (program_index : Fin 2) : machine :=
  { registers := initial_registers g program_index, flags := g.flags }

/-- The words fetched as opcodes by the rounds of the loop of `fightvm_run_program` whose body
ran, in order.  The recursion is that of `run_loop`. -/
def executed_words (code : List Int) (labels : Fin 10 → Int) (ticks : Nat → Nat) :
    Nat → Nat → Int → machine → List Int
  | 0, _, _, _ => []
  | fuel + 1, k, ip, m =>
    match step code labels (ticks k) ip m with
    | .running ip1 m1 =>
      (fetch code ip).toList ++ executed_words code labels ticks fuel (k + 1) ip1 m1
    | .halted _ => []
    | .fault => []

/-- The state of the loop of `fightvm_run_program` after `n` rounds, starting from round
number `k`: `.running ip m` when all `n` bodies ran, otherwise how the loop ended before. -/
def steps (code : List Int) (labels : Fin 10 → Int) (ticks : Nat → Nat) :
    Nat → Nat → Int → machine → step_result
  | 0, _, ip, m => .running ip m
  | n + 1, k, ip, m =>
    match step code labels (ticks k) ip m with
    | .running ip1 m1 => steps code labels ticks n (k + 1) ip1 m1
    | .halted m1 => .halted m1
    | .fault => .fault

/-- A source that reaches a word that is no opcode: `JMP 3` jumps through the undeclared
label 3 to index 1, the operand 99 of the first instruction. -/
def stray_word_source : List Char :=
  "JMPEQ 99\nINCEQ R0\nJMPEQ 7\nCMP\nJMP 3\nLABEL 7\n".toList

/-- A source whose integer operand is missing. -/
def missing_int_source : List Char := "STORE R0,\n".toList

/-- A source whose last line has no line terminator. -/
def missing_eol_source : List Char := "STORE R0, 7".toList

/-- A source whose register operand is missing. -/
def missing_register_source : List Char := "CMP\nINC\n".toList

/-- A source declaring a label outside the label table. -/
def wide_label_source : List Char := "LABEL 10\n".toList

/-! ## The assembler without the checks on its scanners -/

/-- The pointer a scanner loop `for (; p < end && go(*p); ++p);` ends with, as the scanner
returns it when its final test `p <= end` holds. -/
def scan_from (go : Char → Bool) (s : List Char) (p e : Nat) : Nat := scan go s e (e - p) p

/-- The body of the loop of `parse_code` with every `check` on `skip_space`, `skip_comma` and
`next_eol` taken as passed: the only way to the error exit is a `get_register` lookup that
returns `-1`. -/
def parse_instruction_lookups (s : List Char) (e : Nat) (up : program) (t : Nat)
    (opcode : ops_enum) : program × Nat ⊕ parse_result :=
  match opcode with
  | .STORE =>
    let up := program_set_bytecode up opcode.code
    let t := scan_from isBlank s (t + (ops_enum_strings opcode).length) e
    match get_register s t e with
    | none => .inr (.exit100 up)
    | some r =>
    let up := program_set_bytecode up r
    let t := scan_from isBlank s (t + 2) e
    let t := scan_from (fun c => c == ',') s t e
    let t := scan_from isBlank s t e
    let t_end := scan_from (fun c => c != '\n') s t e
    match read_int s t t_end with
    | none => .inr (.buf_overflow up)
    | some v => .inl (program_set_bytecode up v, t_end)
  | .MOVE =>
    let up := program_set_bytecode up opcode.code
    let t := scan_from isBlank s (t + (ops_enum_strings opcode).length) e
    match get_register s t e with
    | none => .inr (.exit100 up)
    | some r =>
    let up := program_set_bytecode up r
    let t := scan_from isBlank s (t + 2) e
    let t := scan_from (fun c => c == ',') s t e
    let t := scan_from isBlank s t e
    let t_end := scan_from (fun c => c != '\n') s t e
    match get_register s t e with
    | none => .inr (.exit100 up)
    | some r => .inl (program_set_bytecode up r, t_end)
  | .INC | .INCEQ | .DEC | .DECEQ =>
    let up := program_set_bytecode up opcode.code
    let t := scan_from isBlank s (t + (ops_enum_strings opcode).length) e
    match get_register s t e with
    | none => .inr (.exit100 up)
    | some r =>
    let up := program_set_bytecode up r
    .inl (up, scan_from (fun c => c != '\n') s (t + 2) e)
  | .LABEL | .JMP | .JMPLT | .JMPGT | .JMPNE | .JMPEQ =>
    let up := program_set_bytecode up opcode.code
    let t := scan_from isBlank s (t + (ops_enum_strings opcode).length) e
    let t_end := scan_from (fun c => c != '\n') s t e
    match read_int s t t_end with
    | none => .inr (.buf_overflow up)
    | some v =>
    let up := program_set_bytecode up v
    if opcode = .LABEL then
      match label_index v with
      | none => .inr (.label_out_of_bounds up v)
      | some i =>
        .inl ({ up with labels := Function.update up.labels i ((up.bytecode.length : Int) - 1) },
          t_end)
    else .inl (up, t_end)
  | .CMP | .ADD | .SUB | .MUL | .RET =>
    .inl (program_set_bytecode up opcode.code, t + (ops_enum_strings opcode).length)

/-- The loop of `parse_code` with the checks on its scanners taken as passed. -/
def parse_loop_lookups (s : List Char) (e : Nat) : Nat → program → Nat → parse_result
  | 0, up, _ => .out_of_fuel up
  | fuel + 1, up, p =>
    let t := scan_from isBlank s p e
    match next_opcode s t e with
    | none => .returned up
    | some opcode =>
    match parse_instruction_lookups s e up t opcode with
    | .inl (up, p) => parse_loop_lookups s e fuel up p
    | .inr r => r

/-- The function `parse_code` with the checks on its scanners taken as passed. -/
def parse_code_lookups (user_program : program) : parse_result :=
  let s := user_program.asmcode
  let e := s.length
  parse_loop_lookups s e (e + 1) { user_program with bytecode := [] } 0

/-- The results of the `get_register` calls one loop body makes, in order, the scanner checks
taken as passed: one call for STORE and the four increment instructions, one or two for MOVE
(the second only after the first found a register), none for the other instructions. -/
def instruction_lookups (s : List Char) (e t : Nat) (opcode : ops_enum) : List (Option Nat) :=
  match opcode with
  | .STORE | .INC | .INCEQ | .DEC | .DECEQ =>
    [get_register s (scan_from isBlank s (t + (ops_enum_strings opcode).length) e) e]
  | .MOVE =>
    let t := scan_from isBlank s (t + (ops_enum_strings opcode).length) e
    match get_register s t e with
    | none => [none]
    | some r =>
      let t := scan_from isBlank s (t + 2) e
      let t := scan_from (fun c => c == ',') s t e
      let t := scan_from isBlank s t e
      [some r, get_register s t e]
  | _ => []

/-- The results of all `get_register` calls during the loop of `parse_code`, in order. -/
def loop_lookups (s : List Char) (e : Nat) : Nat → program → Nat → List (Option Nat)
  | 0, _, _ => []
  | fuel + 1, up, p =>
    let t := scan_from isBlank s p e
    match next_opcode s t e with
    | none => []
    | some opcode =>
      instruction_lookups s e t opcode ++
        match parse_instruction_lookups s e up t opcode with
        | .inl (up, p) => loop_lookups s e fuel up p
        | .inr _ => []

/-- The results of all `get_register` calls during a call of `parse_code`, in order. -/
def register_lookups (user_program : program) : List (Option Nat) :=
  let s := user_program.asmcode
  let e := s.length
  loop_lookups s e (e + 1) { user_program with bytecode := [] } 0

/-! ## The assembler on the rest of the buffer -/

/-- The lines `memset`, `memcpy` and `strtol` of `parse_code` on the operand text itself:
`read_int` when the text is given rather than its two ends. -/
def text_int (txt : List Char) : Option Int :=
  if 64 < txt.length then none
  else (strtol (txt ++ List.replicate (64 - txt.length) nul)).map wrap32

/-- The loop body of `parse_code`, scanner checks taken as passed, as a function of the
characters from the start of the mnemonic to the end of the buffer; where the body returns a
cursor, this returns the characters from that cursor to the end of the buffer. -/
def text_instruction (up : program) (opcode : ops_enum) (x : List Char) :
    program × List Char ⊕ parse_result :=
  match opcode with
  | .STORE =>
    let up := program_set_bytecode up opcode.code
    let x := (x.drop (ops_enum_strings opcode).length).dropWhile isBlank
    match register_of_text x with
    | none => .inr (.exit100 up)
    | some r =>
    let up := program_set_bytecode up r
    let x := (((x.drop 2).dropWhile isBlank).dropWhile fun c => c == ',').dropWhile isBlank
    match text_int (x.takeWhile fun c => c != '\n') with
    | none => .inr (.buf_overflow up)
    | some v => .inl (program_set_bytecode up v, x.dropWhile fun c => c != '\n')
  | .MOVE =>
    let up := program_set_bytecode up opcode.code
    let x := (x.drop (ops_enum_strings opcode).length).dropWhile isBlank
    match register_of_text x with
    | none => .inr (.exit100 up)
    | some r =>
    let up := program_set_bytecode up r
    let x := (((x.drop 2).dropWhile isBlank).dropWhile fun c => c == ',').dropWhile isBlank
    match register_of_text x with
    | none => .inr (.exit100 up)
    | some r => .inl (program_set_bytecode up r, x.dropWhile fun c => c != '\n')
  | .INC | .INCEQ | .DEC | .DECEQ =>
    let up := program_set_bytecode up opcode.code
    let x := (x.drop (ops_enum_strings opcode).length).dropWhile isBlank
    match register_of_text x with
    | none => .inr (.exit100 up)
    | some r => .inl (program_set_bytecode up r, (x.drop 2).dropWhile fun c => c != '\n')
  | .LABEL | .JMP | .JMPLT | .JMPGT | .JMPNE | .JMPEQ =>
    let up := program_set_bytecode up opcode.code
    let x := (x.drop (ops_enum_strings opcode).length).dropWhile isBlank
    match text_int (x.takeWhile fun c => c != '\n') with
    | none => .inr (.buf_overflow up)
    | some v =>
    let up := program_set_bytecode up v
    if opcode = .LABEL then
      match label_index v with
      | none => .inr (.label_out_of_bounds up v)
      | some i =>
        .inl ({ up with labels := Function.update up.labels i ((up.bytecode.length : Int) - 1) },
          x.dropWhile fun c => c != '\n')
    else .inl (up, x.dropWhile fun c => c != '\n')
  | .CMP | .ADD | .SUB | .MUL | .RET =>
    .inl (program_set_bytecode up opcode.code, x.drop (ops_enum_strings opcode).length)

/-- The loop of `parse_code`, scanner checks taken as passed, as a function of the characters
from the cursor to the end of the buffer. -/
def text_loop : Nat → program → List Char → parse_result
  | 0, up, _ => .out_of_fuel up
  | fuel + 1, up, x =>
    let x := x.dropWhile isBlank
    match opcode_of_token (x.takeWhile fun c => !isBlank c) with
    | none => .returned up
    | some opcode =>
    match text_instruction up opcode x with
    | .inl (up, x) => text_loop fuel up x
    | .inr r => r

/-- The instructions with a register operand. -/
def register_ops : List ops_enum := [.STORE, .MOVE, .INC, .DEC, .INCEQ, .DECEQ]

/-- The label id of an out-of-table store, when `parse_code` ended at one. -/
def parse_result.oob_label? : parse_result → Option Int
  | .label_out_of_bounds _ v => some v
  | _ => none

/-- Whether `parse_code` ended at its error exit. -/
def parse_result.is_exit : parse_result → Bool
  | .exit100 _ => true
  | _ => false

/-! ## Well-formed source lines -/

/-- The four instructions with one register operand. -/
def increment_ops : List ops_enum := [.INC, .DEC, .INCEQ, .DECEQ]

/-- The six instructions with one integer operand. -/
def integer_ops : List ops_enum := [.LABEL, .JMP, .JMPEQ, .JMPNE, .JMPGT, .JMPLT]

/-- The five instructions without operand. -/
def bare_ops : List ops_enum := [.CMP, .ADD, .SUB, .MUL, .RET]

/-- One instruction line of the grammar. -/
inductive source_line where
  /-- The line `STORE reg, int`. -/
  | store (r : Fin 11) (l : int_literal)
  /-- The line `MOVE reg, reg`. -/
  | move (r1 r2 : Fin 11)
  /-- A line `INC reg`, `DEC reg`, `INCEQ reg` or `DECEQ reg`. -/
  | reg (o : ops_enum) (r : Fin 11)
  /-- A line `LABEL int` or `JMP.. int`. -/
  | int (o : ops_enum) (l : int_literal)
  /-- A line `CMP`, `ADD`, `SUB`, `MUL` or `RET`. -/
  | bare (o : ops_enum)

/-- The mnemonic a line starts with. -/
def source_line.op : source_line → ops_enum
  | .store _ _ => .STORE
  | .move _ _ => .MOVE
  | .reg o _ => o
  | .int o _ => o
  | .bare o => o

/-- The text of a line after its mnemonic and before its newline: operands separated from
the mnemonic by one space and from each other by a comma and a space. -/
def source_line.operands : source_line → List Char
  | .store r l => [' '] ++ register_name r ++ [',', ' '] ++ l.text
  | .move r1 r2 => [' '] ++ register_name r1 ++ [',', ' '] ++ register_name r2
  | .reg _ r => [' '] ++ register_name r
  | .int _ l => [' '] ++ l.text
  | .bare _ => []

/-- The text of a line, its terminating newline included. -/
def source_line.text (l : source_line) : List Char :=
  ops_enum_strings l.op ++ l.operands ++ ['\n']

/-- The fixed-arity encoding of a line. -/
def source_line.encoding : source_line → List Int
  | .store r l => [(ops_enum.STORE.code : Int), ((r : Nat) : Int), l.value]
  | .move r1 r2 => [(ops_enum.MOVE.code : Int), ((r1 : Nat) : Int), ((r2 : Nat) : Int)]
  | .reg o r => [(o.code : Int), ((r : Nat) : Int)]
  | .int o l => [(o.code : Int), l.value]
  | .bare o => [(o.code : Int)]

/-- An integer operand as the claims take it: a well-formed literal of fewer than 64
characters whose value fits a C `int`. -/
def int_literal.fits (l : int_literal) : Prop :=
  l.well_formed ∧ l.text.length < 64 ∧ inInt32 l.value

instance (l : int_literal) : Decidable l.fits := by
  unfold int_literal.fits; infer_instance

/-- A line is well formed when its mnemonic takes the operands written and its integer
operand, if any, is one. -/
def source_line.well_formed : source_line → Prop
  | .store _ l => l.fits
  | .move _ _ => True
  | .reg o _ => o ∈ increment_ops
  | .int o l => o ∈ integer_ops ∧ l.fits
  | .bare o => o ∈ bare_ops

instance (l : source_line) : Decidable l.well_formed := by
  cases l <;> unfold source_line.well_formed <;> infer_instance

/-- A `LABEL` line whose id lies inside the 10-entry label table; every other line. -/
def source_line.in_table : source_line → Prop
  | .int o l => o = .LABEL → 0 ≤ l.value ∧ l.value < 10
  | _ => True

instance (l : source_line) : Decidable l.in_table := by
  cases l <;> unfold source_line.in_table <;> infer_instance

/-- The source text made of the given lines. -/
def source_text (lines : List source_line) : List Char :=
  (lines.map source_line.text).flatten

/-- The concatenation, in source order, of the encodings of the given lines. -/
def source_encoding (lines : List source_line) : List Int :=
  (lines.map source_line.encoding).flatten

/-- A seven-line program using every kind of line. -/
def sample_lines : List source_line :=
  [.int .LABEL ⟨false, .dec, [3]⟩, .store I0 ⟨true, .hex, [1, 15]⟩, .move I1 C0, .bare .CMP,
   .reg .INCEQ R0, .int .JMPEQ ⟨false, .oct, [3]⟩, .bare .RET]

/-! ## The layout of assembled bytecode -/

/-- The number of words the assembler emits for an instruction, which is the number of words
the virtual machine consumes for it. -/
def ops_enum.arity : ops_enum → Nat
  | .STORE | .MOVE => 3
  | .INC | .DEC | .INCEQ | .DECEQ | .LABEL | .JMP | .JMPEQ | .JMPNE | .JMPGT | .JMPLT => 2
  | .CMP | .ADD | .SUB | .MUL | .RET => 1

/-- The opcode words listed lie one instruction after the other from index `a` to index `b`:
the first is at `a`, each next one follows the operands of the one before, and the operands
of the last end at `b`. -/
def opcode_chain : List (Nat × ops_enum) → Nat → Nat → Prop
  | [], a, b => a = b
  | x :: xs, a, b => x.1 = a ∧ opcode_chain xs (a + x.2.arity) b

/-- The words of the instruction whose opcode word is listed as `x`: the opcode itself, a
register index in `0 .. 10` in each register operand, a label id in `0 .. 9` after LABEL. -/
def instruction_words (code : List Int) (x : Nat × ops_enum) : Prop :=
  code[x.1]? = some (x.2.code : Int) ∧
    (x.2 ∈ register_ops → ∃ r : Fin 11, code[x.1 + 1]? = some ((r : Nat) : Int)) ∧
    (x.2 = .MOVE → ∃ r : Fin 11, code[x.1 + 2]? = some ((r : Nat) : Int)) ∧
    (x.2 = .LABEL → ∃ n : Fin 10, code[x.1 + 1]? = some ((n : Nat) : Int))

/-- The instruction pointer is at an opcode word the assembler emitted. -/
def at_opcode (T : List (Nat × ops_enum)) (ip : Int) : Prop :=
  ∃ i o, (i, o) ∈ T ∧ ip = (i : Int)

/-! ## The checks of the assembler -/

/-- How the checks of one loop body of `parse_code` end. -/
inductive check_result where
  /-- Every check passed; the loop goes on with the cursor `p`. -/
  | next (p : Nat)
  /-- The check on `get_register(t, end)` failed: `goto error`. -/
  | register_missing (t : Nat)
  /-- A check on `skip_space`, `skip_comma` or `next_eol` failed: `goto error`. -/
  | scanner_failed
  deriving DecidableEq, Repr

/-- The checks and the cursor of one loop body of `parse_code`, from the `switch` on, in the
order of the source.  The calls of `program_set_bytecode`, the copy into `buf` with `strtol`
and the store into `labels` are left out: the source makes them without a test of its own
and goes on whatever they write, and no check reads `bytecode`, `buf` or `labels`.  `memcpy`
returns `buf`, which is not null, so the check on it passes.  A write outside its array is
taken to leave the source text and the cursor as they are and the process running. -/
def instruction_checks (s : List Char) (e t : Nat) (opcode : ops_enum) : check_result :=
  match opcode with
  | .STORE =>
    let t := t + (ops_enum_strings opcode).length
    match skip_space s t e with
    | none => .scanner_failed
    | some t =>
    match get_register s t e with
    | none => .register_missing t
    | some _ =>
    let t := t + 2
    match skip_space s t e with
    | none => .scanner_failed
    | some t =>
    match skip_comma s t e with
    | none => .scanner_failed
    | some t =>
    match skip_space s t e with
    | none => .scanner_failed
    | some t =>
    match next_eol s t e with
    | none => .scanner_failed
    | some t_end => .next t_end
  | .MOVE =>
    let t := t + (ops_enum_strings opcode).length
    match skip_space s t e with
    | none => .scanner_failed
    | some t =>
    match get_register s t e with
    | none => .register_missing t
    | some _ =>
    let t := t + 2
    match skip_space s t e with
    | none => .scanner_failed
    | some t =>
    match skip_comma s t e with
    | none => .scanner_failed
    | some t =>
    match skip_space s t e with
    | none => .scanner_failed
    | some t =>
    match next_eol s t e with
    | none => .scanner_failed
    | some t_end =>
    match get_register s t e with
    | none => .register_missing t
    | some _ => .next t_end
  | .INC | .INCEQ | .DEC | .DECEQ =>
    let t := t + (ops_enum_strings opcode).length
    match skip_space s t e with
    | none => .scanner_failed
    | some t =>
    match get_register s t e with
    | none => .register_missing t
    | some _ =>
    let t := t + 2
    match next_eol s t e with
    | none => .scanner_failed
    | some t_end => .next t_end
  | .LABEL | .JMP | .JMPLT | .JMPGT | .JMPNE | .JMPEQ =>
    let t := t + (ops_enum_strings opcode).length
    match skip_space s t e with
    | none => .scanner_failed
    | some t =>
    match next_eol s t e with
    | none => .scanner_failed
    | some t_end => .next t_end
  | .CMP | .ADD | .SUB | .MUL | .RET => .next (t + (ops_enum_strings opcode).length)

/-- How the loop of `parse_code` is left, its checks alone considered. -/
inductive checks_result where
  /-- No opcode at the cursor: `break`, and `parse_code` returns. -/
  | returned
  /-- The check on `get_register(t, end)` failed: `goto error`, `exit(100)`. -/
  | register_missing (t : Nat)
  /-- A check on `skip_space`, `skip_comma` or `next_eol` failed: `goto error`,
  `exit(100)`. -/
  | scanner_failed
  /-- The iteration bound of the embedding was reached. -/
  | out_of_fuel
  deriving DecidableEq, Repr

/-- The checks and the cursor of the `for (;;)` loop of `parse_code`; the first argument
bounds the number of iterations. -/
def parse_checks (s : List Char) (e : Nat) : Nat → Nat → checks_result
  | 0, _ => .out_of_fuel
  | fuel + 1, p =>
    match skip_space s p e with
    | none => .scanner_failed
    | some t =>
    match next_opcode s t e with
    | none => .returned
    | some opcode =>
    match instruction_checks s e t opcode with
    | .next p => parse_checks s e fuel p
    | .register_missing t => .register_missing t
    | .scanner_failed => .scanner_failed

/-- The checks and the cursor of `parse_code` on the buffer `s` of `asmcode_len = s.length`
characters. -/
def parse_code_checks (s : List Char) : checks_result :=
  parse_checks s s.length (s.length + 1) 0

/-- Whether the loop was left through `goto error`. -/
def checks_result.is_exit : checks_result → Bool
  | .register_missing _ => true
  | .scanner_failed => true
  | _ => false

/-- The two lines `LABEL -2` and `RET`. -/
def negative_label_lines : List source_line :=
  [.int .LABEL ⟨true, .dec, [2]⟩, .bare .RET]

/-- A source that declares the label -1 and goes on with another instruction. -/
def minus_one_label_source : List Char := "LABEL -1\nRET\n".toList

theorem wrap32_of_inInt32 {x : Int} (h : inInt32 x) : wrap32 x = x := by
  unfold inInt32 at h
  unfold wrap32
  omega

theorem fetch_lt {code : List Int} {ip w : Int} (h : fetch code ip = some w) :
    0 ≤ ip ∧ ip < code.length := by
  unfold fetch at h
  split at h
  · obtain ⟨hl, _⟩ := List.get?_eq_some.mp h
    omega
  · cases h

theorem label_index_coe (n : Fin 10) : label_index ((n : Nat) : Int) = some n := by
  unfold label_index
  have h : (0 : Int) ≤ ((n : Nat) : Int) ∧ ((n : Nat) : Int) < 10 := by omega
  rw [dif_pos h]
  congr 1

theorem register_index_coe (r : Fin 11) : register_index ((r : Nat) : Int) = some r := by
  unfold register_index
  have h : (0 : Int) ≤ ((r : Nat) : Int) ∧ ((r : Nat) : Int) < 11 := by omega
  rw [dif_pos h]
  congr 1

/-- A loop round at an index holding a word other than `-1` runs the `switch` after the tick
register is refreshed, then increments `ip`. -/
theorem step_of_fetch {code : List Int} {labels : Fin 10 → Int} {tick : Nat} {ip : Int}
    {m : machine} {op : Int} (h : fetch code ip = some op) (hne : op ≠ -1) :
    step code labels tick ip m =
      match exec code labels op ip (m.set T0 (wrap32 tick)) with
      | none => .fault
      | some (ip, m) => .running (ip + 1) m := by
  unfold step
  rw [if_pos (fetch_lt h).2, h]
  simp only [if_neg hne]

/-- The value returned is `R0` at loop exit when that is `0`, `1` or `2`, and `0` otherwise. -/
theorem intent_eq_clamped_R0 (fuel : Nat) (ticks : Nat → Nat) (g : globals) (i : Fin 2) :
    (fightvm_run_program fuel ticks g i).intent? =
      (run_program_loop fuel ticks g i).final?.map fun m =>
        if 0 ≤ m.registers R0 ∧ m.registers R0 ≤ 2 then m.registers R0 else Defend := by
  unfold fightvm_run_program
  cases h : run_program_loop fuel ticks g i with
  | done m =>
    simp only [run_result.intent?, loop_result.final?, Option.map, clamp_intent]
    by_cases h1 : m.registers R0 < 0 ∨ m.registers R0 > 2
    · rw [if_pos h1, if_neg (by omega)]; simp [machine.set, Defend]
    · rw [if_neg h1, if_pos (by omega)]
  | fault => rfl
  | out_of_fuel => rfl

theorem demo_assembles (up : program) (hsrc : up.asmcode = demo_source) :
    (parse_code up).bytecode? = some [7, 0, 7, 8, 9, 0, 16] := by
  unfold parse_code
  rw [hsrc]
  rfl

theorem randrange_bounds (rand : Nat) :
    1 ≤ randrange rand 1 100 ∧ randrange rand 1 100 ≤ 100 := by
  unfold randrange
  omega

/-! ## The lexer and the assembler on the rest of the buffer -/

theorem scan_drop (go : Char → Bool) (s : List Char) :
    ∀ (fuel p : Nat), s.length - p ≤ fuel →
      scan go s s.length fuel p = p + ((s.drop p).takeWhile go).length := by
  intro fuel
  induction fuel with
  | zero =>
    intro p h
    have : s.drop p = [] := List.drop_eq_nil_of_le (by omega)
    simp [scan, this]
  | succ f ih =>
    intro p h
    by_cases hp : p < s.length
    · rw [List.drop_eq_getElem_cons hp]
      have hg : s.getD p nul = s[p] := List.getD_eq_getElem _ _ hp
      by_cases hgo : go s[p] = true
      · rw [scan, if_pos ⟨hp, by rw [hg]; exact hgo⟩, ih (p + 1) (by omega),
          List.takeWhile_cons_of_pos hgo]
        simp only [List.length_cons]
        omega
      · rw [scan, if_neg (by rw [hg]; tauto), List.takeWhile_cons_of_neg hgo]
        simp
    · have : s.drop p = [] := List.drop_eq_nil_of_le (by omega)
      rw [scan, if_neg (by tauto), this]
      simp

theorem scanner_drop (go : Char → Bool) (s : List Char) (p : Nat) (hp : p ≤ s.length) :
    inBuffer s.length (scan go s s.length (s.length - p) p) =
      some (p + ((s.drop p).takeWhile go).length) := by
  rw [scan_drop go s _ p le_rfl]
  unfold inBuffer
  have h1 : ((s.drop p).takeWhile go).length ≤ (s.drop p).length :=
    (List.takeWhile_sublist go).length_le
  rw [List.length_drop] at h1
  rw [if_pos (by omega)]

theorem skip_space_drop (s : List Char) (p : Nat) (hp : p ≤ s.length) :
    skip_space s p s.length = some (p + ((s.drop p).takeWhile isBlank).length) :=
  scanner_drop _ s p hp

theorem next_space_drop (s : List Char) (p : Nat) (hp : p ≤ s.length) :
    next_space s p s.length =
      some (p + ((s.drop p).takeWhile fun c => !isBlank c).length) :=
  scanner_drop _ s p hp

theorem skip_comma_drop (s : List Char) (p : Nat) (hp : p ≤ s.length) :
    skip_comma s p s.length = some (p + ((s.drop p).takeWhile fun c => c == ',').length) :=
  scanner_drop _ s p hp

theorem next_eol_drop (s : List Char) (p : Nat) (hp : p ≤ s.length) :
    next_eol s p s.length = some (p + ((s.drop p).takeWhile fun c => c != '\n').length) :=
  scanner_drop _ s p hp

theorem bytesAt_takeWhile (go : Char → Bool) (s : List Char) (p : Nat) :
    bytesAt s p ((s.drop p).takeWhile go).length = (s.drop p).takeWhile go := by
  unfold bytesAt
  have h := List.take_left ((s.drop p).takeWhile go) ((s.drop p).dropWhile go)
  rwa [List.takeWhile_append_dropWhile] at h

theorem next_opcode_drop (s : List Char) (p : Nat) (hp : p ≤ s.length) :
    next_opcode s p s.length = opcode_of_token ((s.drop p).takeWhile fun c => !isBlank c) := by
  unfold next_opcode opcode_of_token
  congr 1
  funext o
  unfold is_opcode
  rw [next_space_drop s p hp]
  simp only [Nat.add_sub_cancel_left]
  rw [bytesAt_takeWhile]
  by_cases h : (ops_enum_strings o).length =
      ((s.drop p).takeWhile fun c => !isBlank c).length
  · rw [if_neg (not_not.mpr h), Bool.eq_iff_iff]
    simp only [beq_iff_eq]
    exact eq_comm
  · rw [if_pos h]
    symm
    rw [beq_eq_false_iff_ne]
    intro hc
    exact h (by rw [hc])

theorem get_register_drop (s : List Char) (t : Nat) :
    get_register s t s.length = register_of_text (s.drop t) := by
  unfold get_register register_of_text bytesAt
  rw [List.length_drop]

theorem register_of_text_name (r : Fin 11) (c : Char) (rest : List Char) :
    register_of_text (register_name r ++ c :: rest) = some (r : Nat) := by
  have hr : List.range REGISTERS_COUNT = [0, 1, 2, 3, 4, 5, 6, 7, 8, 9, 10] := by decide
  unfold register_of_text
  rw [hr]
  fin_cases r <;> simp [register_name, registers_enum_strings, List.find?]

theorem register_name_shape (r : Fin 11) :
    ∃ a b, register_name r = [a, b] ∧ isBlank a = false := by
  fin_cases r <;> exact ⟨_, _, rfl, by decide⟩

theorem opcode_of_token_STORE : opcode_of_token ['S', 'T', 'O', 'R', 'E'] = some .STORE := by
  decide

theorem store_line_loop (up : program) (r : Fin 11) (txt : List Char) (v : Int) (fuel : Nat)
    (s : List Char) (c0 : Char) (cs : List Char) (htxt : txt = c0 :: cs)
    (hc0 : isBlank c0 = false) (hnl : ∀ c ∈ txt, (c != '\n') = true)
    (hlen : txt.length ≤ 64)
    (hv : (strtol (txt ++ List.replicate (64 - txt.length) nul)).map wrap32 = some v)
    (hs : s = ['S', 'T', 'O', 'R', 'E', ' '] ++ register_name r ++ [',', ' '] ++ txt ++ ['\n'])
    (hfuel : 2 ≤ fuel) :
    parse_loop s s.length fuel up 0 =
      .returned { up with bytecode := up.bytecode ++ [7, ((r : Nat) : Int), v] } := by
  obtain ⟨f, rfl⟩ : ∃ f, fuel = f + 2 := ⟨fuel - 2, by omega⟩
  obtain ⟨a, b, hab, ha⟩ := register_name_shape r
  have hs' : s = 'S' :: 'T' :: 'O' :: 'R' :: 'E' :: ' ' :: (register_name r ++
      ',' :: ' ' :: (txt ++ ['\n'])) := by
    rw [hs]; simp
  have hs'' : s = 'S' :: 'T' :: 'O' :: 'R' :: 'E' :: ' ' :: a :: b ::
      ',' :: ' ' :: (txt ++ ['\n']) := by
    rw [hs', hab]; simp
  have hL : s.length = txt.length + 11 := by rw [hs'']; simp
  have d0 : s.drop 0 = s := rfl
  have d5 : s.drop 5 = ' ' :: (register_name r ++ ',' :: ' ' :: (txt ++ ['\n'])) := by
    rw [hs']; rfl
  have d6 : s.drop 6 = register_name r ++ ',' :: ' ' :: (txt ++ ['\n']) := by
    rw [hs']; rfl
  have d8 : s.drop 8 = ',' :: ' ' :: (txt ++ ['\n']) := by
    rw [hs'']; rfl
  have d9 : s.drop 9 = ' ' :: (txt ++ ['\n']) := by
    rw [hs'']; rfl
  have d10 : s.drop 10 = txt ++ ['\n'] := by
    rw [hs'']; rfl
  have dE : s.drop (10 + txt.length) = ['\n'] := by
    rw [← List.drop_drop, d10, List.drop_left]
  have dEE : s.drop (10 + txt.length + 1) = [] := by
    rw [← List.drop_drop, dE]; rfl
  -- first round
  have e1 : skip_space s 0 s.length = some 0 := by
    rw [skip_space_drop _ _ (Nat.zero_le _), d0, hs'']
    simp [isBlank]
  have e2 : next_opcode s 0 s.length = some .STORE := by
    rw [next_opcode_drop _ _ (Nat.zero_le _), d0, hs'']
    have : List.takeWhile (fun c => !isBlank c) ('S' :: 'T' :: 'O' :: 'R' :: 'E' :: ' ' :: a ::
        b :: ',' :: ' ' :: (txt ++ ['\n'])) = ['S', 'T', 'O', 'R', 'E'] := by
      simp [isBlank]
    rw [this]
    exact opcode_of_token_STORE
  have e3 : skip_space s 5 s.length = some 6 := by
    rw [skip_space_drop _ _ (by omega), d5, hab, List.cons_append,
      List.takeWhile_cons_of_pos (by decide), List.cons_append,
      List.takeWhile_cons_of_neg (by simp [ha])]
    rfl
  have e4 : get_register s 6 s.length = some (r : Nat) := by
    rw [get_register_drop, d6]
    exact register_of_text_name r _ _
  have e5 : skip_space s 8 s.length = some 8 := by
    rw [skip_space_drop _ _ (by omega), d8]
    simp [isBlank]
  have e6 : skip_comma s 8 s.length = some 9 := by
    rw [skip_comma_drop _ _ (by omega), d8]
    simp
  have e7 : skip_space s 9 s.length = some 10 := by
    rw [skip_space_drop _ _ (by omega), d9, htxt, List.takeWhile_cons_of_pos (by decide),
      List.cons_append, List.takeWhile_cons_of_neg (by simp [hc0])]
    rfl
  have e8 : next_eol s 10 s.length = some (10 + txt.length) := by
    rw [next_eol_drop _ _ (by omega), d10, List.takeWhile_append_of_pos hnl]
    simp
  have e9 : read_int s 10 (10 + txt.length) = some v := by
    unfold read_int bytesAt
    simp only [Nat.add_sub_cancel_left]
    rw [if_neg (by omega), d10, List.take_left]
    exact hv
  -- second round
  have e10 : skip_space s (10 + txt.length) s.length = some s.length := by
    rw [skip_space_drop _ _ (by omega), dE]
    simp [isBlank]
    omega
  have e11 : next_opcode s s.length s.length = none := by
    rw [next_opcode_drop _ _ le_rfl, List.drop_length]
    decide
  rw [parse_loop, e1]
  simp only [e2, parse_instruction, ops_enum_strings, List.length_cons, List.length_nil,
    Nat.zero_add, Nat.reduceAdd, e3, e4, e5, e6, e7, e8, e9]
  rw [parse_loop, e10]
  simp only [e11, program_set_bytecode, ops_enum.code, List.append_assoc, List.cons_append,
    List.nil_append, Nat.cast_ofNat]

theorem digit_char_facts (d : Nat) (h : d < 16) :
    digitVal (digit_char d) = some d ∧ isBlank (digit_char d) = false ∧
      isspace (digit_char d) = false ∧ (digit_char d != '\n') = true ∧
      (digit_char d == '-') = false ∧ (digit_char d == '+') = false ∧
      (digit_char d == 'x') = false ∧ (digit_char d == 'X') = false ∧
      (digit_char d == '0') = decide (d = 0) := by
  interval_cases d <;> decide

theorem strtol_digits_map (base : Nat) (hb : base ≤ 16) (stop : Char)
    (hstop : digitVal stop = none) (rest : List Char) :
    ∀ (ds : List Nat) (acc : Nat), (∀ d ∈ ds, d < base) →
      strtol_digits base (ds.map digit_char ++ stop :: rest) acc =
        some (ds.foldl (fun a d => a * base + d) acc) := by
  intro ds
  induction ds with
  | nil =>
    intro acc _
    simp [strtol_digits, hstop]
  | cons d ds ih =>
    intro acc h
    have hd : d < base := h d (List.mem_cons_self _ _)
    have hv := (digit_char_facts d (by omega)).1
    simp only [List.map_cons, List.cons_append, strtol_digits, hv, if_pos hd, List.foldl_cons]
    exact ih _ fun x hx => h x (List.mem_cons_of_mem _ hx)

theorem foldl_digits (base : Nat) :
    ∀ (ds : List Nat) (acc : Nat),
      ds.foldl (fun a d => a * base + d) acc =
        acc * base ^ ds.length + Nat.ofDigits base ds.reverse := by
  intro ds
  induction ds with
  | nil => intro acc; simp
  | cons d ds ih =>
    intro acc
    rw [List.foldl_cons, ih, List.reverse_cons, Nat.ofDigits_append, Nat.ofDigits_singleton,
      List.length_reverse, List.length_cons]
    ring

theorem strtol_digits_literal (base : Nat) (hb : base ≤ 16) (rest : List Char)
    (ds : List Nat) (h : ∀ d ∈ ds, d < base) :
    strtol_digits base (ds.map digit_char ++ nul :: rest) 0 =
      some (Nat.ofDigits base ds.reverse) := by
  rw [strtol_digits_map base hb nul (by decide) rest ds 0 h, foldl_digits]
  simp

theorem strtol_magnitude_literal (l : int_literal) (hwf : l.well_formed) (rest : List Char) :
    strtol_magnitude (l.radix.lead ++ l.digits.map digit_char ++ nul :: rest) =
      some (Nat.ofDigits l.radix.base l.digits.reverse) := by
  obtain ⟨hd, hshape⟩ := hwf
  cases hr : l.radix with
  | dec =>
    rw [hr] at hd hshape
    obtain ⟨hne, hhead⟩ := hshape
    cases hds : l.digits with
    | nil => exact absurd hds hne
    | cons d ds =>
      rw [hds] at hd hhead
      have hd0 : d ≠ 0 := by
        intro h; apply hhead; simp [h]
      have hlt : d < 10 := hd d (List.mem_cons_self _ _)
      have hf := digit_char_facts d (by omega)
      have h0 : (digit_char d == '0') = false := by rw [hf.2.2.2.2.2.2.2.2]; simp [hd0]
      have := strtol_digits_literal 10 (by decide) rest (d :: ds) hd
      simp only [radix.lead, radix.base, List.nil_append, List.map_cons, List.cons_append,
        strtol_magnitude, h0, Bool.false_eq_true, if_false] at this ⊢
      exact this
  | hex =>
    rw [hr] at hd hshape
    cases hds : l.digits with
    | nil => exact absurd hds hshape
    | cons d ds =>
      rw [hds] at hd
      have hlt : d < 16 := hd d (List.mem_cons_self _ _)
      have hf := digit_char_facts d hlt
      have := strtol_digits_literal 16 (by decide) rest (d :: ds) hd
      simp only [radix.lead, radix.base, List.map_cons, List.cons_append, List.nil_append,
        strtol_magnitude, beq_self_eq_true, if_true, Bool.true_or, hf.1, if_pos hlt] at this ⊢
      exact this
  | oct =>
    rw [hr] at hd
    have := strtol_digits_literal 8 (by decide) rest l.digits hd
    cases hds : l.digits with
    | nil =>
      rw [hds] at this
      simp only [radix.lead, radix.base, List.map_nil, List.cons_append, List.nil_append,
        strtol_magnitude, beq_self_eq_true, if_true] at this ⊢
      have hx : (nul == 'x' || nul == 'X') = false := by decide
      simp only [hx, Bool.false_eq_true, if_false]
      exact this
    | cons d ds =>
      rw [hds] at this hd
      have hlt : d < 8 := hd d (List.mem_cons_self _ _)
      have hf := digit_char_facts d (by omega)
      simp only [radix.lead, radix.base, List.map_cons, List.cons_append, List.nil_append,
        strtol_magnitude, beq_self_eq_true, if_true, hf.2.2.2.2.2.2.1, hf.2.2.2.2.2.2.2.1,
        Bool.or_self, Bool.false_eq_true, if_false] at this ⊢
      exact this

theorem lead_or_digit_head (l : int_literal) (hwf : l.well_formed) (rest : List Char) :
    ∃ c cs, l.radix.lead ++ l.digits.map digit_char ++ nul :: rest = c :: cs ∧
      isspace c = false ∧ (c == '-') = false ∧ (c == '+') = false := by
  obtain ⟨hd, hshape⟩ := hwf
  cases hr : l.radix with
  | dec =>
    rw [hr] at hd hshape
    cases hds : l.digits with
    | nil => exact absurd hds hshape.1
    | cons d ds =>
      rw [hds] at hd
      have hlt : d < 10 := hd d (List.mem_cons_self _ _)
      have hf := digit_char_facts d (by omega)
      exact ⟨_, _, rfl, hf.2.2.1, hf.2.2.2.2.1, hf.2.2.2.2.2.1⟩
  | hex => exact ⟨_, _, rfl, by decide, by decide, by decide⟩
  | oct => exact ⟨_, _, rfl, by decide, by decide, by decide⟩

theorem strtol_literal (l : int_literal) (hwf : l.well_formed) (hfit : inInt32 l.value)
    (rest : List Char) :
    (strtol (l.text ++ nul :: rest)).map wrap32 = some l.value := by
  have hm := strtol_magnitude_literal l hwf rest
  obtain ⟨c, cs, hcs, h1, h2, h3⟩ := lead_or_digit_head l hwf rest
  have hfit' := hfit
  unfold inInt32 int_literal.value at hfit'
  cases hn : l.neg with
  | true =>
    rw [hn] at hfit'
    simp only [if_true] at hfit'
    have ht : l.text ++ nul :: rest =
        '-' :: (l.radix.lead ++ l.digits.map digit_char ++ nul :: rest) := by
      simp [int_literal.text, hn]
    have hsp : isspace '-' = false := by decide
    rw [ht, strtol, hsp]
    simp only [Bool.false_eq_true, if_false, strtol_signed, beq_self_eq_true, if_true, hm,
      Option.map_some']
    rw [max_eq_left (by omega)]
    have : l.value = -((Nat.ofDigits l.radix.base l.digits.reverse : Nat) : Int) := by
      simp [int_literal.value, hn]
    rw [← this, wrap32_of_inInt32 hfit]
  | false =>
    rw [hn] at hfit'
    simp only [Bool.false_eq_true, if_false] at hfit'
    have ht : l.text ++ nul :: rest = c :: cs := by
      rw [← hcs]; simp [int_literal.text, hn]
    rw [ht, strtol, h1]
    simp only [Bool.false_eq_true, if_false, strtol_signed, h2, h3]
    rw [← hcs, hm]
    simp only [Option.map_some']
    rw [min_eq_left (by omega)]
    have : l.value = ((Nat.ofDigits l.radix.base l.digits.reverse : Nat) : Int) := by
      simp [int_literal.value, hn]
    rw [← this, wrap32_of_inInt32 hfit]

theorem text_chars (l : int_literal) (hwf : l.well_formed) :
    ∀ c ∈ l.text, (c != '\n') = true ∧ isBlank c = false := by
  intro c hc
  unfold int_literal.text at hc
  rw [List.mem_append, List.mem_append] at hc
  rcases hc with (hc | hc) | hc
  · cases hn : l.neg with
    | true =>
      rw [hn] at hc
      simp only [if_true, List.mem_singleton] at hc
      subst hc
      exact ⟨by decide, by decide⟩
    | false => rw [hn] at hc; simp at hc
  · cases hr : l.radix with
    | dec => rw [hr] at hc; simp [radix.lead] at hc
    | hex =>
      rw [hr] at hc
      simp only [radix.lead, List.mem_cons, List.mem_singleton, List.not_mem_nil, or_false] at hc
      rcases hc with rfl | rfl <;> exact ⟨by decide, by decide⟩
    | oct =>
      rw [hr] at hc
      simp only [radix.lead, List.mem_singleton] at hc
      subst hc
      exact ⟨by decide, by decide⟩
  · obtain ⟨d, hd, rfl⟩ := List.mem_map.mp hc
    have hlt : d < 16 := by
      have h1 := hwf.1 d hd
      have h2 : l.radix.base ≤ 16 := by cases l.radix <;> decide
      omega
    have hf := digit_char_facts d hlt
    exact ⟨hf.2.2.2.1, hf.2.1⟩

theorem text_ne_nil (l : int_literal) (hwf : l.well_formed) : l.text ≠ [] := by
  obtain ⟨_, hshape⟩ := hwf
  unfold int_literal.text
  cases hr : l.radix with
  | dec =>
    rw [hr] at hshape
    cases hds : l.digits with
    | nil => exact absurd hds hshape.1
    | cons d ds => simp [hds]
  | hex => simp [radix.lead]
  | oct => simp [radix.lead]

theorem label_index_some {v : Int} {i : Fin 10} (h : label_index v = some i) :
    v = ((i : Nat) : Int) := by
  unfold label_index at h
  split at h
  · rename_i hv
    cases h
    simp
    omega
  · cases h

theorem parse_instruction_spec (s : List Char) (e : Nat) (up up1 : program) (t p1 : Nat)
    (o : ops_enum) (h : parse_instruction s e up t o = .inl (up1, p1)) :
    ∃ ws, up1.bytecode = up.bytecode ++ (o.code : Int) :: ws ∧
      (o = .LABEL → ∃ n : Fin 10, ws = [((n : Nat) : Int)] ∧
        up1.labels = Function.update up.labels n ((up.bytecode.length : Int) + 1)) ∧
      (o ≠ .LABEL → up1.labels = up.labels) := by
  cases o <;> simp only [parse_instruction, reduceCtorEq, if_false, if_true] at h <;>
    (repeat' split at h) <;>
    simp only [Sum.inl.injEq, Prod.mk.injEq, reduceCtorEq] at h <;>
    obtain ⟨rfl, rfl⟩ := h <;>
    simp [program_set_bytecode]
  rename_i i hi
  exact ⟨i, label_index_some hi, by ring_nf⟩

theorem parse_instruction_not_returned (s : List Char) (e : Nat) (up P : program) (t : Nat)
    (o : ops_enum) : parse_instruction s e up t o ≠ .inr (.returned P) := by
  intro h
  cases o <;> simp only [parse_instruction, reduceCtorEq, if_false, if_true] at h <;>
    (repeat' split at h) <;>
    simp only [Sum.inr.injEq, reduceCtorEq] at h

theorem parse_loop_succ_returned (s : List Char) (e fuel : Nat) (up P : program) (p : Nat)
    (h : parse_loop s e (fuel + 1) up p = .returned P) :
    (emitted_opcodes s e (fuel + 1) up p = [] ∧ P = up) ∨
      ∃ t o up1 p1, parse_instruction s e up t o = .inl (up1, p1) ∧
        parse_loop s e fuel up1 p1 = .returned P ∧
        emitted_opcodes s e (fuel + 1) up p =
          (up.bytecode.length, o) :: emitted_opcodes s e fuel up1 p1 := by
  unfold parse_loop at h
  cases hs : skip_space s p e with
  | none => rw [hs] at h; cases h
  | some t =>
    rw [hs] at h
    simp only at h ⊢
    cases ho : next_opcode s t e with
    | none =>
      rw [ho] at h
      simp only [parse_result.returned.injEq] at h
      exact Or.inl ⟨by simp only [emitted_opcodes, hs, ho], h.symm⟩
    | some o =>
      rw [ho] at h
      simp only at h ⊢
      cases hp : parse_instruction s e up t o with
      | inl x =>
        obtain ⟨up1, p1⟩ := x
        rw [hp] at h
        exact Or.inr ⟨t, o, up1, p1, hp, h, by simp only [emitted_opcodes, hs, ho, hp]⟩
      | inr r =>
        rw [hp] at h
        simp only at h
        subst h
        exact absurd hp (parse_instruction_not_returned s e up P t o)

theorem emitted_next (s : List Char) (e fuel : Nat) (up P : program) (p : Nat)
    (h : parse_loop s e fuel up p = .returned P) :
    up.bytecode.length = P.bytecode.length ∨
      ∃ o, (up.bytecode.length, o) ∈ emitted_opcodes s e fuel up p := by
  cases fuel with
  | zero => simp [parse_loop] at h
  | succ f =>
    rcases parse_loop_succ_returned s e f up P p h with ⟨_, rfl⟩ | ⟨t, o, up1, p1, _, _, hT⟩
    · exact Or.inl rfl
    · exact Or.inr ⟨o, by rw [hT]; exact List.mem_cons_self _ _⟩

theorem parse_loop_trace (s : List Char) (e : Nat) :
    ∀ (fuel : Nat) (up P : program) (p : Nat), parse_loop s e fuel up p = .returned P →
      (∃ X, P.bytecode = up.bytecode ++ X) ∧
      (∀ x ∈ emitted_opcodes s e fuel up p,
        up.bytecode.length ≤ x.1 ∧ P.bytecode[x.1]? = some (x.2.code : Int)) ∧
      (∀ i, (i, ops_enum.LABEL) ∈ emitted_opcodes s e fuel up p →
        (∃ n : Fin 10, P.bytecode[i + 1]? = some ((n : Nat) : Int)) ∧
        (i + 2 = P.bytecode.length ∨ ∃ o, (i + 2, o) ∈ emitted_opcodes s e fuel up p)) ∧
      (∀ n : Fin 10, (∀ j, (j, ops_enum.LABEL) ∈ emitted_opcodes s e fuel up p →
          P.bytecode[j + 1]? ≠ some ((n : Nat) : Int)) → P.labels n = up.labels n) ∧
      (∀ (n : Fin 10) (i : Nat), (i, ops_enum.LABEL) ∈ emitted_opcodes s e fuel up p →
          P.bytecode[i + 1]? = some ((n : Nat) : Int) →
          (∀ j, (j, ops_enum.LABEL) ∈ emitted_opcodes s e fuel up p →
            P.bytecode[j + 1]? = some ((n : Nat) : Int) → j = i) →
          P.labels n = (i : Int) + 1) := by
  intro fuel
  induction fuel with
  | zero =>
    intro up P p h
    simp [parse_loop] at h
  | succ f ih =>
    intro up P p h
    rcases parse_loop_succ_returned s e f up P p h with
      ⟨hT, rfl⟩ | ⟨t, o, up1, p1, hpi, hrest, hT⟩
    · rw [hT]
      exact ⟨⟨[], by simp⟩, by simp, by simp, fun n _ => rfl, by simp⟩
    · obtain ⟨ws, hbc, hlab, hnolab⟩ := parse_instruction_spec s e up up1 t p1 o hpi
      obtain ⟨⟨X, hX⟩, ihB, ihC, ihD, ihE⟩ := ih up1 P p1 hrest
      have hnext := emitted_next s e f up1 P p1 hrest
      have hPb : P.bytecode = up.bytecode ++ ((o.code : Int) :: (ws ++ X)) := by
        rw [hX, hbc]; simp
      have hlen1 : up.bytecode.length + 1 ≤ up1.bytecode.length := by
        rw [hbc]; simp
      have hhead : P.bytecode[up.bytecode.length]? = some (o.code : Int) := by
        rw [hPb, List.getElem?_append_right le_rfl]; simp
      rw [hT]
      refine ⟨⟨_, hPb⟩, ?_, ?_, ?_, ?_⟩
      · intro x hx
        rcases List.mem_cons.mp hx with rfl | hx
        · exact ⟨le_rfl, hhead⟩
        · obtain ⟨h1, h2⟩ := ihB x hx
          exact ⟨by omega, h2⟩
      · intro i hi
        rcases List.mem_cons.mp hi with heq | hi
        · obtain ⟨hi0, ho⟩ := Prod.mk.inj heq
          subst ho
          subst hi0
          obtain ⟨n, rfl, hl⟩ := hlab rfl
          have hlen2 : up1.bytecode.length = up.bytecode.length + 2 := by rw [hbc]; simp
          refine ⟨⟨n, ?_⟩, ?_⟩
          · rw [hPb, List.getElem?_append_right (by omega)]; simp
          · rcases hnext with h | ⟨o', ho'⟩
            · left; omega
            · right; exact ⟨o', List.mem_cons_of_mem _ (by rwa [hlen2] at ho')⟩
        · obtain ⟨h1, h2⟩ := ihC i hi
          exact ⟨h1, h2.imp id fun ⟨o', ho'⟩ => ⟨o', List.mem_cons_of_mem _ ho'⟩⟩
      · intro n hno
        rw [ihD n fun j hj => hno j (List.mem_cons_of_mem _ hj)]
        by_cases hoL : o = .LABEL
        · subst hoL
          obtain ⟨n0, rfl, hl⟩ := hlab rfl
          have hne : n ≠ n0 := by
            intro hEq
            subst hEq
            refine hno up.bytecode.length (List.mem_cons_self _ _) ?_
            rw [hPb, List.getElem?_append_right (by omega)]; simp
          rw [hl, Function.update_noteq hne]
        · rw [hnolab hoL]
      · intro n i hi hni huniq
        rcases List.mem_cons.mp hi with heq | hi1
        · obtain ⟨hi0, ho⟩ := Prod.mk.inj heq
          subst ho
          subst hi0
          obtain ⟨n0, rfl, hl⟩ := hlab rfl
          have hlen2 : up1.bytecode.length = up.bytecode.length + 2 := by rw [hbc]; simp
          have hn0 : n0 = n := by
            rw [hPb, List.getElem?_append_right (by omega)] at hni
            simp at hni
            exact Fin.ext (by exact_mod_cast hni)
          have hnone : ∀ j, (j, ops_enum.LABEL) ∈ emitted_opcodes s e f up1 p1 →
              P.bytecode[j + 1]? ≠ some ((n : Nat) : Int) := by
            intro j hj hjn
            have h1 := huniq j (List.mem_cons_of_mem _ hj) hjn
            have h2 := (ihB (j, ops_enum.LABEL) hj).1
            simp only at h2
            omega
          rw [ihD n hnone, hl, hn0, Function.update_same]
        · exact ihE n i hi1 hni fun j hj hjn => huniq j (List.mem_cons_of_mem _ hj) hjn

/-- A loop round at a jump instruction with an operand inside the label table. -/
theorem step_jump (code : List Int) (labels : Fin 10 → Int) (tick : Nat) (ip : Int)
    (m : machine) (o : ops_enum) (n : Fin 10) (ho : o ∈ jump_ops)
    (hop : fetch code ip = some (o.code : Int))
    (hn : fetch code (ip + 1) = some ((n : Nat) : Int)) :
    step code labels tick ip m =
      .running (if jump_taken o m.flags then labels n + 1 else ip + 2)
        (m.set T0 (wrap32 tick)) := by
  have hne : ((o.code : Nat) : Int) ≠ -1 := by omega
  rw [step_of_fetch hop hne]
  have hf : (m.set T0 (wrap32 tick)).flags = m.flags := rfl
  simp only [jump_ops, List.mem_cons, List.mem_singleton, List.not_mem_nil, or_false] at ho
  rcases ho with rfl | rfl | rfl | rfl | rfl
  · have hd : ops_enum.ofInt? ((ops_enum.JMP.code : Nat) : Int) = some ops_enum.JMP := by decide
    simp [exec, hd, hn, label_index_coe, jump_taken]
  · have hd : ops_enum.ofInt? ((ops_enum.JMPEQ.code : Nat) : Int) = some ops_enum.JMPEQ := by
      decide
    by_cases h : m.flags.EQ = 0 <;>
      simp [exec, hd, hn, label_index_coe, jump_taken, hf, h, add_assoc]
  · have hd : ops_enum.ofInt? ((ops_enum.JMPNE.code : Nat) : Int) = some ops_enum.JMPNE := by
      decide
    by_cases h : m.flags.EQ = 0 <;>
      simp [exec, hd, hn, label_index_coe, jump_taken, hf, h, add_assoc]
  · have hd : ops_enum.ofInt? ((ops_enum.JMPGT.code : Nat) : Int) = some ops_enum.JMPGT := by
      decide
    by_cases h : m.flags.GT = 0 <;>
      simp [exec, hd, hn, label_index_coe, jump_taken, hf, h, add_assoc]
  · have hd : ops_enum.ofInt? ((ops_enum.JMPLT.code : Nat) : Int) = some ops_enum.JMPLT := by
      decide
    by_cases h : m.flags.LT = 0 <;>
      simp [exec, hd, hn, label_index_coe, jump_taken, hf, h, add_assoc]

/-! ## Claims about the assembler -/

/-- Claim C1: for each of the 11 register names `r` and every well-formed integer literal
(decimal, hexadecimal after `0x`, or octal after a leading `0`, with an optional minus sign)
of fewer than 64 characters whose value fits a C `int`, `parse_code` on the one-line source
`STORE r, v` followed by a newline returns, and the bytecode is exactly the three words
`[7, id(r), value(v)]`, 7 being STORE. -/
theorem store_line_assembles (up : program) (r : Fin 11) (l : int_literal)
    (hwf : l.well_formed) (hlen : l.text.length < 64) (hfit : inInt32 l.value)
    (hsrc : up.asmcode = store_line r l) :
    (parse_code up).bytecode? = some [7, ((r : Nat) : Int), l.value] := by
  obtain ⟨c0, cs, htxt⟩ : ∃ c0 cs, l.text = c0 :: cs := by
    cases h : l.text with
    | nil => exact absurd h (text_ne_nil l hwf)
    | cons c cs => exact ⟨c, cs, rfl⟩
  have hc0 : isBlank c0 = false :=
    (text_chars l hwf c0 (by rw [htxt]; exact List.mem_cons_self _ _)).2
  have hv : (strtol (l.text ++ List.replicate (64 - l.text.length) nul)).map wrap32 =
      some l.value := by
    obtain ⟨k, hk⟩ : ∃ k, 64 - l.text.length = k + 1 := ⟨63 - l.text.length, by omega⟩
    rw [hk, List.replicate_succ]
    exact strtol_literal l hwf hfit _
  unfold parse_code
  simp only [hsrc]
  rw [store_line_loop _ r l.text l.value _ (store_line r l) c0 cs htxt hc0
    (fun c hc => (text_chars l hwf c hc).1) (by omega) hv rfl
    (by have : 0 < (store_line r l).length := by simp [store_line]
        omega)]
  rfl

/-- Claim C1 at the three inputs the claim names: `STORE R0, 7` gives `[7, 0, 7]`,
`STORE R0, 0x10` gives the literal 16 and `STORE R0, 010` gives the literal 8. -/
theorem store_line_assembles_witness :
    (store_line R0 ⟨false, .dec, [7]⟩ = "STORE R0, 7\n".toList ∧
      (parse_code (program_of_source (store_line R0 ⟨false, .dec, [7]⟩) 1000)).bytecode? =
        some [7, 0, 7]) ∧
    (store_line R0 ⟨false, .hex, [1, 0]⟩ = "STORE R0, 0x10\n".toList ∧
      (parse_code (program_of_source (store_line R0 ⟨false, .hex, [1, 0]⟩) 1000)).bytecode? =
        some [7, 0, 16]) ∧
    (store_line R0 ⟨false, .oct, [1, 0]⟩ = "STORE R0, 010\n".toList ∧
      (parse_code (program_of_source (store_line R0 ⟨false, .oct, [1, 0]⟩) 1000)).bytecode? =
        some [7, 0, 8]) :=
  ⟨⟨by decide, store_line_assembles _ R0 ⟨false, .dec, [7]⟩ (by decide) (by decide) (by decide)
      rfl⟩,
    ⟨by decide, store_line_assembles _ R0 ⟨false, .hex, [1, 0]⟩ (by decide) (by decide)
      (by decide) rfl⟩,
    ⟨by decide, store_line_assembles _ R0 ⟨false, .oct, [1, 0]⟩ (by decide) (by decide)
      (by decide) rfl⟩⟩

/-- Claim C7: when `parse_code` returns, a `LABEL n` line with `n` in `0 .. 9`, declared
once, whose opcode word was emitted at bytecode index `i` has left `labels[n] = i + 1`, the
index of its own operand word; index `i + 2` is the end of the bytecode or the index of the
next opcode word emitted; and every taken jump with operand `n` continues the run at index
`i + 2`, past the LABEL instruction. -/
theorem label_records_operand_index (up P : program) (i : Nat) (n : Fin 10)
    (hparse : parse_code up = .returned P)
    (hlabel : (i, ops_enum.LABEL) ∈ parse_code_opcodes up)
    (hn : P.bytecode[i + 1]? = some ((n : Nat) : Int))
    (honce : ∀ j, (j, ops_enum.LABEL) ∈ parse_code_opcodes up →
      P.bytecode[j + 1]? = some ((n : Nat) : Int) → j = i) :
    P.bytecode[i]? = some (ops_enum.LABEL.code : Int) ∧ P.labels n = (i : Int) + 1 ∧
      (i + 2 = P.bytecode.length ∨ ∃ o, (i + 2, o) ∈ parse_code_opcodes up) ∧
      ∀ (o : ops_enum) (ip : Int) (tick : Nat) (m : machine), o ∈ jump_ops →
        fetch P.bytecode ip = some (o.code : Int) →
        fetch P.bytecode (ip + 1) = some ((n : Nat) : Int) → jump_taken o m.flags = true →
        step P.bytecode P.labels tick ip m =
          .running ((i : Int) + 2) (m.set T0 (wrap32 tick)) := by
  unfold parse_code at hparse
  unfold parse_code_opcodes at hlabel honce
  obtain ⟨_, hB, hC, _, hE⟩ := parse_loop_trace _ _ _ _ _ _ hparse
  have hlab : P.labels n = (i : Int) + 1 := hE n i hlabel hn honce
  refine ⟨(hB _ hlabel).2, hlab, (hC i hlabel).2, ?_⟩
  intro o ip tick m ho hop hnn htaken
  rw [step_jump P.bytecode P.labels tick ip m o n ho hop hnn, if_pos htaken, hlab, add_assoc]
  rfl

/-- Claim C7 at a concrete input: in `LABEL 3` / `INC R1` / `JMP 3` the LABEL opcode is word
0, `labels[3]` is 1, and the `JMP 3` at index 4 continues at index 2, the `INC`. -/
theorem label_records_operand_index_witness :
    parse_code (program_of_source loop_source 1000) = .returned (assemble loop_source 1000) ∧
      (0, ops_enum.LABEL) ∈ parse_code_opcodes (program_of_source loop_source 1000) ∧
      (assemble loop_source 1000).bytecode = [9, 3, 0, 1, 10, 3] ∧
      (assemble loop_source 1000).labels 3 = ((0 : Nat) : Int) + 1 ∧
      step (assemble loop_source 1000).bytecode (assemble loop_source 1000).labels 0 4
          zero_machine = .running (((0 : Nat) : Int) + 2) (zero_machine.set T0 (wrap32 0)) :=
  have h := label_records_operand_index (program_of_source loop_source 1000)
    (assemble loop_source 1000) 0 3 rfl (by decide) rfl (by
      intro j hj _
      have ht : parse_code_opcodes (program_of_source loop_source 1000) =
          [(0, ops_enum.LABEL), (2, ops_enum.INC), (4, ops_enum.JMP)] := by decide
      rw [ht] at hj
      simpa using hj)
  ⟨rfl, by decide, rfl, h.2.1, h.2.2.2 ops_enum.JMP 4 0 zero_machine (by decide) rfl rfl rfl⟩

/-! ## Claims about the virtual machine -/

/-- Claim C2, as the code has it: the program `STORE R0, 7` / `MOVE O0, R0` / `RET`, assembled
by `parse_code` and run by `fightvm_run_program`, returns Defend (0) for every pair of health
values, every entry flag state, every clock and either program slot: the returned register
`R0` holds 7, which is outside `0 .. 2`. -/
theorem demo_returns_defend (up : program) (g : globals) (i : Fin 2) (ticks : Nat → Nat)
    (fuel : Nat) (hsrc : up.asmcode = demo_source) (hfuel : 4 ≤ fuel)
    (hasm : (parse_code up).bytecode? = some (g.user_program i).bytecode) :
    (fightvm_run_program fuel ticks g i).intent? = some Defend := by
  rw [demo_assembles up hsrc] at hasm
  have hb : (g.user_program i).bytecode = [7, 0, 7, 8, 9, 0, 16] := by
    simpa using hasm.symm
  obtain ⟨f, rfl⟩ : ∃ f, fuel = f + 4 := ⟨fuel - 4, by omega⟩
  unfold fightvm_run_program run_program_loop
  dsimp only
  rw [hb]
  rfl

/-- Claim C2 at a concrete input: assembled from `demo_source`, run with health 1000 against
900, zero flags and a running clock, program 0 returns Defend. -/
theorem demo_returns_defend_witness :
    (program_of_source demo_source 1000).asmcode = demo_source ∧ 4 ≤ 7 ∧
      (fightvm_run_program 7 (fun k => 16 * k)
        (globals_of (assemble demo_source 1000) (assemble [] 900)) 0).intent? = some Defend :=
  ⟨rfl, by decide,
    demo_returns_defend (program_of_source demo_source 1000)
      (globals_of (assemble demo_source 1000) (assemble [] 900)) 0 (fun k => 16 * k) 7 rfl
      (by decide) rfl⟩

/-- Claim C2 as stated fails: the assembled demo program does not return Attack (1). -/
theorem demo_does_not_return_attack :
    (parse_code (program_of_source demo_source 1000)).bytecode? = some [7, 0, 7, 8, 9, 0, 16] ∧
      (fightvm_run_program 4 (fun _ => 0)
        (globals_of (assemble demo_source 1000) (assemble [] 1000)) 0).intent? = some 0 ∧
      (fightvm_run_program 4 (fun _ => 0)
        (globals_of (assemble demo_source 1000) (assemble [] 1000)) 0).intent? ≠ some Attack := by
  refine ⟨rfl, rfl, ?_⟩
  decide

/-- Claim C3, as the code has it: the value `fightvm_run_program` returns is the value of
register `R0` (not `O0`) at loop exit when that value is 0, 1 or 2, and Defend (0) when it is
outside that set; a run that does not leave its loop returns nothing. -/
theorem run_returns_R0 (fuel : Nat) (ticks : Nat → Nat) (g : globals) (i : Fin 2) :
    (fightvm_run_program fuel ticks g i).intent? =
      (run_program_loop fuel ticks g i).final?.map fun m =>
        if 0 ≤ m.registers R0 ∧ m.registers R0 ≤ 2 then m.registers R0 else Defend :=
  intent_eq_clamped_R0 fuel ticks g i

/-- Claim C3 as stated fails: `STORE O0, 1` / `RET` halts with `O0 = 1`, a value in
`0 .. 2`, and the run returns 0. -/
theorem output_register_not_returned :
    (parse_code (program_of_source output_only_source 1000)).bytecode? = some [7, 9, 1, 16] ∧
      (run_program_loop 3 (fun _ => 0)
        (globals_of (assemble output_only_source 1000) (assemble [] 1000)) 0).final?.map
          (fun m => m.registers O0) = some 1 ∧
      (fightvm_run_program 3 (fun _ => 0)
        (globals_of (assemble output_only_source 1000) (assemble [] 1000)) 0).intent? =
          some 0 := by
  refine ⟨rfl, rfl, rfl⟩

/-- Claim C4: whenever `fightvm_run_program` returns, for any bytecode, label table, entry
flags, health values and clock, the value returned is Defend (0), Attack (1) or Gamble (2). -/
theorem intent_in_range (fuel : Nat) (ticks : Nat → Nat) (g : globals) (i : Fin 2) (v : Int)
    (h : (fightvm_run_program fuel ticks g i).intent? = some v) :
    v = Defend ∨ v = Attack ∨ v = Gamble := by
  rw [intent_eq_clamped_R0] at h
  cases hl : (run_program_loop fuel ticks g i).final? with
  | none => rw [hl] at h; cases h
  | some m =>
    rw [hl] at h
    simp only [Option.map, Option.some.injEq] at h
    unfold Defend Attack Gamble at *
    split at h <;> omega

/-- Claim C4 at a concrete input: `STORE R0, 2` / `RET` returns Gamble. -/
theorem intent_in_range_witness :
    (fightvm_run_program 5 (fun k => k)
        (globals_of (assemble gamble_source 1000) (assemble [] 1000)) 0).intent? = some 2 ∧
      ((2 : Int) = Defend ∨ (2 : Int) = Attack ∨ (2 : Int) = Gamble) :=
  ⟨rfl, intent_in_range 5 (fun k => k)
    (globals_of (assemble gamble_source 1000) (assemble [] 1000)) 0 2 rfl⟩

/-- Claim C5: a loop round that executes CMP with `I0 = a` and `I1 = b` continues at the next
word with the Equal flag set iff `a = b`, LessThan set iff `a < b`, GreaterThan set iff
`a > b`, Error cleared, and exactly one of the first three set. -/
theorem cmp_sets_flags (code : List Int) (labels : Fin 10 → Int) (tick : Nat) (ip : Int)
    (m : machine) (a b : Int) (hop : fetch code ip = some (ops_enum.CMP.code : Int))
    (ha : m.registers I0 = a) (hb : m.registers I1 = b) :
    ∃ m', step code labels tick ip m = .running (ip + 1) m' ∧
      (m'.flags.EQ ≠ 0 ↔ a = b) ∧ (m'.flags.LT ≠ 0 ↔ a < b) ∧ (m'.flags.GT ≠ 0 ↔ a > b) ∧
      m'.flags.ER = 0 ∧
      ((m'.flags.EQ ≠ 0 ∧ m'.flags.LT = 0 ∧ m'.flags.GT = 0) ∨
       (m'.flags.EQ = 0 ∧ m'.flags.LT ≠ 0 ∧ m'.flags.GT = 0) ∨
       (m'.flags.EQ = 0 ∧ m'.flags.LT = 0 ∧ m'.flags.GT ≠ 0)) := by
  rw [step_of_fetch hop (by decide)]
  have hd : ops_enum.ofInt? ((ops_enum.CMP.code : Nat) : Int) = some ops_enum.CMP := by decide
  simp only [exec, hd]
  refine ⟨_, rfl, ?_⟩
  have h0 : (m.set T0 (wrap32 tick)).registers I0 = a := by
    rw [← ha]; simp [machine.set, Function.update, T0, I0]
  have h1 : (m.set T0 (wrap32 tick)).registers I1 = b := by
    rw [← hb]; simp [machine.set, Function.update, T0, I1]
  simp only [h0, h1, c_bool]
  rcases lt_trichotomy a b with h | h | h
  · have : ¬ a = b := by omega
    have : ¬ a > b := by omega
    simp [*]
  · have : ¬ a < b := by omega
    have : ¬ a > b := by omega
    simp [*]
  · have : ¬ a = b := by omega
    have : ¬ a < b := by omega
    simp [*]

/-- Claim C5 at a concrete input: CMP at index 0 of `[15]` with `I0 = 3` and `I1 = 8`, entered
with the Error flag set. -/
theorem cmp_sets_flags_witness :
    fetch [15] 0 = some (ops_enum.CMP.code : Int) ∧
      ∃ m', step [15] (fun _ => 0) 40 0
          { registers := Function.update (Function.update (fun _ => 0) I0 3) I1 8,
            flags := ⟨0, 0, 1, 1⟩ } = .running (0 + 1) m' ∧
        (m'.flags.EQ ≠ 0 ↔ (3 : Int) = 8) ∧ (m'.flags.LT ≠ 0 ↔ (3 : Int) < 8) ∧
        (m'.flags.GT ≠ 0 ↔ (3 : Int) > 8) ∧ m'.flags.ER = 0 ∧
        ((m'.flags.EQ ≠ 0 ∧ m'.flags.LT = 0 ∧ m'.flags.GT = 0) ∨
         (m'.flags.EQ = 0 ∧ m'.flags.LT ≠ 0 ∧ m'.flags.GT = 0) ∨
         (m'.flags.EQ = 0 ∧ m'.flags.LT = 0 ∧ m'.flags.GT ≠ 0)) :=
  ⟨rfl, cmp_sets_flags [15] (fun _ => 0) 40 0
    { registers := Function.update (Function.update (fun _ => 0) I0 3) I1 8,
      flags := ⟨0, 0, 1, 1⟩ } 3 8 rfl rfl rfl⟩

/-- Claim C6: a loop round at a jump instruction (JMP, JMPEQ, JMPNE, JMPGT or JMPLT) at index
`ip` with operand `n` in `0 .. 9` continues at index `labels[n] + 1` when the instruction's
predicate holds and at `ip + 2` otherwise; the predicate is that of `jump_taken`, which reads
no flag for JMP, only Equal for JMPEQ and JMPNE, only GreaterThan for JMPGT and only LessThan
for JMPLT.  Registers other than the tick and all flags are unchanged. -/
theorem jump_target (code : List Int) (labels : Fin 10 → Int) (tick : Nat) (ip : Int)
    (m : machine) (o : ops_enum) (n : Fin 10) (ho : o ∈ jump_ops)
    (hop : fetch code ip = some (o.code : Int))
    (hn : fetch code (ip + 1) = some ((n : Nat) : Int)) :
    step code labels tick ip m =
      .running (if jump_taken o m.flags then labels n + 1 else ip + 2)
        (m.set T0 (wrap32 tick)) :=
  step_jump code labels tick ip m o n ho hop hn

/-- Claim C6 at a concrete input: `JMPGT 4` at index 2 with GreaterThan clear and LessThan and
Equal set falls through to index 4. -/
theorem jump_target_witness :
    ops_enum.JMPGT ∈ jump_ops ∧
      fetch [15, 15, 13, 4, 16] 2 = some (ops_enum.JMPGT.code : Int) ∧
      fetch [15, 15, 13, 4, 16] (2 + 1) = some (((4 : Fin 10) : Nat) : Int) ∧
      step [15, 15, 13, 4, 16] (fun _ => 0) 9 2 { zero_machine with flags := ⟨1, 0, 1, 0⟩ } =
        .running
          (if jump_taken ops_enum.JMPGT ({ zero_machine with flags := ⟨1, 0, 1, 0⟩ } : machine).flags
            then (fun _ => 0) (4 : Fin 10) + 1 else 2 + 2)
          (({ zero_machine with flags := ⟨1, 0, 1, 0⟩ } : machine).set T0 (wrap32 9)) :=
  ⟨by decide, rfl, rfl,
    jump_target [15, 15, 13, 4, 16] (fun _ => 0) 9 2 { zero_machine with flags := ⟨1, 0, 1, 0⟩ }
      ops_enum.JMPGT 4 (by decide) rfl rfl⟩

/-- Claim C8, as the code has it: after a loop round executes `STORE r, v`, register `r` holds
`v`; a following `MOVE dst, r` leaves `v` in `dst` for each of the ten registers `r` other than
`T0`, and for `r = T0` it leaves the clock value read at the start of its own round, because
`T0` is overwritten before every instruction. -/
theorem store_then_read (code : List Int) (labels : Fin 10 → Int) (t1 t2 : Nat) (ip : Int)
    (m : machine) (r dst : Fin 11) (v : Int)
    (h0 : fetch code ip = some (ops_enum.STORE.code : Int))
    (h1 : fetch code (ip + 1) = some ((r : Nat) : Int))
    (h2 : fetch code (ip + 2) = some v)
    (h3 : fetch code (ip + 3) = some (ops_enum.MOVE.code : Int))
    (h4 : fetch code (ip + 4) = some ((dst : Nat) : Int))
    (h5 : fetch code (ip + 5) = some ((r : Nat) : Int)) :
    ∃ m1 m2, step code labels t1 ip m = .running (ip + 3) m1 ∧ m1.registers r = v ∧
      step code labels t2 (ip + 3) m1 = .running (ip + 6) m2 ∧
      m2.registers dst = if r = T0 then wrap32 t2 else v := by
  have hS : ops_enum.ofInt? ((ops_enum.STORE.code : Nat) : Int) = some ops_enum.STORE := by
    decide
  have hM : ops_enum.ofInt? ((ops_enum.MOVE.code : Nat) : Int) = some ops_enum.MOVE := by
    decide
  have e4 : ip + 3 + 1 = ip + 4 := by ring
  have e5 : ip + 3 + 2 = ip + 5 := by ring
  have e6 : ip + 5 + 1 = ip + 6 := by ring
  refine ⟨(m.set T0 (wrap32 t1)).set r v,
    (((m.set T0 (wrap32 t1)).set r v).set T0 (wrap32 t2)).set dst
      ((((m.set T0 (wrap32 t1)).set r v).set T0 (wrap32 t2)).registers r), ?_, ?_, ?_, ?_⟩
  · rw [step_of_fetch h0 (by decide)]
    simp only [exec, hS, h1, h2, register_index_coe, Option.bind_eq_bind, Option.some_bind,
      Option.pure_def]
    have : ip + 2 + 1 = ip + 3 := by ring
    rw [this]
  · simp [machine.set]
  · rw [step_of_fetch h3 (by decide)]
    simp only [exec, hM, e4, e5, h4, h5, register_index_coe, Option.bind_eq_bind,
      Option.some_bind, Option.pure_def, e6]
  · by_cases hr : r = T0
    · subst hr
      simp [machine.set]
    · simp [machine.set, hr, Function.update_noteq hr]

/-- Claim C8 at a concrete input: `STORE I1, -4` then `MOVE R2, I1` leaves -4 in `R2`. -/
theorem store_then_read_witness :
    fetch [7, 8, -4, 8, 2, 8] 0 = some (ops_enum.STORE.code : Int) ∧
      fetch [7, 8, -4, 8, 2, 8] (0 + 1) = some (((I1 : Fin 11) : Nat) : Int) ∧
      fetch [7, 8, -4, 8, 2, 8] (0 + 2) = some (-4) ∧
      fetch [7, 8, -4, 8, 2, 8] (0 + 3) = some (ops_enum.MOVE.code : Int) ∧
      fetch [7, 8, -4, 8, 2, 8] (0 + 4) = some (((R2 : Fin 11) : Nat) : Int) ∧
      fetch [7, 8, -4, 8, 2, 8] (0 + 5) = some (((I1 : Fin 11) : Nat) : Int) ∧
      ∃ m1 m2, step [7, 8, -4, 8, 2, 8] (fun _ => 0) 11 0 zero_machine = .running (0 + 3) m1 ∧
        m1.registers I1 = -4 ∧
        step [7, 8, -4, 8, 2, 8] (fun _ => 0) 12 (0 + 3) m1 = .running (0 + 6) m2 ∧
        m2.registers R2 = if I1 = T0 then wrap32 12 else -4 :=
  ⟨rfl, rfl, rfl, rfl, rfl, rfl,
    store_then_read [7, 8, -4, 8, 2, 8] (fun _ => 0) 11 12 0 zero_machine I1 R2 (-4)
      rfl rfl rfl rfl rfl rfl⟩

/-- Claim C8 as stated fails for `r = T0`: after `STORE T0, 5` the following `MOVE R0, T0`
observes the clock value 1, not 5, and the run returns 1. -/
theorem tick_register_overwritten :
    (parse_code (program_of_source tick_read_source 1000)).bytecode? =
        some [7, 10, 5, 8, 0, 10] ∧
      (run_program_loop 3 (fun _ => 1)
        (globals_of (assemble tick_read_source 1000) (assemble [] 1000)) 0).final?.map
          (fun m => m.registers R0) = some 1 ∧
      (run_program_loop 3 (fun _ => 1)
        (globals_of (assemble tick_read_source 1000) (assemble [] 1000)) 0).final?.map
          (fun m => m.registers R0) ≠ some 5 := by
  refine ⟨rfl, rfl, ?_⟩
  decide

/-! ## Claims about the round resolver -/

/-- The second loop of `fightvm_resolve_round` on intents in {Attack, Defend}: one row of
`result_table` matches and its damages, times the opponent's strength, are subtracted. -/
theorem apply_damage_rows (results : Fin 2 → Int) (up : Fin 2 → program)
    (ha : results 0 = Attack ∨ results 0 = Defend)
    (hb : results 1 = Attack ∨ results 1 = Defend)
    (h0 : inInt32 ((damage_matrix (results 0) (results 1)).1 * (up 1).strength))
    (h1 : inInt32 ((up 0).hp - (damage_matrix (results 0) (results 1)).1 * (up 1).strength))
    (h2 : inInt32 ((damage_matrix (results 0) (results 1)).2 * (up 0).strength))
    (h3 : inInt32 ((up 1).hp - (damage_matrix (results 0) (results 1)).2 * (up 0).strength)) :
    (result_table.filter fun t =>
        decide (t.program_one_intent = results 0 ∧ t.program_two_intent = results 1)).length = 1 ∧
      (apply_damage results up 0).hp =
        (up 0).hp - (damage_matrix (results 0) (results 1)).1 * (up 1).strength ∧
      (apply_damage results up 1).hp =
        (up 1).hp - (damage_matrix (results 0) (results 1)).2 * (up 0).strength ∧
      (apply_damage results up 0).strength = (up 0).strength ∧
      (apply_damage results up 1).strength = (up 1).strength := by
  rcases ha with ha | ha <;> rcases hb with hb | hb <;>
    simp only [ha, hb] at h0 h1 h2 h3 ⊢ <;>
    simp [damage_matrix, Attack, Defend] at h0 h1 h2 h3 ha hb <;>
    simp [apply_damage, result_table, apply_row, damage_matrix, Attack, Defend, List.filter,
      wrap32_of_inInt32, h0, h1, h2, h3, ha, hb]

/-- Claim C9: in `fightvm_resolve_round`, with `a`, `b` the intents and `s0`, `s1` the
strengths as they stand after Gamble resolution and `a`, `b` in {Attack, Defend}, exactly one
row of `result_table` matches, and before the floor clamp program 0's health has gone down by
`d0 * s1` and program 1's by `d1 * s0`, where `(d0, d1)` is (5, 5) for Attack/Attack, (0, 0)
for Defend/Defend, (0, 1) for Attack/Defend and (1, 0) for Defend/Attack; the final healths
are those values after the clamp.  The products and differences are assumed to fit a C
`int`. -/
theorem damage_matrix_applied (rands : Nat → Nat) (st : round_state)
    (ha : (resolve_gambles rands st).results 0 = Attack ∨
      (resolve_gambles rands st).results 0 = Defend)
    (hb : (resolve_gambles rands st).results 1 = Attack ∨
      (resolve_gambles rands st).results 1 = Defend)
    (h0 : inInt32 ((damage_matrix ((resolve_gambles rands st).results 0)
      ((resolve_gambles rands st).results 1)).1 *
        ((resolve_gambles rands st).user_program 1).strength))
    (h1 : inInt32 (((resolve_gambles rands st).user_program 0).hp -
      (damage_matrix ((resolve_gambles rands st).results 0)
        ((resolve_gambles rands st).results 1)).1 *
          ((resolve_gambles rands st).user_program 1).strength))
    (h2 : inInt32 ((damage_matrix ((resolve_gambles rands st).results 0)
      ((resolve_gambles rands st).results 1)).2 *
        ((resolve_gambles rands st).user_program 0).strength))
    (h3 : inInt32 (((resolve_gambles rands st).user_program 1).hp -
      (damage_matrix ((resolve_gambles rands st).results 0)
        ((resolve_gambles rands st).results 1)).2 *
          ((resolve_gambles rands st).user_program 0).strength)) :
    (fightvm_resolve_round rands st).user_program =
        clamp_hp (apply_damage (resolve_gambles rands st).results
          (resolve_gambles rands st).user_program) ∧
      (result_table.filter fun t =>
        decide (t.program_one_intent = (resolve_gambles rands st).results 0 ∧
          t.program_two_intent = (resolve_gambles rands st).results 1)).length = 1 ∧
      (apply_damage (resolve_gambles rands st).results
          (resolve_gambles rands st).user_program 0).hp =
        ((resolve_gambles rands st).user_program 0).hp -
          (damage_matrix ((resolve_gambles rands st).results 0)
            ((resolve_gambles rands st).results 1)).1 *
              ((resolve_gambles rands st).user_program 1).strength ∧
      (apply_damage (resolve_gambles rands st).results
          (resolve_gambles rands st).user_program 1).hp =
        ((resolve_gambles rands st).user_program 1).hp -
          (damage_matrix ((resolve_gambles rands st).results 0)
            ((resolve_gambles rands st).results 1)).2 *
              ((resolve_gambles rands st).user_program 0).strength := by
  obtain ⟨hrow, hhp0, hhp1, _, _⟩ := apply_damage_rows (resolve_gambles rands st).results
    (resolve_gambles rands st).user_program ha hb h0 h1 h2 h3
  exact ⟨rfl, hrow, hhp0, hhp1⟩

/-- Claim C9 at a concrete input: program 0 (health 1000, strength 3) gambles and wins with
the draw 91, program 1 (health 40, strength 2) attacks: Attack/Attack with strengths 4 and 2
takes 5 * 2 from program 0 and 5 * 4 from program 1. -/
theorem damage_matrix_applied_witness :
    (resolve_gambles (fun _ => 1234590) attack_after_gamble).results 0 = Attack ∧
      (resolve_gambles (fun _ => 1234590) attack_after_gamble).results 1 = Attack ∧
      ((resolve_gambles (fun _ => 1234590) attack_after_gamble).user_program 0).strength = 4 ∧
      (apply_damage (resolve_gambles (fun _ => 1234590) attack_after_gamble).results
        (resolve_gambles (fun _ => 1234590) attack_after_gamble).user_program 0).hp =
          1000 - 5 * 2 ∧
      (apply_damage (resolve_gambles (fun _ => 1234590) attack_after_gamble).results
        (resolve_gambles (fun _ => 1234590) attack_after_gamble).user_program 1).hp =
          40 - 5 * 4 :=
  ⟨rfl, rfl, rfl,
    (damage_matrix_applied (fun _ => 1234590) attack_after_gamble (Or.inl rfl) (Or.inl rfl)
      (by decide) (by decide) (by decide) (by decide)).2.2.1,
    (damage_matrix_applied (fun _ => 1234590) attack_after_gamble (Or.inl rfl) (Or.inl rfl)
      (by decide) (by decide) (by decide) (by decide)).2.2.2⟩

theorem apply_row_strength (results : Fin 2 → Int) (up : Fin 2 → program)
    (t : program_result_lut) (j : Fin 2) :
    (apply_row results up t j).strength = (up j).strength := by
  unfold apply_row
  split
  · fin_cases j <;> simp [Function.update]
  · rfl

theorem apply_damage_strength (results : Fin 2 → Int) (up : Fin 2 → program) (j : Fin 2) :
    (apply_damage results up j).strength = (up j).strength := by
  unfold apply_damage
  generalize result_table = rows
  induction rows generalizing up with
  | nil => rfl
  | cons t ts ih =>
    rw [List.foldl_cons, ih, apply_row_strength]

theorem clamp_hp_strength (up : Fin 2 → program) (j : Fin 2) :
    (clamp_hp up j).strength = (up j).strength := by
  unfold clamp_hp
  by_cases h0 : (up 0).hp < 0 <;> by_cases h1 : (up 1).hp < 0 <;>
    fin_cases j <;> simp [h0, h1, Function.update]

/-- The intents and strengths `fightvm_resolve_round` leaves are those its first loop
leaves: the second loop and the clamp change `hp` only. -/
theorem resolve_round_gambles (rands : Nat → Nat) (st : round_state) (j : Fin 2) :
    (fightvm_resolve_round rands st).results j = (resolve_gambles rands st).results j ∧
      ((fightvm_resolve_round rands st).user_program j).strength =
        ((resolve_gambles rands st).user_program j).strength ∧
      (fightvm_resolve_round rands st).draws = (resolve_gambles rands st).draws := by
  refine ⟨rfl, ?_, rfl⟩
  simp only [fightvm_resolve_round]
  rw [clamp_hp_strength, apply_damage_strength]

/-- The body of the first loop at a program whose intent is Gamble. -/
theorem resolve_gamble_outcome (rands : Nat → Nat) (st : round_state) (i : Fin 2)
    (hg : st.results i = Gamble) (hs : inInt32 ((st.user_program i).strength + 1)) :
    (randrange (rands st.draws) 1 100 > 90 →
        (resolve_gamble rands st i).results i = Attack ∧
        ((resolve_gamble rands st i).user_program i).strength =
          (st.user_program i).strength + 1) ∧
      (¬ randrange (rands st.draws) 1 100 > 90 →
        (resolve_gamble rands st i).results i = Defend ∧
        ((resolve_gamble rands st i).user_program i).strength = (st.user_program i).strength) ∧
      (resolve_gamble rands st i).draws = st.draws + 1 := by
  refine ⟨?_, ?_, ?_⟩
  · intro h
    simp [resolve_gamble, hg, h, wrap32_of_inInt32 hs]
  · intro h
    simp [resolve_gamble, hg, h]
  · simp [resolve_gamble, hg]

/-- The body of the first loop leaves the other program as it is. -/
theorem resolve_gamble_other (rands : Nat → Nat) (st : round_state) (i j : Fin 2)
    (hne : j ≠ i) :
    (resolve_gamble rands st i).results j = st.results j ∧
      (resolve_gamble rands st i).user_program j = st.user_program j := by
  unfold resolve_gamble
  split
  · constructor
    · simp only [Function.update_noteq hne]
    · simp only
      split
      · simp only [Function.update_noteq hne]
      · rfl
  · exact ⟨rfl, rfl⟩

/-- The body of the first loop does nothing at a program whose intent is not Gamble. -/
theorem resolve_gamble_skip (rands : Nat → Nat) (st : round_state) (i : Fin 2)
    (hg : st.results i ≠ Gamble) : resolve_gamble rands st i = st := by
  unfold resolve_gamble
  rw [if_neg hg]

theorem resolve_gamble_draws (rands : Nat → Nat) (st : round_state) (i : Fin 2) :
    (resolve_gamble rands st i).draws =
      st.draws + if st.results i = Gamble then 1 else 0 := by
  unfold resolve_gamble
  split <;> rfl

/-- The first loop of `fightvm_resolve_round` at a program whose intent is Gamble. -/
theorem resolve_gambles_outcome (rands : Nat → Nat) (st : round_state) (i : Fin 2)
    (hg : st.results i = Gamble) (hs : inInt32 ((st.user_program i).strength + 1)) :
    (randrange (rands (gamble_draw st i)) 1 100 > 90 →
        (resolve_gambles rands st).results i = Attack ∧
        ((resolve_gambles rands st).user_program i).strength =
          (st.user_program i).strength + 1) ∧
      (¬ randrange (rands (gamble_draw st i)) 1 100 > 90 →
        (resolve_gambles rands st).results i = Defend ∧
        ((resolve_gambles rands st).user_program i).strength =
          (st.user_program i).strength) := by
  unfold resolve_gambles
  by_cases hi : i = 0
  · subst hi
    have hd : gamble_draw st 0 = st.draws := by simp [gamble_draw]
    rw [hd]
    obtain ⟨hw, hl, _⟩ := resolve_gamble_outcome rands st 0 hg hs
    obtain ⟨h1, h2⟩ := resolve_gamble_other rands (resolve_gamble rands st 0) 1 0 (by decide)
    rw [h1, h2]
    exact ⟨hw, hl⟩
  · have hi1 : i = 1 := by omega
    subst hi1
    obtain ⟨h1, h2⟩ := resolve_gamble_other rands st 0 1 (by decide)
    have hd : gamble_draw st 1 = (resolve_gamble rands st 0).draws := by
      rw [resolve_gamble_draws]
      simp only [gamble_draw, true_and]
      split <;> rfl
    rw [hd]
    obtain ⟨hw, hl, _⟩ := resolve_gamble_outcome rands (resolve_gamble rands st 0) 1
      (by rw [h1]; exact hg) (by rw [h2]; exact hs)
    rw [h2] at hw hl
    exact ⟨hw, hl⟩

/-- The first loop of `fightvm_resolve_round` at a program whose intent is not Gamble. -/
theorem resolve_gambles_keep (rands : Nat → Nat) (st : round_state) (j : Fin 2)
    (hj : st.results j ≠ Gamble) :
    (resolve_gambles rands st).results j = st.results j ∧
      (resolve_gambles rands st).user_program j = st.user_program j := by
  unfold resolve_gambles
  by_cases hj0 : j = 0
  · subst hj0
    obtain ⟨h1, h2⟩ := resolve_gamble_other rands (resolve_gamble rands st 0) 1 0 (by decide)
    rw [h1, h2, resolve_gamble_skip rands st 0 hj]
    exact ⟨rfl, rfl⟩
  · have hj1 : j = 1 := by omega
    subst hj1
    obtain ⟨h1, h2⟩ := resolve_gamble_other rands st 0 1 (by decide)
    rw [resolve_gamble_skip rands (resolve_gamble rands st 0) 1 (by rw [h1]; exact hj)]
    exact ⟨h1, h2⟩

theorem resolve_gambles_draws (rands : Nat → Nat) (st : round_state) :
    (resolve_gambles rands st).draws =
      st.draws + ((List.finRange 2).filter fun j => decide (st.results j = Gamble)).length := by
  unfold resolve_gambles
  have h1 := (resolve_gamble_other rands st 0 1 (by decide)).1
  rw [resolve_gamble_draws, resolve_gamble_draws, h1]
  have hl : List.finRange 2 = [0, 1] := by decide
  rw [hl]
  by_cases h0 : st.results 0 = Gamble <;> by_cases h1 : st.results 1 = Gamble <;>
    simp [List.filter, h0, h1]

/-- Claim C10: in `fightvm_resolve_round`, for a program `i` whose intent is Gamble, the draw
`randrange(1, 100)` made for it (from the next value of `rand()`, or the one after it for
program 1 when program 0 gambles too) lies in `1 .. 100`; when the draw is above 90 the round
leaves the intent of `i` at Attack and its strength higher by exactly 1, otherwise it leaves
the intent at Defend and the strength unchanged; a program that does not gamble keeps its
intent and strength, and one value of `rand()` is used per gambling program; 10 of the 100
residues of `rand()` give a draw above 90.  The incremented strength is assumed to fit a C
`int`. -/
theorem gamble_resolution (rands : Nat → Nat) (st : round_state) (i : Fin 2)
    (hg : st.results i = Gamble) (hs : inInt32 ((st.user_program i).strength + 1)) :
    1 ≤ randrange (rands (gamble_draw st i)) 1 100 ∧
      randrange (rands (gamble_draw st i)) 1 100 ≤ 100 ∧
      (randrange (rands (gamble_draw st i)) 1 100 > 90 →
        (fightvm_resolve_round rands st).results i = Attack ∧
        ((fightvm_resolve_round rands st).user_program i).strength =
          (st.user_program i).strength + 1) ∧
      (¬ randrange (rands (gamble_draw st i)) 1 100 > 90 →
        (fightvm_resolve_round rands st).results i = Defend ∧
        ((fightvm_resolve_round rands st).user_program i).strength =
          (st.user_program i).strength) ∧
      (∀ j : Fin 2, st.results j ≠ Gamble →
        (fightvm_resolve_round rands st).results j = st.results j ∧
        ((fightvm_resolve_round rands st).user_program j).strength =
          (st.user_program j).strength) ∧
      (fightvm_resolve_round rands st).draws =
        st.draws + ((List.finRange 2).filter fun j => decide (st.results j = Gamble)).length ∧
      ((List.range 100).filter fun r => decide (randrange r 1 100 > 90)).length = 10 := by
  obtain ⟨hw, hl⟩ := resolve_gambles_outcome rands st i hg hs
  refine ⟨(randrange_bounds _).1, (randrange_bounds _).2, ?_, ?_, ?_, ?_, by decide⟩
  · intro h
    rw [(resolve_round_gambles rands st i).1, (resolve_round_gambles rands st i).2.1]
    exact hw h
  · intro h
    rw [(resolve_round_gambles rands st i).1, (resolve_round_gambles rands st i).2.1]
    exact hl h
  · intro j hj
    rw [(resolve_round_gambles rands st j).1, (resolve_round_gambles rands st j).2.1]
    obtain ⟨h1, h2⟩ := resolve_gambles_keep rands st j hj
    exact ⟨h1, by rw [h2]⟩
  · rw [(resolve_round_gambles rands st i).2.2]
    exact resolve_gambles_draws rands st

/-- Claim C10 at a concrete input: both programs gamble, the first value of `rand()` is
1234590 and the second 5.  Program 1 is resolved by the second draw, 6: the round leaves its
intent at Defend and its strength unchanged, while program 0, resolved by the first draw,
91, is left at Attack. -/
theorem gamble_resolution_witness :
    both_gamble_state.results 1 = Gamble ∧
      inInt32 ((both_gamble_state.user_program 1).strength + 1) ∧
      gamble_draw both_gamble_state 1 = 1 ∧
      randrange (win_then_lose 0) 1 100 = 91 ∧ randrange (win_then_lose 1) 1 100 = 6 ∧
      (fightvm_resolve_round win_then_lose both_gamble_state).results 1 = Defend ∧
      ((fightvm_resolve_round win_then_lose both_gamble_state).user_program 1).strength =
        (both_gamble_state.user_program 1).strength ∧
      (fightvm_resolve_round win_then_lose both_gamble_state).results 0 = Attack :=
  ⟨rfl, by decide, by decide, by decide, by decide,
    ((gamble_resolution win_then_lose both_gamble_state 1 rfl (by decide)).2.2.2.1
      (by decide)).1,
    ((gamble_resolution win_then_lose both_gamble_state 1 rfl (by decide)).2.2.2.1
      (by decide)).2,
    by decide⟩

/-! ## Further claims about the round resolver and the virtual machine -/

theorem clamp_hp_nonneg (up : Fin 2 → program) :
    0 ≤ (clamp_hp up 0).hp ∧ 0 ≤ (clamp_hp up 1).hp := by
  unfold clamp_hp
  by_cases h0 : (up 0).hp < 0 <;> by_cases h1 : (up 1).hp < 0 <;>
    simp [h0, h1, Function.update] <;> omega

/-- Claim C11: for every prior state (healths, strengths), every pair of intents and every
sequence of `rand()` values, both programs' `hp` are at least 0 when `fightvm_resolve_round`
returns; hence after any non-empty sequence of rounds, whatever the damage dealt, both healths
are at least 0. -/
theorem health_never_negative :
    (∀ (rands : Nat → Nat) (st : round_state),
        0 ≤ ((fightvm_resolve_round rands st).user_program 0).hp ∧
        0 ≤ ((fightvm_resolve_round rands st).user_program 1).hp) ∧
      ∀ (up : Fin 2 → program) (rs : List ((Fin 2 → Int) × (Nat → Nat)))
        (r : (Fin 2 → Int) × (Nat → Nat)),
        0 ≤ (play_rounds up (rs ++ [r]) 0).hp ∧ 0 ≤ (play_rounds up (rs ++ [r]) 1).hp := by
  constructor
  · intro rands st
    exact clamp_hp_nonneg _
  · intro up rs r
    unfold play_rounds
    rw [List.foldl_append]
    exact clamp_hp_nonneg _

theorem step_halted_iff (code : List Int) (labels : Fin 10 → Int) (tick : Nat) (ip : Int)
    (m m1 : machine) :
    step code labels tick ip m = .halted m1 ↔
      (((code.length : Int) ≤ ip ∨ fetch code ip = some (-1)) ∧ m1 = m) := by
  unfold step
  by_cases hlt : ip < (code.length : Int)
  · rw [if_pos hlt]
    cases hf : fetch code ip with
    | none => simp [hf]; omega
    | some op =>
      by_cases hop : op = -1
      · subst hop
        simp [eq_comm]
      · simp only [if_neg hop]
        cases hx : exec code labels op ip (m.set T0 (wrap32 tick)) with
        | none => simp [hop]; omega
        | some x => simp [hop]; omega
  · rw [if_neg hlt]
    simp [eq_comm]
    intro _
    left; omega

theorem exec_flags (code : List Int) (labels : Fin 10 → Int) (op ip ip1 : Int)
    (m m1 : machine) (hop : op ≠ (ops_enum.CMP.code : Int))
    (h : exec code labels op ip m = some (ip1, m1)) : m1.flags = m.flags := by
  unfold exec at h
  cases hd : ops_enum.ofInt? op with
  | none =>
    rw [hd] at h
    simp only [Option.some.injEq, Prod.mk.injEq] at h
    rw [← h.2]
  | some o =>
    rw [hd] at h
    have hne : o ≠ .CMP := by
      rintro rfl
      have := List.find?_some hd
      simp only [decide_eq_true_eq] at this
      exact hop this.symm
    cases o <;> simp only [] at h <;> (try exact absurd rfl hne) <;> (try split_ifs at h) <;>
      simp only [Option.bind_eq_bind, Option.pure_def, Option.bind_eq_some, Option.some.injEq,
        Prod.mk.injEq, Option.map_eq_some', machine.set] at h <;>
      aesop

theorem step_unknown_word (code : List Int) (labels : Fin 10 → Int) (tick : Nat) (ip w : Int)
    (m : machine) (hw : fetch code ip = some w) (hne : w ≠ -1)
    (hun : ops_enum.ofInt? w = none) :
    step code labels tick ip m = .running (ip + 1) (m.set T0 (wrap32 tick)) := by
  rw [step_of_fetch hw hne]
  simp only [exec, hun]

/-- Claim C16, as the code has it: a round of the loop of `fightvm_run_program` leaves the
loop exactly when the instruction pointer is at or past the end of the bytecode or the word
fetched is -1.  RET ends the run through the first test, by moving the instruction pointer
past the end.  A fetched word that is none of the 17 opcodes and not -1 does not stop the
run: the body runs, only the tick register changes, and the run goes on at the next word. -/
theorem run_ends_on_bound_or_sentinel (code : List Int) (labels : Fin 10 → Int) (tick : Nat)
    (ip : Int) (m : machine) :
    ((∃ m1, step code labels tick ip m = .halted m1) ↔
        ((code.length : Int) ≤ ip ∨ fetch code ip = some (-1))) ∧
      (fetch code ip = some (ops_enum.RET.code : Int) →
        step code labels tick ip m =
          .running ((code.length : Int) + 1) (m.set T0 (wrap32 tick)) ∧
        ∀ (tick1 : Nat) (m1 : machine),
          step code labels tick1 ((code.length : Int) + 1) m1 = .halted m1) ∧
      ∀ w : Int, fetch code ip = some w → w ≠ -1 → ops_enum.ofInt? w = none →
        step code labels tick ip m = .running (ip + 1) (m.set T0 (wrap32 tick)) := by
  refine ⟨?_, ?_, ?_⟩
  · constructor
    · rintro ⟨m1, h⟩
      exact ((step_halted_iff code labels tick ip m m1).mp h).1
    · intro h
      exact ⟨m, (step_halted_iff code labels tick ip m m).mpr ⟨h, rfl⟩⟩
  · intro h
    constructor
    · rw [step_of_fetch h (by decide)]
      have hd : ops_enum.ofInt? ((ops_enum.RET.code : Nat) : Int) = some ops_enum.RET := by
        decide
      simp only [exec, hd]
    · intro tick1 m1
      exact (step_halted_iff code labels tick1 _ m1 m1).mpr ⟨Or.inl (by omega), rfl⟩
  · intro w hw hne hun
    exact step_unknown_word code labels tick ip w m hw hne hun

/-- Claim C16 at a concrete input: in `[99, 16]` the word 99 at index 0 is no opcode; the
round there does not leave the loop and goes on at index 1. -/
theorem run_ends_on_bound_or_sentinel_witness :
    fetch [99, 16] 0 = some 99 ∧ (99 : Int) ≠ -1 ∧ ops_enum.ofInt? 99 = none ∧
      step [99, 16] (fun _ => 0) 5 0 zero_machine =
        .running (0 + 1) (zero_machine.set T0 (wrap32 5)) :=
  ⟨rfl, by decide, by decide,
    (run_ends_on_bound_or_sentinel [99, 16] (fun _ => 0) 5 0 zero_machine).2.2 99 rfl
      (by decide) (by decide)⟩

/-- Claim C16 as stated fails: the assembled `stray_word_source` fetches the word 99, which
is no opcode, in its sixth round; the run goes on, increments `R0` and returns 1, where a run
stopped at that word would return 0. -/
theorem unknown_word_does_not_stop :
    (parse_code (program_of_source stray_word_source 1000)).bytecode? =
        some [11, 99, 2, 0, 11, 7, 15, 10, 3, 9, 7] ∧
      executed_words (assemble stray_word_source 1000).bytecode
        (assemble stray_word_source 1000).labels (fun _ => 0) 9 0 0
        (entry_machine (globals_of (assemble stray_word_source 1000) (assemble [] 1000)) 0) =
          [11, 2, 11, 15, 10, 99, 2, 11] ∧
      (fightvm_run_program 9 (fun _ => 0)
        (globals_of (assemble stray_word_source 1000) (assemble [] 1000)) 0).intent? =
          some 1 := by
  refine ⟨rfl, ?_, rfl⟩
  decide

theorem step_flags (code : List Int) (labels : Fin 10 → Int) (tick : Nat) (ip ip1 : Int)
    (m m1 : machine) (h : step code labels tick ip m = .running ip1 m1)
    (hop : fetch code ip ≠ some (ops_enum.CMP.code : Int)) : m1.flags = m.flags := by
  unfold step at h
  split at h
  · cases hf : fetch code ip with
    | none => rw [hf] at h; cases h
    | some op =>
      rw [hf] at h hop
      simp only at h
      split at h
      · cases h
      · cases hx : exec code labels op ip (m.set T0 (wrap32 tick)) with
        | none => rw [hx] at h; cases h
        | some x =>
          obtain ⟨ip2, m2⟩ := x
          rw [hx] at h
          simp only [step_result.running.injEq] at h
          rw [← h.2]
          exact exec_flags code labels op ip ip2 (m.set T0 (wrap32 tick)) m2
            (fun hc => hop (by rw [hc])) hx
  · cases h

theorem run_loop_flags (code : List Int) (labels : Fin 10 → Int) (ticks : Nat → Nat) :
    ∀ (fuel k : Nat) (ip : Int) (m m1 : machine),
      run_loop code labels ticks fuel k ip m = .done m1 →
      (ops_enum.CMP.code : Int) ∉ executed_words code labels ticks fuel k ip m →
      m1.flags = m.flags := by
  intro fuel
  induction fuel with
  | zero => intro k ip m m1 h; simp [run_loop] at h
  | succ f ih =>
    intro k ip m m1 h hno
    rw [run_loop] at h
    rw [executed_words] at hno
    cases hs : step code labels (ticks k) ip m with
    | running ip2 m2 =>
      rw [hs] at h hno
      simp only [List.mem_append, not_or] at hno
      have h1 := ih (k + 1) ip2 m2 m1 h hno.2
      have h2 := step_flags code labels (ticks k) ip ip2 m m2 hs (by
        intro hc
        apply hno.1
        rw [hc]
        simp)
      rw [h1, h2]
    | halted m2 =>
      rw [hs] at h
      simp only [loop_result.done.injEq] at h
      have := ((step_halted_iff code labels (ticks k) ip m m2).mp hs).2
      rw [← h, this]
    | fault => rw [hs] at h; cases h

/-- Claim C17: in the loop of `fightvm_run_program` a round whose fetched word is not CMP
leaves all four flags unchanged; a run that leaves its loop without having executed CMP ends
with the flags it was entered with; the loop is entered with the global flags as they are, and
the flags a call leaves behind, which are the flags the next call is entered with, are those
its loop ended with. -/
theorem flags_written_only_by_cmp :
    (∀ (code : List Int) (labels : Fin 10 → Int) (tick : Nat) (ip ip1 : Int) (m m1 : machine),
        step code labels tick ip m = .running ip1 m1 →
        fetch code ip ≠ some (ops_enum.CMP.code : Int) → m1.flags = m.flags) ∧
      (∀ (code : List Int) (labels : Fin 10 → Int) (ticks : Nat → Nat) (fuel k : Nat) (ip : Int)
        (m m1 : machine), run_loop code labels ticks fuel k ip m = .done m1 →
        (ops_enum.CMP.code : Int) ∉ executed_words code labels ticks fuel k ip m →
        m1.flags = m.flags) ∧
      (∀ (fuel : Nat) (ticks : Nat → Nat) (g : globals) (i : Fin 2),
        (entry_machine g i).flags = g.flags ∧
        run_program_loop fuel ticks g i =
          run_loop (g.user_program i).bytecode (g.user_program i).labels ticks fuel 0 0
            (entry_machine g i)) ∧
      ∀ (fuel : Nat) (ticks : Nat → Nat) (g g1 : globals) (i j : Fin 2) (v : Int),
        fightvm_run_program fuel ticks g i = .returned v g1 →
        (run_program_loop fuel ticks g i).final?.map (fun m => m.flags) = some g1.flags ∧
        (entry_machine g1 j).flags = g1.flags := by
  refine ⟨step_flags, run_loop_flags, fun fuel ticks g i => ⟨rfl, rfl⟩, ?_⟩
  intro fuel ticks g g1 i j v h
  unfold fightvm_run_program at h
  cases hl : run_program_loop fuel ticks g i with
  | done m =>
    rw [hl] at h
    simp only [run_result.returned.injEq] at h
    refine ⟨?_, rfl⟩
    rw [← h.2]
    simp only [loop_result.final?, Option.map_some', clamp_intent]
    split <;> rfl
  | fault => rw [hl] at h; cases h
  | out_of_fuel => rw [hl] at h; cases h

/-- Claim C17 at a concrete input: a round executing `STORE R0, 7`, entered with the flags
LessThan, Equal and Error set, leaves those flags as they were. -/
theorem flags_written_only_by_cmp_witness :
    step [7, 0, 7] (fun _ => 0) 5 0 { zero_machine with flags := ⟨1, 0, 1, 1⟩ } =
        .running 3 ((({ zero_machine with flags := ⟨1, 0, 1, 1⟩ } : machine).set T0
          (wrap32 5)).set R0 7) ∧
      fetch [7, 0, 7] 0 ≠ some (ops_enum.CMP.code : Int) ∧
      ((({ zero_machine with flags := ⟨1, 0, 1, 1⟩ } : machine).set T0
          (wrap32 5)).set R0 7).flags =
        ({ zero_machine with flags := ⟨1, 0, 1, 1⟩ } : machine).flags :=
  ⟨rfl, by decide,
    flags_written_only_by_cmp.1 [7, 0, 7] (fun _ => 0) 5 0 3
      { zero_machine with flags := ⟨1, 0, 1, 1⟩ } _ rfl (by decide)⟩

/-! ## Further claims about the assembler -/

theorem drop_takeWhile_length (go : Char → Bool) (l : List Char) :
    l.drop (l.takeWhile go).length = l.dropWhile go := by
  have h := List.drop_left (l.takeWhile go) (l.dropWhile go)
  rwa [List.takeWhile_append_dropWhile] at h

theorem takeWhile_length_le (go : Char → Bool) (l : List Char) :
    (l.takeWhile go).length ≤ l.length :=
  (List.takeWhile_sublist go).length_le

theorem opcode_of_token_eq_none {tok : List Char} (h : ∀ o, ops_enum_strings o ≠ tok) :
    opcode_of_token tok = none := by
  unfold opcode_of_token
  rw [List.find?_eq_none]
  intro o _
  simp only [beq_iff_eq]
  exact h o

/-- Claim C13: for every source whose first whitespace-delimited token is none of the 17
mnemonics, the empty and the all-blank source included, `parse_code` returns with an empty
bytecode (`bytecode_len = 0`); `fightvm_run_program` on a program with empty bytecode leaves
its loop at the first test, with the registers and flags it was entered with, and returns
Defend (0). -/
theorem no_instruction_source (up : program)
    (h : ∀ o, ops_enum_strings o ≠ first_token up.asmcode) :
    parse_code up = .returned { up with bytecode := [] } ∧
      ∀ (fuel : Nat) (ticks : Nat → Nat) (g : globals) (i : Fin 2), 1 ≤ fuel →
        (g.user_program i).bytecode = [] →
        run_program_loop fuel ticks g i = .done (entry_machine g i) ∧
        (fightvm_run_program fuel ticks g i).intent? = some Defend := by
  constructor
  · unfold parse_code
    simp only
    rw [parse_loop, skip_space_drop _ _ (Nat.zero_le _)]
    simp only [List.drop_zero, Nat.zero_add]
    have h1 : opcode_of_token (List.takeWhile (fun c => !isBlank c)
        (List.dropWhile isBlank up.asmcode)) = none := opcode_of_token_eq_none h
    rw [next_opcode_drop _ _ (takeWhile_length_le _ _), drop_takeWhile_length, h1]
  · intro fuel ticks g i hf hb
    obtain ⟨f, rfl⟩ : ∃ f, fuel = f + 1 := ⟨fuel - 1, by omega⟩
    have hl : run_program_loop (f + 1) ticks g i = .done (entry_machine g i) := by
      unfold run_program_loop
      simp only [hb]
      rfl
    refine ⟨hl, ?_⟩
    rw [intent_eq_clamped_R0, hl]
    have h0 : (entry_machine g i).registers R0 = 0 := by
      unfold entry_machine initial_registers
      fin_cases i <;> simp [Function.update, R0, C0, E0]
    simp [loop_result.final?, h0, Defend]

/-- Claim C13 at a concrete input: a source of blanks followed by the token `HELLO`. -/
theorem no_instruction_source_witness :
    first_token (program_of_source " \n\tHELLO R0\n".toList 1000).asmcode =
        ['H', 'E', 'L', 'L', 'O'] ∧
      parse_code (program_of_source " \n\tHELLO R0\n".toList 1000) =
        .returned { program_of_source " \n\tHELLO R0\n".toList 1000 with bytecode := [] } :=
  ⟨by decide, (no_instruction_source (program_of_source " \n\tHELLO R0\n".toList 1000) (by
    intro o
    cases o <;> decide)).1⟩

/-! ## The checks on the scanners never fail -/

theorem scan_from_eq (go : Char → Bool) (s : List Char) (p : Nat) :
    scan_from go s p s.length = p + ((s.drop p).takeWhile go).length :=
  scan_drop go s _ p le_rfl

theorem scan_from_bounds (go : Char → Bool) (s : List Char) (p : Nat) (hp : p ≤ s.length) :
    p ≤ scan_from go s p s.length ∧ scan_from go s p s.length ≤ s.length := by
  rw [scan_from_eq]
  have h1 := takeWhile_length_le go (s.drop p)
  rw [List.length_drop] at h1
  omega

theorem inBuffer_scan_from (go : Char → Bool) (s : List Char) (p : Nat) (hp : p ≤ s.length) :
    inBuffer s.length (scan go s s.length (s.length - p) p) =
      some (scan_from go s p s.length) := by
  unfold inBuffer
  have := (scan_from_bounds go s p hp).2
  unfold scan_from at this ⊢
  rw [if_pos this]

theorem skip_space_total (s : List Char) (p : Nat) (hp : p ≤ s.length) :
    skip_space s p s.length = some (scan_from isBlank s p s.length) :=
  inBuffer_scan_from _ s p hp

theorem skip_comma_total (s : List Char) (p : Nat) (hp : p ≤ s.length) :
    skip_comma s p s.length = some (scan_from (fun c => c == ',') s p s.length) :=
  inBuffer_scan_from _ s p hp

theorem next_eol_total (s : List Char) (p : Nat) (hp : p ≤ s.length) :
    next_eol s p s.length = some (scan_from (fun c => c != '\n') s p s.length) :=
  inBuffer_scan_from _ s p hp

theorem opcode_of_token_some {tok : List Char} {o : ops_enum}
    (h : opcode_of_token tok = some o) : ops_enum_strings o = tok := by
  unfold opcode_of_token at h
  have := List.find?_some h
  simpa using this

theorem next_opcode_fits (s : List Char) (t : Nat) (o : ops_enum) (ht : t ≤ s.length)
    (h : next_opcode s t s.length = some o) :
    t + (ops_enum_strings o).length ≤ s.length ∧ 0 < (ops_enum_strings o).length := by
  rw [next_opcode_drop s t ht] at h
  have h1 := opcode_of_token_some h
  have h2 := takeWhile_length_le (fun c => !isBlank c) (s.drop t)
  rw [List.length_drop, ← h1] at h2
  refine ⟨by omega, ?_⟩
  cases o <;> decide

theorem get_register_fits (s : List Char) (t e r : Nat) (h : get_register s t e = some r) :
    t + 2 < e ∧ r < 11 := by
  unfold get_register at h
  have h1 := List.find?_some h
  have h2 := List.mem_of_find?_eq_some h
  simp only [REGISTERS_COUNT, List.mem_range] at h2
  simp only [Bool.and_eq_true, decide_eq_true_eq] at h1
  have h3 : (registers_enum_strings.getD r []).length = 2 := by
    interval_cases r <;> rfl
  rw [h3] at h1
  omega

theorem scan_from_le (go : Char → Bool) (s : List Char) (p : Nat) (hp : p ≤ s.length) :
    scan_from go s p s.length ≤ s.length :=
  (scan_from_bounds go s p hp).2

theorem le_scan_from (go : Char → Bool) (s : List Char) (p : Nat) (hp : p ≤ s.length) :
    p ≤ scan_from go s p s.length :=
  (scan_from_bounds go s p hp).1

/-- With the cursor inside the buffer at a recognised mnemonic, the loop body of `parse_code`
does what the body without scanner checks does. -/
theorem parse_instruction_eq_lookups (s : List Char) (up : program) (t : Nat) (o : ops_enum)
    (ht : t ≤ s.length) (ho : next_opcode s t s.length = some o) :
    parse_instruction s s.length up t o = parse_instruction_lookups s s.length up t o := by
  have h0 := (next_opcode_fits s t o ht ho).1
  cases o
  case STORE =>
    cases hg : get_register s (scan_from isBlank s (t + (ops_enum_strings .STORE).length)
        s.length) s.length with
    | none =>
      simp only [parse_instruction, parse_instruction_lookups, skip_space_total _ _ h0, hg]
    | some r =>
      have hr := (get_register_fits _ _ _ _ hg).1
      have b2 := scan_from_le isBlank s _ (le_of_lt hr)
      have b3 := scan_from_le (fun c => c == ',') s _ b2
      have b4 := scan_from_le isBlank s _ b3
      simp only [parse_instruction, parse_instruction_lookups, skip_space_total _ _ h0, hg,
        skip_space_total _ _ (le_of_lt hr), skip_comma_total _ _ b2, skip_space_total _ _ b3,
        next_eol_total _ _ b4]
  case MOVE =>
    cases hg : get_register s (scan_from isBlank s (t + (ops_enum_strings .MOVE).length)
        s.length) s.length with
    | none =>
      simp only [parse_instruction, parse_instruction_lookups, skip_space_total _ _ h0, hg]
    | some r =>
      have hr := (get_register_fits _ _ _ _ hg).1
      have b2 := scan_from_le isBlank s _ (le_of_lt hr)
      have b3 := scan_from_le (fun c => c == ',') s _ b2
      have b4 := scan_from_le isBlank s _ b3
      simp only [parse_instruction, parse_instruction_lookups, skip_space_total _ _ h0, hg,
        skip_space_total _ _ (le_of_lt hr), skip_comma_total _ _ b2, skip_space_total _ _ b3,
        next_eol_total _ _ b4]
  case INC | INCEQ | DEC | DECEQ =>
    simp only [parse_instruction, parse_instruction_lookups, skip_space_total _ _ h0]
    split
    · rfl
    · rename_i r hg
      have hr := (get_register_fits _ _ _ _ hg).1
      simp only [next_eol_total _ _ (le_of_lt hr)]
  case LABEL | JMP | JMPLT | JMPGT | JMPNE | JMPEQ =>
    have b1 := scan_from_le isBlank s _ h0
    simp only [parse_instruction, parse_instruction_lookups, skip_space_total _ _ h0,
      next_eol_total _ _ b1]
  case CMP | ADD | SUB | MUL | RET =>
    simp only [parse_instruction, parse_instruction_lookups]

theorem parse_instruction_lookups_progress (s : List Char) (up up1 : program) (t p1 : Nat)
    (o : ops_enum) (ht : t ≤ s.length) (ho : next_opcode s t s.length = some o)
    (h : parse_instruction_lookups s s.length up t o = .inl (up1, p1)) :
    t < p1 ∧ p1 ≤ s.length := by
  obtain ⟨h0, hpos⟩ := next_opcode_fits s t o ht ho
  have b1 := scan_from_bounds isBlank s _ h0
  cases o
  case STORE | MOVE =>
    simp only [parse_instruction_lookups] at h
    split at h
    · cases h
    · rename_i r hg
      have hr := (get_register_fits _ _ _ _ hg).1
      have b2 := scan_from_bounds isBlank s _ (le_of_lt hr)
      have b3 := scan_from_bounds (fun c => c == ',') s _ b2.2
      have b4 := scan_from_bounds isBlank s _ b3.2
      have b5 := scan_from_bounds (fun c => c != '\n') s _ b4.2
      split at h
      · cases h
      · simp only [Sum.inl.injEq, Prod.mk.injEq] at h
        omega
  case INC | INCEQ | DEC | DECEQ =>
    simp only [parse_instruction_lookups] at h
    split at h
    · cases h
    · rename_i r hg
      have hr := (get_register_fits _ _ _ _ hg).1
      have b2 := scan_from_bounds (fun c => c != '\n') s _ (le_of_lt hr)
      simp only [Sum.inl.injEq, Prod.mk.injEq] at h
      omega
  case LABEL | JMP | JMPLT | JMPGT | JMPNE | JMPEQ =>
    have b2 := scan_from_bounds (fun c => c != '\n') s _ b1.2
    simp only [parse_instruction_lookups, reduceCtorEq, if_false, if_true] at h
    repeat' split at h
    all_goals first
      | (simp only [Sum.inl.injEq, Prod.mk.injEq] at h; omega)
      | cases h
  case CMP | ADD | SUB | MUL | RET =>
    simp only [parse_instruction_lookups, Sum.inl.injEq, Prod.mk.injEq] at h
    omega

/-- From a cursor inside the buffer, the loop of `parse_code` does what the loop without
scanner checks does. -/
theorem parse_loop_eq_lookups (s : List Char) :
    ∀ (fuel : Nat) (up : program) (p : Nat), p ≤ s.length →
      parse_loop s s.length fuel up p = parse_loop_lookups s s.length fuel up p := by
  intro fuel
  induction fuel with
  | zero => intro up p _; rfl
  | succ f ih =>
    intro up p hp
    have bt := scan_from_le isBlank s p hp
    rw [parse_loop, parse_loop_lookups, skip_space_total s p hp]
    simp only
    cases ho : next_opcode s (scan_from isBlank s p s.length) s.length with
    | none => rfl
    | some o =>
      simp only
      rw [parse_instruction_eq_lookups s up _ o bt ho]
      cases hi : parse_instruction_lookups s s.length up (scan_from isBlank s p s.length) o with
      | inl x =>
        obtain ⟨up1, p1⟩ := x
        simp only
        exact ih up1 p1 (parse_instruction_lookups_progress s up up1 _ p1 o bt ho hi).2
      | inr r => rfl

theorem parse_instruction_lookups_inr (s : List Char) (e : Nat) (up : program) (t : Nat)
    (o : ops_enum) (r : parse_result) (h : parse_instruction_lookups s e up t o = .inr r) :
    (∃ P, r = .exit100 P) ∨ (∃ P, r = .buf_overflow P) ∨ ∃ P v, r = .label_out_of_bounds P v := by
  cases o <;> simp only [parse_instruction_lookups, reduceCtorEq, if_false, if_true] at h <;>
    (repeat' split at h) <;>
    simp only [Sum.inr.injEq, reduceCtorEq] at h <;>
    subst h <;> simp

/-- The iteration bound of the embedding is never reached: every round that continues moves
the cursor forward. -/
theorem parse_loop_lookups_fuel (s : List Char) :
    ∀ (fuel : Nat) (up : program) (p : Nat), p ≤ s.length → s.length - p < fuel →
      ∀ P, parse_loop_lookups s s.length fuel up p ≠ .out_of_fuel P := by
  intro fuel
  induction fuel with
  | zero => intro up p _ h; omega
  | succ f ih =>
    intro up p hp hf P
    have bt := scan_from_bounds isBlank s p hp
    rw [parse_loop_lookups]
    cases ho : next_opcode s (scan_from isBlank s p s.length) s.length with
    | none => simp
    | some o =>
      simp only
      cases hi : parse_instruction_lookups s s.length up (scan_from isBlank s p s.length) o with
      | inl x =>
        obtain ⟨up1, p1⟩ := x
        simp only
        have hprog := parse_instruction_lookups_progress s up up1 _ p1 o bt.2 ho hi
        exact ih up1 p1 hprog.2 (by omega) P
      | inr r =>
        simp only
        rcases parse_instruction_lookups_inr s _ up _ o r hi with
          ⟨Q, rfl⟩ | ⟨Q, rfl⟩ | ⟨Q, v, rfl⟩ <;> simp

theorem instruction_exit_iff (s : List Char) (e : Nat) (up : program) (t : Nat)
    (o : ops_enum) :
    (∃ P, parse_instruction_lookups s e up t o = .inr (.exit100 P)) ↔
      none ∈ instruction_lookups s e t o := by
  cases o
  case STORE =>
    simp only [parse_instruction_lookups, instruction_lookups, List.mem_singleton]
    split
    · rename_i hg
      simp [hg]
    · rename_i r hg
      split <;> simp [hg]
  case MOVE =>
    simp only [parse_instruction_lookups, instruction_lookups]
    split
    · simp
    · rename_i r hg
      split
      · rename_i hg2
        simp [hg2]
      · rename_i r2 hg2
        simp [hg2]
  case INC | INCEQ | DEC | DECEQ =>
    simp only [parse_instruction_lookups, instruction_lookups, List.mem_singleton]
    split
    · rename_i hg
      simp [hg]
    · rename_i r hg
      simp [hg]
  case LABEL | JMP | JMPLT | JMPGT | JMPNE | JMPEQ =>
    simp only [parse_instruction_lookups, instruction_lookups, reduceCtorEq, if_false, if_true,
      List.not_mem_nil, iff_false, not_exists]
    intro P
    repeat' split
    all_goals simp
  case CMP | ADD | SUB | MUL | RET =>
    simp [parse_instruction_lookups, instruction_lookups]

theorem loop_exit_iff (s : List Char) (e : Nat) :
    ∀ (fuel : Nat) (up : program) (p : Nat),
      (∃ P, parse_loop_lookups s e fuel up p = .exit100 P) ↔
        none ∈ loop_lookups s e fuel up p := by
  intro fuel
  induction fuel with
  | zero => intro up p; simp [parse_loop_lookups, loop_lookups]
  | succ f ih =>
    intro up p
    rw [parse_loop_lookups, loop_lookups]
    cases ho : next_opcode s (scan_from isBlank s p e) e with
    | none => simp
    | some o =>
      simp only
      have hx := instruction_exit_iff s e up (scan_from isBlank s p e) o
      cases hi : parse_instruction_lookups s e up (scan_from isBlank s p e) o with
      | inl x =>
        obtain ⟨up1, p1⟩ := x
        rw [hi] at hx
        simp only [reduceCtorEq, exists_false, false_iff] at hx
        simp only [List.mem_append, hx, false_or]
        exact ih up1 p1
      | inr r =>
        rw [hi] at hx
        simp only [Sum.inr.injEq] at hx
        simp only [List.append_nil]
        rw [← hx]

theorem register_name_length (r : Fin 11) : (register_name r).length = 2 := by
  fin_cases r <;> rfl

/-- A `get_register` lookup fails exactly when the rest of the buffer does not begin with one
of the 11 register names followed by at least one more character. -/
theorem register_of_text_eq_none_iff (rest : List Char) :
    register_of_text rest = none ↔
      ¬ ∃ (r : Fin 11) (c : Char) (tail : List Char), rest = register_name r ++ c :: tail := by
  constructor
  · rintro h ⟨r, c, tail, rfl⟩
    rw [register_of_text_name] at h
    cases h
  · intro h
    cases hr : register_of_text rest with
    | none => rfl
    | some r =>
      exfalso
      apply h
      unfold register_of_text at hr
      have h1 := List.find?_some hr
      have h2 := List.mem_of_find?_eq_some hr
      simp only [REGISTERS_COUNT, List.mem_range] at h2
      simp only [Bool.and_eq_true, decide_eq_true_eq, beq_iff_eq] at h1
      have h3 : register_name ⟨r, h2⟩ = registers_enum_strings.getD r [] := rfl
      have h4 := register_name_length ⟨r, h2⟩
      rw [h3] at h4
      rw [h4] at h1
      obtain ⟨hlen, htake⟩ := h1
      have hsplit := List.take_append_drop 2 rest
      cases hd : rest.drop 2 with
      | nil =>
        have := congrArg List.length hd
        simp only [List.length_drop, List.length_nil] at this
        omega
      | cons c tail =>
        refine ⟨⟨r, h2⟩, c, tail, ?_⟩
        rw [h3, ← htake, ← hd, hsplit]

/-! ## The assembler as a function of the rest of the buffer -/

theorem drop_add (s : List Char) (q n : Nat) : s.drop (q + n) = (s.drop q).drop n := by
  rw [List.drop_drop]

theorem drop_scan_from (go : Char → Bool) (s : List Char) (q : Nat) :
    s.drop (scan_from go s q s.length) = (s.drop q).dropWhile go := by
  rw [scan_from_eq, drop_add, drop_takeWhile_length]

theorem read_int_scan_from (s : List Char) (q : Nat) :
    read_int s q (scan_from (fun c => c != '\n') s q s.length) =
      text_int ((s.drop q).takeWhile fun c => c != '\n') := by
  unfold read_int text_int
  rw [scan_from_eq]
  simp only [Nat.add_sub_cancel_left]
  rw [bytesAt_takeWhile]

/-- The loop body without scanner checks reads only the characters from the mnemonic on. -/
theorem parse_instruction_lookups_text (s : List Char) (up : program) (t : Nat)
    (o : ops_enum) :
    Sum.map (fun x : program × Nat => (x.1, s.drop x.2)) id
        (parse_instruction_lookups s s.length up t o) =
      text_instruction up o (s.drop t) := by
  cases o
  case STORE | MOVE =>
    simp only [parse_instruction_lookups, text_instruction, get_register_drop, drop_scan_from,
      drop_add, read_int_scan_from]
    split
    · rfl
    · split <;> simp only [Sum.map_inl, Sum.map_inr, id, drop_scan_from, drop_add]
  case INC | INCEQ | DEC | DECEQ =>
    simp only [parse_instruction_lookups, text_instruction, get_register_drop, drop_scan_from,
      drop_add, read_int_scan_from]
    split
    · rfl
    · simp only [Sum.map_inl, drop_scan_from, drop_add]
  case LABEL | JMP | JMPLT | JMPGT | JMPNE | JMPEQ =>
    simp only [parse_instruction_lookups, text_instruction, get_register_drop, drop_scan_from,
      drop_add, read_int_scan_from, reduceCtorEq, if_false, if_true]
    repeat' split
    all_goals simp only [Sum.map_inl, Sum.map_inr, id, drop_scan_from, drop_add]
  case CMP | ADD | SUB | MUL | RET =>
    simp only [parse_instruction_lookups, text_instruction, Sum.map_inl, drop_add]

/-- The loop without scanner checks reads only the characters from the cursor on. -/
theorem parse_loop_lookups_text (s : List Char) :
    ∀ (fuel : Nat) (up : program) (p : Nat), p ≤ s.length →
      parse_loop_lookups s s.length fuel up p = text_loop fuel up (s.drop p) := by
  intro fuel
  induction fuel with
  | zero => intro up p _; rfl
  | succ f ih =>
    intro up p hp
    have bt := scan_from_le isBlank s p hp
    rw [parse_loop_lookups, text_loop]
    rw [← drop_scan_from, ← next_opcode_drop s _ bt]
    cases ho : next_opcode s (scan_from isBlank s p s.length) s.length with
    | none => rfl
    | some o =>
      simp only
      have hT := parse_instruction_lookups_text s up (scan_from isBlank s p s.length) o
      cases hi : parse_instruction_lookups s s.length up (scan_from isBlank s p s.length) o with
      | inl x =>
        obtain ⟨up1, p1⟩ := x
        rw [hi] at hT
        simp only [Sum.map_inl] at hT
        rw [← hT]
        simp only
        exact ih up1 p1 (parse_instruction_lookups_progress s up up1 _ p1 o bt ho hi).2
      | inr r =>
        rw [hi] at hT
        simp only [Sum.map_inr, id] at hT
        rw [← hT]

/-- The function `parse_code` as a function of the source text. -/
theorem parse_code_text (up : program) :
    parse_code up = text_loop (up.asmcode.length + 1) { up with bytecode := [] } up.asmcode := by
  unfold parse_code
  simp only
  rw [parse_loop_eq_lookups _ _ _ _ (Nat.zero_le _),
    parse_loop_lookups_text _ _ _ _ (Nat.zero_le _), List.drop_zero]

theorem parse_code_eq_lookups (up : program) : parse_code up = parse_code_lookups up := by
  unfold parse_code parse_code_lookups
  exact parse_loop_eq_lookups _ _ _ _ (Nat.zero_le _)

theorem parse_code_fuel (up : program) (P : program) : parse_code up ≠ .out_of_fuel P := by
  rw [parse_code_eq_lookups]
  unfold parse_code_lookups
  exact parse_loop_lookups_fuel _ _ _ _ (Nat.zero_le _) (by omega) P

/-- Up to its first access outside `buf` or `labels`, `parse_code` does what it does with the
checks on `skip_space`, `skip_comma` and `next_eol` removed, it leaves its loop, and it
reaches its error exit if and only if some `get_register` lookup returns `-1`. -/
theorem parse_code_exit_iff_lookup :
    (∀ up : program, parse_code up = parse_code_lookups up) ∧
      (∀ up P : program, parse_code up ≠ .out_of_fuel P) ∧
      (∀ up : program, (∃ P, parse_code up = .exit100 P) ↔ none ∈ register_lookups up) ∧
      ∀ (s : List Char) (t : Nat),
        get_register s t s.length = none ↔
          ¬ ∃ (r : Fin 11) (c : Char) (tail : List Char),
            s.drop t = register_name r ++ c :: tail := by
  refine ⟨parse_code_eq_lookups, parse_code_fuel, ?_, ?_⟩
  · intro up
    rw [parse_code_eq_lookups]
    exact loop_exit_iff _ _ _ _ _
  · intro s t
    rw [get_register_drop]
    exact register_of_text_eq_none_iff _

/-! ## The checks of the assembler, past its unchecked accesses -/

theorem opcode_of_token_mnemonic (o : ops_enum) :
    opcode_of_token (ops_enum_strings o) = some o := by
  cases o <;> decide

theorem token_of_mnemonic (o : ops_enum) (rest : List Char)
    (hrest : ∀ c ∈ rest.head?, isBlank c = true) :
    (ops_enum_strings o ++ rest).takeWhile (fun c => !isBlank c) = ops_enum_strings o := by
  have hall : ∀ c ∈ ops_enum_strings o, (!isBlank c) = true := by
    cases o <;> decide
  rw [List.takeWhile_append_of_pos hall]
  cases rest with
  | nil => simp
  | cons c cs =>
    have hc : isBlank c = true := hrest c (by simp)
    simp [hc]

theorem parse_loop_text (s : List Char) (fuel : Nat) (up : program) (p : Nat)
    (hp : p ≤ s.length) : parse_loop s s.length fuel up p = text_loop fuel up (s.drop p) := by
  rw [parse_loop_eq_lookups s fuel up p hp, parse_loop_lookups_text s fuel up p hp]

theorem text_loop_at_mnemonic (fuel : Nat) (up : program) (x rest : List Char) (o : ops_enum)
    (hx : x.dropWhile isBlank = ops_enum_strings o ++ rest)
    (hrest : ∀ c ∈ rest.head?, isBlank c = true) :
    text_loop (fuel + 1) up x =
      match text_instruction up o (ops_enum_strings o ++ rest) with
      | .inl (up, x) => text_loop fuel up x
      | .inr r => r := by
  rw [text_loop]
  simp only [hx, token_of_mnemonic o rest hrest, opcode_of_token_mnemonic]

/-- Claim C12, as the code has it: when the loop of `parse_code` is at one of the mnemonics
STORE, MOVE, INC, DEC, INCEQ, DECEQ and the text after it does not begin, after blanks, with
one of the 11 register names followed by at least one more character, `parse_code` takes its
error exit, having emitted the opcode word only; the same holds at the second register of MOVE,
after the first register word was emitted. -/
theorem missing_register_aborts :
    (∀ (s : List Char) (up : program) (p fuel : Nat) (o : ops_enum) (rest : List Char),
        p ≤ s.length → o ∈ register_ops →
        (s.drop p).dropWhile isBlank = ops_enum_strings o ++ rest →
        (∀ c ∈ rest.head?, isBlank c = true) →
        (¬ ∃ (r : Fin 11) (c : Char) (tail : List Char),
          rest.dropWhile isBlank = register_name r ++ c :: tail) →
        parse_loop s s.length (fuel + 1) up p =
          .exit100 (program_set_bytecode up (o.code : Int))) ∧
      ∀ (s : List Char) (up : program) (p fuel : Nat) (rest tail : List Char) (r : Fin 11)
        (c : Char),
        p ≤ s.length →
        (s.drop p).dropWhile isBlank = ops_enum_strings .MOVE ++ rest →
        (∀ c ∈ rest.head?, isBlank c = true) →
        rest.dropWhile isBlank = register_name r ++ c :: tail →
        (¬ ∃ (r2 : Fin 11) (c2 : Char) (tail2 : List Char),
          (((c :: tail).dropWhile isBlank).dropWhile fun c => c == ',').dropWhile isBlank =
            register_name r2 ++ c2 :: tail2) →
        parse_loop s s.length (fuel + 1) up p =
          .exit100 (program_set_bytecode (program_set_bytecode up (ops_enum.MOVE.code : Int))
            ((r : Nat) : Int)) := by
  constructor
  · intro s up p fuel o rest hp ho hx hrest hmiss
    have hnone := (register_of_text_eq_none_iff _).mpr hmiss
    rw [parse_loop_text s _ up p hp, text_loop_at_mnemonic fuel up _ rest o hx hrest]
    simp only [register_ops, List.mem_cons, List.mem_singleton, List.not_mem_nil, or_false] at ho
    rcases ho with rfl | rfl | rfl | rfl | rfl | rfl <;>
      simp only [text_instruction, List.drop_left, hnone]
  · intro s up p fuel rest tail r c hp hx hrest hfirst hmiss
    have hnone := (register_of_text_eq_none_iff _).mpr hmiss
    have hsome : register_of_text (rest.dropWhile isBlank) = some (r : Nat) := by
      rw [hfirst]; exact register_of_text_name r c tail
    have hdrop : (rest.dropWhile isBlank).drop 2 = c :: tail := by
      rw [hfirst]
      exact List.drop_left' (register_name_length r)
    rw [parse_loop_text s _ up p hp, text_loop_at_mnemonic fuel up _ rest .MOVE hx hrest]
    simp only [text_instruction, List.drop_left, hsome, hdrop, hnone]

/-- Claim C12 at a concrete input: in the source `INC` followed by a newline the register is
missing; `parse_code` takes its error exit after emitting the opcode word 0. -/
theorem missing_register_aborts_witness :
    (0 : Nat) ≤ "INC\n".toList.length ∧ ops_enum.INC ∈ register_ops ∧
      ("INC\n".toList.drop 0).dropWhile isBlank = ops_enum_strings .INC ++ ['\n'] ∧
      parse_loop "INC\n".toList "INC\n".toList.length (4 + 1)
          (program_of_source "INC\n".toList 1000) 0 =
        .exit100 (program_set_bytecode (program_of_source "INC\n".toList 1000)
          (ops_enum.INC.code : Int)) :=
  ⟨by decide, by decide, by decide,
    missing_register_aborts.1 "INC\n".toList (program_of_source "INC\n".toList 1000) 0 4 .INC
      ['\n'] (by decide) (by decide) (by decide) (by decide)
      ((register_of_text_eq_none_iff _).mp (by decide))⟩

/-- Claim C12 as stated fails: with the integer of `STORE R0,` missing, `parse_code` returns
the bytecode `[7, 0, 0]`; with the line terminator of `STORE R0, 7` missing it returns
`[7, 0, 7]`; it aborts on neither. -/
theorem missing_integer_or_newline_accepted :
    (parse_code (program_of_source missing_int_source 1000)).bytecode? = some [7, 0, 0] ∧
      (parse_code (program_of_source missing_int_source 1000)).is_exit = false ∧
      (parse_code (program_of_source missing_eol_source 1000)).bytecode? = some [7, 0, 7] ∧
      (parse_code (program_of_source missing_eol_source 1000)).is_exit = false := by
  refine ⟨rfl, rfl, rfl, rfl⟩

/-- Claim C14 at the failing input `LABEL 10`: `parse_code` does not take its error exit; it
emits `[9, 10]` and goes on to the store `labels[10]`, outside the 10-entry table. -/
theorem label_ten_not_rejected :
    (parse_code (program_of_source wide_label_source 1000)).is_exit = false ∧
      (parse_code (program_of_source wide_label_source 1000)).oob_label? = some 10 ∧
      (parse_code (program_of_source wide_label_source 1000)).program.bytecode = [9, 10] := by
  refine ⟨rfl, rfl, rfl⟩

/-! ## Well-formed sources -/

theorem text_int_literal (l : int_literal) (h : l.fits) : text_int l.text = some l.value := by
  obtain ⟨hwf, hlen, hfit⟩ := h
  unfold text_int
  rw [if_neg (by omega)]
  obtain ⟨k, hk⟩ : ∃ k, 64 - l.text.length = k + 1 := ⟨63 - l.text.length, by omega⟩
  rw [hk, List.replicate_succ]
  exact strtol_literal l hwf hfit _

theorem register_name_chars (r : Fin 11) :
    ∃ a b, register_name r = [a, b] ∧ isBlank a = false ∧ (a != '\n') = true ∧
      (b != '\n') = true := by
  fin_cases r <;> exact ⟨_, _, rfl, by decide, by decide, by decide⟩

theorem takeWhile_line (txt tl : List Char) (h : ∀ c ∈ txt, (c != '\n') = true) :
    (txt ++ '\n' :: tl).takeWhile (fun c => c != '\n') = txt := by
  rw [List.takeWhile_append_of_pos h]
  simp

theorem dropWhile_line (txt tl : List Char) (h : ∀ c ∈ txt, (c != '\n') = true) :
    (txt ++ '\n' :: tl).dropWhile (fun c => c != '\n') = '\n' :: tl := by
  rw [List.dropWhile_append_of_pos h]
  simp

theorem dropWhile_blank_text (l : int_literal) (hwf : l.well_formed) (tl : List Char) :
    (' ' :: (l.text ++ tl)).dropWhile isBlank = l.text ++ tl := by
  cases ht : l.text with
  | nil => exact absurd ht (text_ne_nil l hwf)
  | cons c cs =>
    have hc : isBlank c = false := (text_chars l hwf c (by rw [ht]; simp)).2
    rw [List.dropWhile_cons_of_pos (by decide), List.cons_append,
      List.dropWhile_cons_of_neg (by simp [hc])]

theorem text_instruction_store (up : program) (r : Fin 11) (l : int_literal) (h : l.fits)
    (tl : List Char) :
    text_instruction up .STORE
        (ops_enum_strings .STORE ++ (source_line.store r l).operands ++ '\n' :: tl) =
      .inl ({ up with bytecode := up.bytecode ++ (source_line.store r l).encoding },
        '\n' :: tl) := by
  obtain ⟨a, b, hab, ha, _, _⟩ := register_name_chars r
  have hreg : register_of_text (a :: b :: ',' :: ' ' :: (l.text ++ '\n' :: tl)) =
      some (r : Nat) := by
    have := register_of_text_name r ',' (' ' :: (l.text ++ '\n' :: tl))
    rwa [hab] at this
  have hnl : ∀ c ∈ l.text, (c != '\n') = true := fun c hc => (text_chars l h.1 c hc).1
  have hx : ops_enum_strings .STORE ++ (source_line.store r l).operands ++ '\n' :: tl =
      ops_enum_strings .STORE ++ (' ' :: a :: b :: ',' :: ' ' :: (l.text ++ '\n' :: tl)) := by
    simp [source_line.operands, hab]
  rw [hx]
  simp only [text_instruction, List.drop_left]
  rw [List.dropWhile_cons_of_pos (by decide), List.dropWhile_cons_of_neg (by simp [ha]), hreg]
  simp only [List.drop_succ_cons, List.drop_zero]
  rw [List.dropWhile_cons_of_neg (by decide), List.dropWhile_cons_of_pos (by decide),
    List.dropWhile_cons_of_neg (by decide), dropWhile_blank_text l h.1, takeWhile_line _ _ hnl,
    dropWhile_line _ _ hnl, text_int_literal l h]
  simp [program_set_bytecode, source_line.encoding]

theorem text_instruction_move (up : program) (r1 r2 : Fin 11) (tl : List Char) :
    text_instruction up .MOVE
        (ops_enum_strings .MOVE ++ (source_line.move r1 r2).operands ++ '\n' :: tl) =
      .inl ({ up with bytecode := up.bytecode ++ (source_line.move r1 r2).encoding },
        '\n' :: tl) := by
  obtain ⟨a, b, hab, ha, _, _⟩ := register_name_chars r1
  obtain ⟨c, d, hcd, hc, hc', hd'⟩ := register_name_chars r2
  have hreg1 : register_of_text (a :: b :: ',' :: ' ' :: c :: d :: '\n' :: tl) =
      some (r1 : Nat) := by
    have := register_of_text_name r1 ',' (' ' :: c :: d :: '\n' :: tl)
    rwa [hab] at this
  have hreg2 : register_of_text (c :: d :: '\n' :: tl) = some (r2 : Nat) := by
    have := register_of_text_name r2 '\n' tl
    rwa [hcd] at this
  have hx : ops_enum_strings .MOVE ++ (source_line.move r1 r2).operands ++ '\n' :: tl =
      ops_enum_strings .MOVE ++ (' ' :: a :: b :: ',' :: ' ' :: c :: d :: '\n' :: tl) := by
    simp [source_line.operands, hab, hcd]
  rw [hx]
  simp only [text_instruction, List.drop_left]
  rw [List.dropWhile_cons_of_pos (by decide), List.dropWhile_cons_of_neg (by simp [ha]), hreg1]
  simp only [List.drop_succ_cons, List.drop_zero]
  rw [List.dropWhile_cons_of_neg (by decide), List.dropWhile_cons_of_pos (by decide),
    List.dropWhile_cons_of_neg (by decide), List.dropWhile_cons_of_pos (by decide),
    List.dropWhile_cons_of_neg (by simp [hc]), hreg2]
  have hdw := dropWhile_line [c, d] tl (by
    intro x hx
    simp only [List.mem_cons, List.mem_singleton, List.not_mem_nil, or_false] at hx
    rcases hx with rfl | rfl
    · exact hc'
    · exact hd')
  simp only [List.cons_append, List.nil_append] at hdw
  simp only [hdw]
  simp [program_set_bytecode, source_line.encoding]

theorem text_instruction_reg (up : program) (o : ops_enum) (ho : o ∈ increment_ops)
    (r : Fin 11) (tl : List Char) :
    text_instruction up o
        (ops_enum_strings o ++ (source_line.reg o r).operands ++ '\n' :: tl) =
      .inl ({ up with bytecode := up.bytecode ++ (source_line.reg o r).encoding },
        '\n' :: tl) := by
  obtain ⟨a, b, hab, ha, _, _⟩ := register_name_chars r
  have hreg : register_of_text (a :: b :: '\n' :: tl) = some (r : Nat) := by
    have := register_of_text_name r '\n' tl
    rwa [hab] at this
  have hx : ops_enum_strings o ++ (source_line.reg o r).operands ++ '\n' :: tl =
      ops_enum_strings o ++ (' ' :: a :: b :: '\n' :: tl) := by
    simp [source_line.operands, hab]
  rw [hx]
  simp only [increment_ops, List.mem_cons, List.mem_singleton, List.not_mem_nil, or_false] at ho
  rcases ho with rfl | rfl | rfl | rfl <;>
  · simp only [text_instruction, List.drop_left]
    rw [List.dropWhile_cons_of_pos (by decide), List.dropWhile_cons_of_neg (by simp [ha]), hreg]
    simp only [List.drop_succ_cons, List.drop_zero]
    rw [List.dropWhile_cons_of_neg (by decide)]
    simp [program_set_bytecode, source_line.encoding]

theorem text_instruction_int (up : program) (o : ops_enum) (ho : o ∈ integer_ops)
    (l : int_literal) (h : l.fits) (tl : List Char) :
    text_instruction up o
        (ops_enum_strings o ++ (source_line.int o l).operands ++ '\n' :: tl) =
      if o = .LABEL then
        match label_index l.value with
        | none =>
          .inr (.label_out_of_bounds
            { up with bytecode := up.bytecode ++ (source_line.int o l).encoding } l.value)
        | some i =>
          .inl ({ up with
              bytecode := up.bytecode ++ (source_line.int o l).encoding
              labels := Function.update up.labels i ((up.bytecode.length : Int) + 1) },
            '\n' :: tl)
      else
        .inl ({ up with bytecode := up.bytecode ++ (source_line.int o l).encoding },
          '\n' :: tl) := by
  have hnl : ∀ c ∈ l.text, (c != '\n') = true := fun c hc => (text_chars l h.1 c hc).1
  have hx : ops_enum_strings o ++ (source_line.int o l).operands ++ '\n' :: tl =
      ops_enum_strings o ++ (' ' :: (l.text ++ '\n' :: tl)) := by
    simp [source_line.operands]
  rw [hx]
  simp only [integer_ops, List.mem_cons, List.mem_singleton, List.not_mem_nil, or_false] at ho
  rcases ho with rfl | rfl | rfl | rfl | rfl | rfl <;>
  · simp only [text_instruction, List.drop_left, dropWhile_blank_text l h.1,
      takeWhile_line _ _ hnl, dropWhile_line _ _ hnl, text_int_literal l h, reduceCtorEq,
      if_false, if_true]
    try split
    all_goals simp [program_set_bytecode, source_line.encoding]
    all_goals try ring_nf

theorem text_instruction_bare (up : program) (o : ops_enum) (ho : o ∈ bare_ops)
    (tl : List Char) :
    text_instruction up o
        (ops_enum_strings o ++ (source_line.bare o).operands ++ '\n' :: tl) =
      .inl ({ up with bytecode := up.bytecode ++ (source_line.bare o).encoding },
        '\n' :: tl) := by
  simp only [bare_ops, List.mem_cons, List.mem_singleton, List.not_mem_nil, or_false] at ho
  rcases ho with rfl | rfl | rfl | rfl | rfl <;>
    simp [text_instruction, source_line.operands, program_set_bytecode, source_line.encoding]

theorem source_line_text_append (l : source_line) (tl : List Char) :
    l.text ++ tl = ops_enum_strings l.op ++ l.operands ++ '\n' :: tl := by
  simp [source_line.text]

theorem label_index_eq_none {v : Int} (h : ¬ (0 ≤ v ∧ v < 10)) : label_index v = none := by
  unfold label_index
  rw [dif_neg h]

theorem label_index_isSome {v : Int} (h : 0 ≤ v ∧ v < 10) : ∃ i, label_index v = some i := by
  unfold label_index
  rw [dif_pos h]
  exact ⟨_, rfl⟩

/-- The loop body on a well-formed line: all words of its encoding are emitted; the body
continues at the line's newline unless the line is a `LABEL` with an id outside the table. -/
theorem line_step (up : program) (l : source_line) (hwf : l.well_formed) (tl : List Char) :
    (l.in_table → ∃ up1, text_instruction up l.op (l.text ++ tl) = .inl (up1, '\n' :: tl) ∧
        up1.bytecode = up.bytecode ++ l.encoding) ∧
      (¬ l.in_table → ∃ up1 v, text_instruction up l.op (l.text ++ tl) =
          .inr (.label_out_of_bounds up1 v) ∧ up1.bytecode = up.bytecode ++ l.encoding) := by
  rw [source_line_text_append]
  cases l with
  | store r lit =>
    refine ⟨fun _ => ⟨_, text_instruction_store up r lit hwf tl, rfl⟩, fun h => ?_⟩
    exact absurd trivial h
  | move r1 r2 =>
    refine ⟨fun _ => ⟨_, text_instruction_move up r1 r2 tl, rfl⟩, fun h => ?_⟩
    exact absurd trivial h
  | reg o r =>
    refine ⟨fun _ => ⟨_, text_instruction_reg up o hwf r tl, rfl⟩, fun h => ?_⟩
    exact absurd trivial h
  | bare o =>
    refine ⟨fun _ => ⟨_, text_instruction_bare up o hwf tl, rfl⟩, fun h => ?_⟩
    exact absurd trivial h
  | int o lit =>
    have hstep := text_instruction_int up o hwf.1 lit hwf.2 tl
    simp only [source_line.op] at hstep ⊢
    by_cases hL : o = .LABEL
    · rw [if_pos hL] at hstep
      constructor
      · intro htab
        obtain ⟨i, hi⟩ := label_index_isSome (htab hL)
        rw [hi] at hstep
        exact ⟨_, hstep, rfl⟩
      · intro htab
        have hout : ¬ (0 ≤ lit.value ∧ lit.value < 10) := fun hc => htab fun _ => hc
        rw [label_index_eq_none hout] at hstep
        exact ⟨_, _, hstep, rfl⟩
    · rw [if_neg hL] at hstep
      refine ⟨fun _ => ⟨_, hstep, rfl⟩, fun h => ?_⟩
      exact absurd (fun hc => absurd hc hL) h

theorem operands_head_blank (l : source_line) (tl : List Char) :
    ∀ c ∈ (l.operands ++ '\n' :: tl).head?, isBlank c = true := by
  intro c hc
  cases l <;> simp [source_line.operands] at hc <;> subst hc <;> decide

theorem mnemonic_head (o : ops_enum) :
    ∃ c cs, ops_enum_strings o = c :: cs ∧ isBlank c = false := by
  cases o <;> exact ⟨_, _, rfl, by decide⟩

theorem dropWhile_blank_source (lines : List source_line) :
    (source_text lines).dropWhile isBlank = source_text lines := by
  cases lines with
  | nil => rfl
  | cons l ls =>
    obtain ⟨c, cs, hc, hb⟩ := mnemonic_head l.op
    have : source_text (l :: ls) = c :: (cs ++ l.operands ++ ['\n'] ++ source_text ls) := by
      simp [source_text, source_line.text, hc]
    rw [this, List.dropWhile_cons_of_neg (by simp [hb])]

theorem source_text_cons (l : source_line) (ls : List source_line) :
    source_text (l :: ls) = l.text ++ source_text ls := by
  simp [source_text]

theorem source_encoding_cons (l : source_line) (ls : List source_line) :
    source_encoding (l :: ls) = l.encoding ++ source_encoding ls := by
  simp [source_encoding]

theorem text_loop_line (fuel : Nat) (up : program) (x : List Char) (l : source_line)
    (tl : List Char) (hx : x.dropWhile isBlank = l.text ++ tl) :
    text_loop (fuel + 1) up x =
      match text_instruction up l.op (l.text ++ tl) with
      | .inl (up, x) => text_loop fuel up x
      | .inr r => r := by
  rw [source_line_text_append, List.append_assoc] at hx
  rw [text_loop_at_mnemonic fuel up x _ l.op hx (operands_head_blank l tl),
    source_line_text_append, List.append_assoc]

/-- The assembler loop on a text that is, after blanks, a sequence of well-formed lines with
all `LABEL` ids inside the table: it returns, having appended the encodings in order. -/
theorem text_loop_lines :
    ∀ (lines : List source_line) (fuel : Nat) (up : program) (x : List Char),
      (∀ l ∈ lines, l.well_formed) → (∀ l ∈ lines, l.in_table) → lines.length < fuel →
      x.dropWhile isBlank = source_text lines →
      ∃ P, text_loop fuel up x = .returned P ∧
        P.bytecode = up.bytecode ++ source_encoding lines := by
  intro lines
  induction lines with
  | nil =>
    intro fuel up x _ _ hf hx
    obtain ⟨f, rfl⟩ : ∃ f, fuel = f + 1 := ⟨fuel - 1, by simp at hf; omega⟩
    refine ⟨up, ?_, by simp [source_encoding]⟩
    rw [text_loop]
    simp only [hx]
    rfl
  | cons l ls ih =>
    intro fuel up x hwf htab hf hx
    obtain ⟨f, rfl⟩ : ∃ f, fuel = f + 1 := ⟨fuel - 1, by simp at hf; omega⟩
    rw [source_text_cons] at hx
    obtain ⟨up1, hstep, hbc⟩ :=
      (line_step up l (hwf l (List.mem_cons_self _ _)) (source_text ls)).1
        (htab l (List.mem_cons_self _ _))
    rw [text_loop_line f up x l _ hx, hstep]
    simp only
    obtain ⟨P, hP, hPb⟩ := ih f up1 ('\n' :: source_text ls)
      (fun m hm => hwf m (List.mem_cons_of_mem _ hm))
      (fun m hm => htab m (List.mem_cons_of_mem _ hm))
      (by simp at hf; omega)
      (by rw [List.dropWhile_cons_of_pos (by decide)]; exact dropWhile_blank_source ls)
    exact ⟨P, hP, by rw [hPb, hbc, source_encoding_cons, List.append_assoc]⟩

/-- The assembler loop on well-formed lines the first of which with a `LABEL` id outside the
table is `l`: it ends at the out-of-table store of `l`, having appended the encodings of the
lines up to and including `l`. -/
theorem text_loop_lines_oob :
    ∀ (pre : List source_line) (fuel : Nat) (up : program) (x : List Char) (l : source_line)
      (post : List source_line),
      (∀ m ∈ pre, m.well_formed) → (∀ m ∈ pre, m.in_table) → l.well_formed → ¬ l.in_table →
      pre.length < fuel → x.dropWhile isBlank = source_text (pre ++ l :: post) →
      ∃ P v, text_loop fuel up x = .label_out_of_bounds P v ∧
        P.bytecode = up.bytecode ++ source_encoding (pre ++ [l]) := by
  intro pre
  induction pre with
  | nil =>
    intro fuel up x l post _ _ hl hout hf hx
    obtain ⟨f, rfl⟩ : ∃ f, fuel = f + 1 := ⟨fuel - 1, by simp at hf; omega⟩
    rw [List.nil_append, source_text_cons] at hx
    obtain ⟨up1, v, hstep, hbc⟩ := (line_step up l hl (source_text post)).2 hout
    rw [text_loop_line f up x l _ hx, hstep]
    exact ⟨up1, v, rfl, by rw [hbc]; simp [source_encoding]⟩
  | cons m ms ih =>
    intro fuel up x l post hwf htab hl hout hf hx
    obtain ⟨f, rfl⟩ : ∃ f, fuel = f + 1 := ⟨fuel - 1, by simp at hf; omega⟩
    rw [List.cons_append, source_text_cons] at hx
    obtain ⟨up1, hstep, hbc⟩ :=
      (line_step up m (hwf m (List.mem_cons_self _ _)) (source_text (ms ++ l :: post))).1
        (htab m (List.mem_cons_self _ _))
    rw [text_loop_line f up x m _ hx, hstep]
    simp only
    obtain ⟨P, v, hP, hPb⟩ := ih f up1 ('\n' :: source_text (ms ++ l :: post)) l post
      (fun k hk => hwf k (List.mem_cons_of_mem _ hk))
      (fun k hk => htab k (List.mem_cons_of_mem _ hk)) hl hout
      (by simp at hf; omega)
      (by rw [List.dropWhile_cons_of_pos (by decide)]; exact dropWhile_blank_source _)
    exact ⟨P, v, hP, by
      rw [hPb, hbc, List.cons_append, source_encoding_cons, List.append_assoc]⟩

theorem source_line_text_pos (l : source_line) : 0 < l.text.length := by
  simp [source_line.text]

theorem source_text_length (lines : List source_line) :
    lines.length ≤ (source_text lines).length := by
  induction lines with
  | nil => simp
  | cons l ls ih =>
    rw [source_text_cons, List.length_append, List.length_cons]
    have := source_line_text_pos l
    omega

/-- For every source made only of well-formed instruction lines, each terminated by a
newline, with register operands among the 11 names, integer operands written as literals of
fewer than 64 characters that fit a C `int`, and every `LABEL` id inside the 10-entry label
table, `parse_code` returns and the bytecode is exactly the concatenation, in source order,
of the lines' encodings `[STORE, r, v]`, `[MOVE, r1, r2]`, `[OP, r]`, `[OP, v]`, `[OP]`; a
mnemonic is recognised exactly when the token has its length and characters. -/
theorem well_formed_source_assembles (up : program) (lines : List source_line)
    (hwf : ∀ l ∈ lines, l.well_formed) (htab : ∀ l ∈ lines, l.in_table)
    (hsrc : up.asmcode = source_text lines) :
    (parse_code up).bytecode? = some (source_encoding lines) ∧
      ∀ (s : List Char) (t : Nat), t ≤ s.length →
        next_opcode s t s.length =
          ops_enum.all.find? fun o =>
            ops_enum_strings o == (s.drop t).takeWhile fun c => !isBlank c := by
  constructor
  · rw [parse_code_text]
    generalize hq : ({ up with bytecode := [] } : program) = q
    have hqb : q.bytecode = [] := by rw [← hq]
    rw [hsrc]
    obtain ⟨P, hP, hPb⟩ := text_loop_lines lines ((source_text lines).length + 1) q
      (source_text lines) hwf htab
      (by have := source_text_length lines; omega) (dropWhile_blank_source lines)
    rw [hP]
    simp [parse_result.bytecode?, hPb, hqb]
  · intro s t ht
    exact next_opcode_drop s t ht

/-- A seven-line program using every kind of line is assembled line by line. -/
theorem well_formed_source_assembles_witness :
    source_text sample_lines =
        "LABEL 3\nSTORE I0, -0x1f\nMOVE I1, C0\nCMP\nINCEQ R0\nJMPEQ 03\nRET\n".toList ∧
      (∀ l ∈ sample_lines, l.well_formed) ∧ (∀ l ∈ sample_lines, l.in_table) ∧
      (parse_code (program_of_source (source_text sample_lines) 1000)).bytecode? =
        some [9, 3, 7, 7, -31, 8, 8, 3, 15, 2, 0, 11, 3, 16] :=
  ⟨by decide, by decide, by decide,
    (well_formed_source_assembles (program_of_source (source_text sample_lines) 1000)
      sample_lines (by decide) (by decide) rfl).1⟩

/-- Claim C15 at the failing input `LABEL -2` / `RET`: both lines are well formed and -2
fits a C `int`, so the bytecode claimed is `[9, -2, 16]`.  `parse_code` writes `[9, -2]`,
then makes the store `labels[-2] = 1` without a test, outside the 10-entry table, with the
line `RET` still to assemble; it does not return the bytecode claimed. -/
theorem negative_label_not_encoded :
    source_text negative_label_lines = "LABEL -2\nRET\n".toList ∧
      (∀ l ∈ negative_label_lines, l.well_formed) ∧
      source_encoding negative_label_lines = [9, -2, 16] ∧
      (parse_code (program_of_source (source_text negative_label_lines) 1000)).oob_label? =
        some (-2) ∧
      (parse_code (program_of_source (source_text negative_label_lines) 1000)).program.bytecode
        = [9, -2] ∧
      next_opcode (source_text negative_label_lines) 9
        (source_text negative_label_lines).length = some .RET ∧
      (parse_code (program_of_source (source_text negative_label_lines) 1000)).bytecode? ≠
        some (source_encoding negative_label_lines) := by
  refine ⟨by decide, by decide, by decide, by decide, by decide, by decide, by decide⟩

/-! ## The layout of assembled bytecode, and runs over it -/

theorem get_register_lt (s : List Char) (t e r : Nat) (h : get_register s t e = some r) :
    r < 11 :=
  (get_register_fits s t e r h).2

/-- The words one loop body of `parse_code` emits: the opcode and as many operands as the
instruction has, register operands being indices in `0 .. 10`. -/
theorem parse_instruction_words (s : List Char) (e : Nat) (up up1 : program) (t p1 : Nat)
    (o : ops_enum) (h : parse_instruction s e up t o = .inl (up1, p1)) :
    ∃ ws, up1.bytecode = up.bytecode ++ (o.code : Int) :: ws ∧ ws.length + 1 = o.arity ∧
      (o ∈ register_ops → ∃ r : Fin 11, ws[0]? = some ((r : Nat) : Int)) ∧
      (o = .MOVE → ∃ r : Fin 11, ws[1]? = some ((r : Nat) : Int)) := by
  cases o
  case STORE =>
    simp only [parse_instruction] at h
    split at h; · cases h
    split at h; · cases h
    rename_i r hg
    repeat' split at h
    all_goals try (simp only [reduceCtorEq] at h)
    rename_i v hv
    simp only [Sum.inl.injEq, Prod.mk.injEq] at h
    obtain ⟨rfl, rfl⟩ := h
    refine ⟨[(r : Int), v], by simp [program_set_bytecode], rfl, fun _ => ?_, fun hc => ?_⟩
    · exact ⟨⟨r, get_register_lt _ _ _ _ hg⟩, rfl⟩
    · cases hc
  case MOVE =>
    simp only [parse_instruction] at h
    split at h; · cases h
    split at h; · cases h
    rename_i r hg
    split at h; · cases h
    split at h; · cases h
    split at h; · cases h
    split at h; · cases h
    split at h; · cases h
    rename_i r2 hg2
    simp only [Sum.inl.injEq, Prod.mk.injEq] at h
    obtain ⟨rfl, rfl⟩ := h
    refine ⟨[(r : Int), (r2 : Int)], by simp [program_set_bytecode], rfl, fun _ => ?_,
      fun _ => ?_⟩
    · exact ⟨⟨r, get_register_lt _ _ _ _ hg⟩, rfl⟩
    · exact ⟨⟨r2, get_register_lt _ _ _ _ hg2⟩, rfl⟩
  case INC | INCEQ | DEC | DECEQ =>
    simp only [parse_instruction] at h
    split at h; · cases h
    split at h; · cases h
    rename_i r hg
    split at h; · cases h
    simp only [Sum.inl.injEq, Prod.mk.injEq] at h
    obtain ⟨rfl, rfl⟩ := h
    refine ⟨[(r : Int)], by simp [program_set_bytecode], rfl, fun _ => ?_, fun hc => ?_⟩
    · exact ⟨⟨r, get_register_lt _ _ _ _ hg⟩, rfl⟩
    · cases hc
  case LABEL =>
    simp only [parse_instruction, reduceCtorEq, if_false, if_true] at h
    split at h; · cases h
    split at h; · cases h
    split at h; · cases h
    rename_i v hv
    split at h; · cases h
    simp only [Sum.inl.injEq, Prod.mk.injEq] at h
    obtain ⟨rfl, rfl⟩ := h
    refine ⟨[v], by simp [program_set_bytecode], rfl, fun hc => ?_, fun hc => ?_⟩
    · simp [register_ops] at hc
    · cases hc
  case JMP | JMPLT | JMPGT | JMPNE | JMPEQ =>
    simp only [parse_instruction, reduceCtorEq, if_false, if_true] at h
    split at h; · cases h
    split at h; · cases h
    split at h; · cases h
    rename_i v hv
    simp only [Sum.inl.injEq, Prod.mk.injEq] at h
    obtain ⟨rfl, rfl⟩ := h
    refine ⟨[v], by simp [program_set_bytecode], rfl, fun hc => ?_, fun hc => ?_⟩
    · simp [register_ops] at hc
    · cases hc
  case CMP | ADD | SUB | MUL | RET =>
    simp only [parse_instruction, Sum.inl.injEq, Prod.mk.injEq] at h
    obtain ⟨rfl, rfl⟩ := h
    refine ⟨[], by simp [program_set_bytecode], rfl, fun hc => ?_, fun hc => ?_⟩
    · simp [register_ops] at hc
    · cases hc

theorem opcode_chain_le : ∀ (T : List (Nat × ops_enum)) (a b : Nat), opcode_chain T a b → a ≤ b
  | [], a, b, h => by
    simp only [opcode_chain] at h
    omega
  | x :: xs, a, b, h => by
    simp only [opcode_chain] at h
    have := opcode_chain_le xs _ _ h.2
    omega

theorem opcode_chain_start (T : List (Nat × ops_enum)) (a b : Nat) (h : opcode_chain T a b) :
    a = b ∨ ∃ o, (a, o) ∈ T := by
  cases T with
  | nil => exact Or.inl h
  | cons x xs =>
    simp only [opcode_chain] at h
    exact Or.inr ⟨x.2, by rw [← h.1]; exact List.mem_cons_self _ _⟩

/-- In a chain every instruction ends inside the bytecode, at the end of it or at the next
opcode word. -/
theorem opcode_chain_next : ∀ (T : List (Nat × ops_enum)) (a b : Nat), opcode_chain T a b →
    ∀ x ∈ T, x.1 + x.2.arity ≤ b ∧ (x.1 + x.2.arity = b ∨ ∃ o, (x.1 + x.2.arity, o) ∈ T)
  | [], _, _, _, x, hx => by cases hx
  | y :: ys, a, b, h, x, hx => by
    simp only [opcode_chain] at h
    obtain ⟨hy, hrest⟩ := h
    rcases List.mem_cons.mp hx with rfl | hx
    · rw [hy]
      refine ⟨opcode_chain_le ys _ _ hrest, ?_⟩
      rcases opcode_chain_start ys _ _ hrest with h | ⟨o, ho⟩
      · exact Or.inl h
      · exact Or.inr ⟨o, List.mem_cons_of_mem _ ho⟩
    · obtain ⟨h1, h2⟩ := opcode_chain_next ys _ _ hrest x hx
      exact ⟨h1, h2.imp id fun ⟨o, ho⟩ => ⟨o, List.mem_cons_of_mem _ ho⟩⟩

theorem getElem?_append_some {α : Type} (l X : List α) (i : Nat) (a : α)
    (h : l[i]? = some a) : (l ++ X)[i]? = some a := by
  have hi : i < l.length := by
    by_contra hc
    rw [List.getElem?_eq_none (by omega)] at h
    cases h
  rw [List.getElem?_append_left hi, h]

/-- The layout of the bytecode when `parse_code` returns: the opcode words emitted form a
chain from the first word to the end of the bytecode, register operands hold register
indices, and the entry of the label table for a declared label is the operand index of a
LABEL instruction. -/
theorem parse_loop_layout (s : List Char) (e : Nat) :
    ∀ (fuel : Nat) (up P : program) (p : Nat), parse_loop s e fuel up p = .returned P →
      opcode_chain (emitted_opcodes s e fuel up p) up.bytecode.length P.bytecode.length ∧
      (∀ x ∈ emitted_opcodes s e fuel up p,
        (x.2 ∈ register_ops → ∃ r : Fin 11, P.bytecode[x.1 + 1]? = some ((r : Nat) : Int)) ∧
        (x.2 = .MOVE → ∃ r : Fin 11, P.bytecode[x.1 + 2]? = some ((r : Nat) : Int))) ∧
      (∀ n : Fin 10,
        (∃ i, (i, ops_enum.LABEL) ∈ emitted_opcodes s e fuel up p ∧
          P.bytecode[i + 1]? = some ((n : Nat) : Int)) →
        ∃ i, (i, ops_enum.LABEL) ∈ emitted_opcodes s e fuel up p ∧
          P.labels n = (i : Int) + 1) := by
  intro fuel
  induction fuel with
  | zero =>
    intro up P p h
    simp [parse_loop] at h
  | succ f ih =>
    intro up P p h
    rcases parse_loop_succ_returned s e f up P p h with
      ⟨hT, rfl⟩ | ⟨t, o, up1, p1, hpi, hrest, hT⟩
    · rw [hT]
      exact ⟨rfl, by simp, by simp⟩
    · obtain ⟨ws, hbc, hlen, hreg, hmove⟩ := parse_instruction_words s e up up1 t p1 o hpi
      obtain ⟨ws1, hbc1, hlab, _⟩ := parse_instruction_spec s e up up1 t p1 o hpi
      obtain ⟨ihA, ihR, ihL⟩ := ih up1 P p1 hrest
      obtain ⟨⟨X, hX⟩, trB, _, trD, _⟩ := parse_loop_trace s e f up1 P p1 hrest
      have hPb : P.bytecode = up.bytecode ++ ((o.code : Int) :: (ws ++ X)) := by
        rw [hX, hbc]; simp
      have hlen1 : up1.bytecode.length = up.bytecode.length + o.arity := by
        rw [hbc, ← hlen]; simp
      have hopd : ∀ (k : Nat) (a : Int), ws[k]? = some a →
          P.bytecode[up.bytecode.length + (k + 1)]? = some a := by
        intro k a hk
        rw [hPb, List.getElem?_append_right (by omega)]
        have : up.bytecode.length + (k + 1) - up.bytecode.length = k + 1 := by omega
        rw [this, List.getElem?_cons_succ]
        exact getElem?_append_some ws X k a hk
      rw [hT]
      refine ⟨⟨rfl, by rw [← hlen1]; exact ihA⟩, ?_, ?_⟩
      · intro x hx
        rcases List.mem_cons.mp hx with rfl | hx
        · refine ⟨fun ho => ?_, fun ho => ?_⟩
          · obtain ⟨r, hr⟩ := hreg ho
            exact ⟨r, hopd 0 _ hr⟩
          · obtain ⟨r, hr⟩ := hmove ho
            exact ⟨r, hopd 1 _ hr⟩
        · exact ihR x hx
      · intro n hn
        by_cases hlater : ∃ i, (i, ops_enum.LABEL) ∈ emitted_opcodes s e f up1 p1 ∧
            P.bytecode[i + 1]? = some ((n : Nat) : Int)
        · obtain ⟨i, hi, hl⟩ := ihL n hlater
          exact ⟨i, List.mem_cons_of_mem _ hi, hl⟩
        · obtain ⟨i, hi, hin⟩ := hn
          rcases List.mem_cons.mp hi with heq | hi1
          · obtain ⟨hi0, ho⟩ := Prod.mk.inj heq
            subst ho
            subst hi0
            obtain ⟨n0, rfl, hl⟩ := hlab rfl
            have hws : ws = [((n0 : Nat) : Int)] := by
              have := hbc.symm.trans hbc1
              simpa using this
            have hn0 : n0 = n := by
              have h1 := hopd 0 _ (by rw [hws]; rfl)
              rw [hin] at h1
              simp only [Option.some.injEq, List.getElem_cons_zero] at h1
              exact Fin.ext (by exact_mod_cast h1.symm)
            refine ⟨up.bytecode.length, List.mem_cons_self _ _, ?_⟩
            rw [trD n fun j hj hjn => hlater ⟨j, hj, hjn⟩, hl, hn0, Function.update_same]
          · exact absurd ⟨i, hi1, hin⟩ hlater

theorem fetch_coe (code : List Int) (i : Nat) : fetch code (i : Int) = code[i]? := by
  simp [fetch]

theorem fetch_coe_add (code : List Int) (i k : Nat) :
    fetch code ((i : Int) + (k : Int)) = code[i + k]? := by
  rw [← fetch_coe code (i + k)]
  congr 1

theorem getElem?_of_lt (code : List Int) (i : Nat) (h : i < code.length) :
    ∃ w, code[i]? = some w :=
  ⟨code[i], List.getElem?_eq_getElem h⟩

/-- A loop round at the opcode word of an instruction other than a jump: the body runs and
the next round starts after the operands of the instruction, or past the end after RET. -/
theorem step_straight (code : List Int) (labels : Fin 10 → Int) (tick i : Nat) (o : ops_enum)
    (m : machine) (hw : instruction_words code (i, o)) (hlen : i + o.arity ≤ code.length)
    (hj : o ∉ jump_ops) :
    ∃ m1, step code labels tick i m =
      .running (if o = .RET then (code.length : Int) + 1 else ((i + o.arity : Nat) : Int)) m1 := by
  obtain ⟨hop, hreg, hmove, _⟩ := hw
  simp only at hop hreg hmove
  have hf : fetch code (i : Int) = some (o.code : Int) := by rw [fetch_coe]; exact hop
  have hne : ((o.code : Nat) : Int) ≠ -1 := by omega
  rw [step_of_fetch hf hne]
  have h1 : fetch code ((i : Int) + 1) = code[i + 1]? := fetch_coe_add code i 1
  have h2 : fetch code ((i : Int) + 2) = code[i + 2]? := fetch_coe_add code i 2
  cases o
  case STORE =>
    obtain ⟨r, hr⟩ := hreg (by decide)
    obtain ⟨w, hw⟩ := getElem?_of_lt code (i + 2) (by simp only [ops_enum.arity] at hlen; omega)
    have hd : ops_enum.ofInt? ((ops_enum.STORE.code : Nat) : Int) = some .STORE := by decide
    simp [exec, hd, h1, h2, hr, hw, register_index_coe, ops_enum.arity, add_assoc]
  case MOVE =>
    obtain ⟨r, hr⟩ := hreg (by decide)
    obtain ⟨r2, hr2⟩ := hmove rfl
    have hd : ops_enum.ofInt? ((ops_enum.MOVE.code : Nat) : Int) = some .MOVE := by decide
    simp [exec, hd, h1, h2, hr, hr2, register_index_coe, ops_enum.arity, add_assoc]
  case INC =>
    obtain ⟨r, hr⟩ := hreg (by decide)
    have hd : ops_enum.ofInt? ((ops_enum.INC.code : Nat) : Int) = some .INC := by decide
    simp [exec, hd, h1, hr, register_index_coe, ops_enum.arity, add_assoc]
  case DEC =>
    obtain ⟨r, hr⟩ := hreg (by decide)
    have hd : ops_enum.ofInt? ((ops_enum.DEC.code : Nat) : Int) = some .DEC := by decide
    simp [exec, hd, h1, hr, register_index_coe, ops_enum.arity, add_assoc]
  case INCEQ =>
    obtain ⟨r, hr⟩ := hreg (by decide)
    have hd : ops_enum.ofInt? ((ops_enum.INCEQ.code : Nat) : Int) = some .INCEQ := by decide
    by_cases hz : (m.set T0 (wrap32 tick)).flags.EQ = 0 <;>
      simp [exec, hd, h1, hr, hz, register_index_coe, ops_enum.arity, add_assoc]
  case DECEQ =>
    obtain ⟨r, hr⟩ := hreg (by decide)
    have hd : ops_enum.ofInt? ((ops_enum.DECEQ.code : Nat) : Int) = some .DECEQ := by decide
    by_cases hz : (m.set T0 (wrap32 tick)).flags.EQ = 0 <;>
      simp [exec, hd, h1, hr, hz, register_index_coe, ops_enum.arity, add_assoc]
  case ADD =>
    have hd : ops_enum.ofInt? ((ops_enum.ADD.code : Nat) : Int) = some .ADD := by decide
    simp [exec, hd, ops_enum.arity]
  case SUB =>
    have hd : ops_enum.ofInt? ((ops_enum.SUB.code : Nat) : Int) = some .SUB := by decide
    simp [exec, hd, ops_enum.arity]
  case MUL =>
    have hd : ops_enum.ofInt? ((ops_enum.MUL.code : Nat) : Int) = some .MUL := by decide
    simp [exec, hd, ops_enum.arity]
  case CMP =>
    have hd : ops_enum.ofInt? ((ops_enum.CMP.code : Nat) : Int) = some .CMP := by decide
    simp [exec, hd, ops_enum.arity]
  case LABEL =>
    have hd : ops_enum.ofInt? ((ops_enum.LABEL.code : Nat) : Int) = some .LABEL := by decide
    simp [exec, hd, ops_enum.arity, add_assoc]
  case RET =>
    have hd : ops_enum.ofInt? ((ops_enum.RET.code : Nat) : Int) = some .RET := by decide
    simp [exec, hd, ops_enum.arity]
  all_goals exact absurd (by decide) hj

theorem parse_code_layout (up P : program) (hparse : parse_code up = .returned P) :
    opcode_chain (parse_code_opcodes up) 0 P.bytecode.length ∧
      (∀ x ∈ parse_code_opcodes up, instruction_words P.bytecode x) ∧
      (∀ n : Fin 10,
        (∃ i, (i, ops_enum.LABEL) ∈ parse_code_opcodes up ∧
          P.bytecode[i + 1]? = some ((n : Nat) : Int)) →
        ∃ i, (i, ops_enum.LABEL) ∈ parse_code_opcodes up ∧ P.labels n = (i : Int) + 1) := by
  unfold parse_code at hparse
  unfold parse_code_opcodes
  obtain ⟨hA, hR, hL⟩ := parse_loop_layout _ _ _ _ _ _ hparse
  obtain ⟨_, hB, hC, _, _⟩ := parse_loop_trace _ _ _ _ _ _ hparse
  refine ⟨hA, fun x hx => ⟨(hB x hx).2, (hR x hx).1, (hR x hx).2, fun ho => ?_⟩, hL⟩
  obtain ⟨i, o⟩ := x
  simp only at ho
  subst ho
  exact (hC i hx).1

theorem jump_arity (o : ops_enum) (h : o ∈ jump_ops) : o.arity = 2 := by
  simp only [jump_ops, List.mem_cons, List.mem_singleton, List.not_mem_nil, or_false] at h
  rcases h with rfl | rfl | rfl | rfl | rfl <;> rfl

/-- A loop round from the end of the bytecode or from an opcode word, over bytecode laid out
as a chain of instructions whose jumps name declared labels: the loop is left, or the body
runs without leaving an array and the next round starts at the end or at an opcode word. -/
theorem step_safe (code : List Int) (labels : Fin 10 → Int) (T : List (Nat × ops_enum))
    (hchain : opcode_chain T 0 code.length) (hwords : ∀ x ∈ T, instruction_words code x)
    (hjump : ∀ x ∈ T, x.2 ∈ jump_ops → ∃ n : Fin 10, code[x.1 + 1]? = some ((n : Nat) : Int) ∧
      ∃ i, (i, ops_enum.LABEL) ∈ T ∧ labels n = (i : Int) + 1)
    (tick : Nat) (ip : Int) (m : machine)
    (hip : (code.length : Int) ≤ ip ∨ at_opcode T ip) :
    (∃ m1, step code labels tick ip m = .halted m1) ∨
      ∃ ip1 m1, step code labels tick ip m = .running ip1 m1 ∧
        ((code.length : Int) ≤ ip1 ∨ at_opcode T ip1) := by
  rcases hip with hge | ⟨i, o, hx, rfl⟩
  · exact Or.inl ⟨m, (step_halted_iff code labels tick ip m m).mpr ⟨Or.inl hge, rfl⟩⟩
  · right
    have hnext : ∀ y ∈ T, (code.length : Int) ≤ ((y.1 + y.2.arity : Nat) : Int) ∨
        at_opcode T ((y.1 + y.2.arity : Nat) : Int) := by
      intro y hy
      rcases (opcode_chain_next T _ _ hchain y hy).2 with h | ⟨o1, ho1⟩
      · exact Or.inl (by omega)
      · exact Or.inr ⟨_, o1, ho1, rfl⟩
    by_cases hj : o ∈ jump_ops
    · obtain ⟨n, hn, i1, hi1, hl⟩ := hjump (i, o) hx hj
      simp only at hn
      have hop : fetch code (i : Int) = some (o.code : Int) := by
        rw [fetch_coe]; exact (hwords (i, o) hx).1
      have hn1 : fetch code ((i : Int) + 1) = some ((n : Nat) : Int) :=
        (fetch_coe_add code i 1).trans hn
      rw [step_jump code labels tick i m o n hj hop hn1]
      refine ⟨_, _, rfl, ?_⟩
      split
      · have h := hnext (i1, .LABEL) hi1
        simp only [ops_enum.arity] at h
        rw [hl, add_assoc]
        exact_mod_cast h
      · have h := hnext (i, o) hx
        simp only [jump_arity o hj] at h
        exact_mod_cast h
    · have h1 := (opcode_chain_next T _ _ hchain (i, o) hx).1
      obtain ⟨m1, hm1⟩ := step_straight code labels tick i o m (hwords (i, o) hx) h1 hj
      refine ⟨_, m1, hm1, ?_⟩
      split
      · exact Or.inl (by omega)
      · exact hnext (i, o) hx

theorem steps_safe (code : List Int) (labels : Fin 10 → Int) (T : List (Nat × ops_enum))
    (hchain : opcode_chain T 0 code.length) (hwords : ∀ x ∈ T, instruction_words code x)
    (hjump : ∀ x ∈ T, x.2 ∈ jump_ops → ∃ n : Fin 10, code[x.1 + 1]? = some ((n : Nat) : Int) ∧
      ∃ i, (i, ops_enum.LABEL) ∈ T ∧ labels n = (i : Int) + 1)
    (ticks : Nat → Nat) :
    ∀ (n k : Nat) (ip : Int) (m : machine), ((code.length : Int) ≤ ip ∨ at_opcode T ip) →
      steps code labels ticks n k ip m ≠ .fault ∧
      ∀ ip1 m1, steps code labels ticks n k ip m = .running ip1 m1 →
        ((code.length : Int) ≤ ip1 ∨ at_opcode T ip1) := by
  intro n
  induction n with
  | zero =>
    intro k ip m hip
    simp only [steps, ne_eq, reduceCtorEq, not_false_eq_true, step_result.running.injEq,
      true_and]
    rintro ip1 m1 ⟨rfl, _⟩
    exact hip
  | succ n ih =>
    intro k ip m hip
    rcases step_safe code labels T hchain hwords hjump (ticks k) ip m hip with
      ⟨m1, h⟩ | ⟨ip1, m1, h, hok⟩
    · simp [steps, h]
    · simp only [steps, h]
      exact ih (k + 1) ip1 m1 hok

theorem run_loop_safe (code : List Int) (labels : Fin 10 → Int) (T : List (Nat × ops_enum))
    (hchain : opcode_chain T 0 code.length) (hwords : ∀ x ∈ T, instruction_words code x)
    (hjump : ∀ x ∈ T, x.2 ∈ jump_ops → ∃ n : Fin 10, code[x.1 + 1]? = some ((n : Nat) : Int) ∧
      ∃ i, (i, ops_enum.LABEL) ∈ T ∧ labels n = (i : Int) + 1)
    (ticks : Nat → Nat) :
    ∀ (fuel k : Nat) (ip : Int) (m : machine), ((code.length : Int) ≤ ip ∨ at_opcode T ip) →
      run_loop code labels ticks fuel k ip m ≠ .fault := by
  intro fuel
  induction fuel with
  | zero =>
    intro k ip m _
    simp [run_loop]
  | succ f ih =>
    intro k ip m hip
    rcases step_safe code labels T hchain hwords hjump (ticks k) ip m hip with
      ⟨m1, h⟩ | ⟨ip1, m1, h, hok⟩
    · simp [run_loop, h]
    · simp only [run_loop, h]
      exact ih (k + 1) ip1 m1 hok

theorem start_ok (code : List Int) (T : List (Nat × ops_enum))
    (hchain : opcode_chain T 0 code.length) :
    (code.length : Int) ≤ 0 ∨ at_opcode T 0 := by
  rcases opcode_chain_start T _ _ hchain with h | ⟨o, ho⟩
  · exact Or.inl (by omega)
  · exact Or.inr ⟨0, o, ho, rfl⟩

/-- Claim C19: when `parse_code` returns and every jump instruction emitted has an operand
`n` in `0 .. 9` that is also the operand of some LABEL instruction emitted (a LABEL operand
outside `0 .. 9` does not let `parse_code` return in this embedding), then in every run from
index 0, whatever the registers, flags and clock: no round of the loop of
`fightvm_run_program` reads or writes outside `bytecode`, `registers` or `labels`, and after
every number of rounds the instruction pointer is at or past `bytecode_len` or at the index
of an opcode word the assembler emitted.  Every emitted instruction lies inside the bytecode
with its operands, its register operands being indices in `0 .. 10`. -/
theorem no_out_of_bounds_access (up P : program) (hparse : parse_code up = .returned P)
    (hjump : ∀ j o, (j, o) ∈ parse_code_opcodes up → o ∈ jump_ops →
      ∃ n : Fin 10, P.bytecode[j + 1]? = some ((n : Nat) : Int) ∧
        ∃ i, (i, ops_enum.LABEL) ∈ parse_code_opcodes up ∧
          P.bytecode[i + 1]? = some ((n : Nat) : Int)) :
    (∀ (ticks : Nat → Nat) (m : machine) (n : Nat),
      steps P.bytecode P.labels ticks n 0 0 m ≠ .fault ∧
      ∀ ip m1, steps P.bytecode P.labels ticks n 0 0 m = .running ip m1 →
        ((P.bytecode.length : Int) ≤ ip ∨ at_opcode (parse_code_opcodes up) ip)) ∧
    (∀ x ∈ parse_code_opcodes up,
      x.1 + x.2.arity ≤ P.bytecode.length ∧ instruction_words P.bytecode x) ∧
    ∀ (fuel : Nat) (ticks : Nat → Nat) (g : globals) (idx : Fin 2),
      (g.user_program idx).bytecode = P.bytecode → (g.user_program idx).labels = P.labels →
      fightvm_run_program fuel ticks g idx ≠ .fault := by
  obtain ⟨hchain, hwords, hL⟩ := parse_code_layout up P hparse
  have hj : ∀ x ∈ parse_code_opcodes up, x.2 ∈ jump_ops →
      ∃ n : Fin 10, P.bytecode[x.1 + 1]? = some ((n : Nat) : Int) ∧
        ∃ i, (i, ops_enum.LABEL) ∈ parse_code_opcodes up ∧ P.labels n = (i : Int) + 1 := by
    rintro ⟨j, o⟩ hx ho
    obtain ⟨n, hn, hdecl⟩ := hjump j o hx ho
    exact ⟨n, hn, hL n hdecl⟩
  have h0 := start_ok P.bytecode _ hchain
  refine ⟨fun ticks m n => steps_safe _ _ _ hchain hwords hj ticks n 0 0 m h0,
    fun x hx => ⟨(opcode_chain_next _ _ _ hchain x hx).1, hwords x hx⟩, ?_⟩
  intro fuel ticks g idx hb hl
  have h := run_loop_safe _ _ _ hchain hwords hj ticks fuel 0 0
    { registers := initial_registers g idx, flags := g.flags } h0
  unfold fightvm_run_program run_program_loop
  simp only [hb, hl]
  intro hc
  split at hc
  · cases hc
  · rename_i hf
    exact h hf
  · cases hc

/-- Claim C19 at a concrete input: `LABEL 3` / `INC R1` / `JMP 3` is accepted, its one jump
names the declared label 3, and no number of rounds from index 0 leaves an array or puts the
instruction pointer on an operand word. -/
theorem no_out_of_bounds_access_witness :
    parse_code (program_of_source loop_source 1000) = .returned (assemble loop_source 1000) ∧
      parse_code_opcodes (program_of_source loop_source 1000) =
        [(0, ops_enum.LABEL), (2, ops_enum.INC), (4, ops_enum.JMP)] ∧
      (assemble loop_source 1000).bytecode = [9, 3, 0, 1, 10, 3] ∧
      ∀ (ticks : Nat → Nat) (m : machine) (n : Nat),
        steps (assemble loop_source 1000).bytecode (assemble loop_source 1000).labels
            ticks n 0 0 m ≠ .fault ∧
        ∀ ip m1, steps (assemble loop_source 1000).bytecode (assemble loop_source 1000).labels
            ticks n 0 0 m = .running ip m1 →
          (((assemble loop_source 1000).bytecode.length : Int) ≤ ip ∨
            at_opcode (parse_code_opcodes (program_of_source loop_source 1000)) ip) :=
  have ht : parse_code_opcodes (program_of_source loop_source 1000) =
      [(0, ops_enum.LABEL), (2, ops_enum.INC), (4, ops_enum.JMP)] := by decide
  have h := no_out_of_bounds_access (program_of_source loop_source 1000)
    (assemble loop_source 1000) rfl (by
      intro j o hx ho
      rw [ht] at hx ⊢
      simp only [List.mem_cons, Prod.mk.injEq, List.mem_singleton, List.not_mem_nil,
        or_false] at hx
      rcases hx with ⟨rfl, rfl⟩ | ⟨rfl, rfl⟩ | ⟨rfl, rfl⟩
      · exact absurd ho (by decide)
      · exact absurd ho (by decide)
      · exact ⟨3, rfl, 0, by simp, rfl⟩)
  ⟨rfl, ht, rfl, h.1⟩

theorem arity_le_mnemonic (o : ops_enum) : o.arity ≤ (ops_enum_strings o).length := by
  cases o <;> decide

/-- A loop body of `parse_code` that continues leaves the cursor at or after the end of the
mnemonic, inside the buffer. -/
theorem parse_instruction_lookups_advance (s : List Char) (up up1 : program) (t p1 : Nat)
    (o : ops_enum) (ht : t ≤ s.length) (ho : next_opcode s t s.length = some o)
    (h : parse_instruction_lookups s s.length up t o = .inl (up1, p1)) :
    t + (ops_enum_strings o).length ≤ p1 ∧ p1 ≤ s.length := by
  obtain ⟨h0, hpos⟩ := next_opcode_fits s t o ht ho
  have b1 := scan_from_bounds isBlank s _ h0
  cases o
  case STORE | MOVE =>
    simp only [parse_instruction_lookups] at h
    split at h
    · cases h
    · rename_i r hg
      have hr := (get_register_fits _ _ _ _ hg).1
      have b2 := scan_from_bounds isBlank s _ (le_of_lt hr)
      have b3 := scan_from_bounds (fun c => c == ',') s _ b2.2
      have b4 := scan_from_bounds isBlank s _ b3.2
      have b5 := scan_from_bounds (fun c => c != '\n') s _ b4.2
      split at h
      · cases h
      · simp only [Sum.inl.injEq, Prod.mk.injEq] at h
        omega
  case INC | INCEQ | DEC | DECEQ =>
    simp only [parse_instruction_lookups] at h
    split at h
    · cases h
    · rename_i r hg
      have hr := (get_register_fits _ _ _ _ hg).1
      have b2 := scan_from_bounds (fun c => c != '\n') s _ (le_of_lt hr)
      simp only [Sum.inl.injEq, Prod.mk.injEq] at h
      omega
  case LABEL | JMP | JMPLT | JMPGT | JMPNE | JMPEQ =>
    have b2 := scan_from_bounds (fun c => c != '\n') s _ b1.2
    simp only [parse_instruction_lookups, reduceCtorEq, if_false, if_true] at h
    repeat' split at h
    all_goals first
      | (simp only [Sum.inl.injEq, Prod.mk.injEq] at h; omega)
      | cases h
  case CMP | ADD | SUB | MUL | RET =>
    simp only [parse_instruction_lookups, Sum.inl.injEq, Prod.mk.injEq] at h
    omega

/-- A loop body of `parse_code` that leaves the function has written at most the words of
one instruction. -/
theorem parse_instruction_exit_words (s : List Char) (e : Nat) (up : program) (t : Nat)
    (o : ops_enum) (r : parse_result) (h : parse_instruction s e up t o = .inr r) :
    up.bytecode.length < r.program.bytecode.length ∧
      r.program.bytecode.length ≤ up.bytecode.length + o.arity := by
  cases o <;> simp only [parse_instruction, reduceCtorEq, if_false, if_true] at h <;>
    (repeat' split at h) <;>
    simp only [Sum.inr.injEq, reduceCtorEq] at h <;>
    subst h <;>
    simp [parse_result.program, program_set_bytecode, ops_enum.arity]

/-- A loop body of `parse_code` that continues has written the words of one instruction. -/
theorem parse_instruction_length (s : List Char) (e : Nat) (up up1 : program) (t p1 : Nat)
    (o : ops_enum) (h : parse_instruction s e up t o = .inl (up1, p1)) :
    up1.bytecode.length = up.bytecode.length + o.arity := by
  obtain ⟨ws, hbc, hlen, _, _⟩ := parse_instruction_words s e up up1 t p1 o h
  rw [hbc, ← hlen]
  simp

/-- The loop of `parse_code`, entered with no more words than characters before the cursor,
ends with no more words than characters in the buffer, however it ends. -/
theorem parse_loop_length (s : List Char) :
    ∀ (fuel : Nat) (up : program) (p : Nat), p ≤ s.length → up.bytecode.length ≤ p →
      (parse_loop s s.length fuel up p).program.bytecode.length ≤ s.length := by
  intro fuel
  induction fuel with
  | zero =>
    intro up p hp hb
    simp only [parse_loop, parse_result.program]
    omega
  | succ f ih =>
    intro up p hp hb
    have bt := scan_from_bounds isBlank s p hp
    rw [parse_loop, skip_space_total s p hp]
    simp only
    cases ho : next_opcode s (scan_from isBlank s p s.length) s.length with
    | none =>
      simp only [parse_result.program]
      omega
    | some o =>
      simp only
      have hfit := (next_opcode_fits s _ o bt.2 ho).1
      have har := arity_le_mnemonic o
      cases hi : parse_instruction s s.length up (scan_from isBlank s p s.length) o with
      | inl x =>
        obtain ⟨up1, p1⟩ := x
        simp only
        have hlen := parse_instruction_length s _ up up1 _ p1 o hi
        rw [parse_instruction_eq_lookups s up _ o bt.2 ho] at hi
        have hadv := parse_instruction_lookups_advance s up up1 _ p1 o bt.2 ho hi
        exact ih up1 p1 hadv.2 (by omega)
      | inr r =>
        simp only
        have := (parse_instruction_exit_words s _ up _ o r hi).2
        omega

/-- For every input buffer, the number of bytecode words written when `parse_code` ends
or reaches its first access outside `buf` or `labels` is at most `asmcode_len`.  A loop round
that continues moves the cursor forward inside the buffer by at least as many characters as
the words it writes; a round that ends the run has written at most as many words as its
mnemonic, which lies inside the buffer, has characters.  `program_set_bytecode` writes at
index `bytecode_len` and adds one to it. -/
theorem bytecode_len_le_asmcode_len :
    (∀ up : program, (parse_code up).program.bytecode.length ≤ up.asmcode.length) ∧
    (∀ (s : List Char) (up up1 : program) (p t p1 : Nat) (o : ops_enum), p ≤ s.length →
      up.bytecode.length ≤ p →
      skip_space s p s.length = some t → next_opcode s t s.length = some o →
      parse_instruction s s.length up t o = .inl (up1, p1) →
      p ≤ p1 ∧ p1 ≤ s.length ∧ up.bytecode.length ≤ up1.bytecode.length ∧
        up1.bytecode.length - up.bytecode.length ≤ p1 - p ∧ up1.bytecode.length ≤ p1) ∧
    (∀ (s : List Char) (up : program) (p t : Nat) (o : ops_enum) (r : parse_result),
      p ≤ s.length → up.bytecode.length ≤ p →
      skip_space s p s.length = some t → next_opcode s t s.length = some o →
      parse_instruction s s.length up t o = .inr r →
      t + (ops_enum_strings o).length ≤ s.length ∧
        r.program.bytecode.length - up.bytecode.length ≤ (ops_enum_strings o).length ∧
        r.program.bytecode.length ≤ s.length) ∧
    ∀ (p : program) (code : Int),
      (program_set_bytecode p code).bytecode.length = p.bytecode.length + 1 ∧
        (program_set_bytecode p code).bytecode[p.bytecode.length]? = some code ∧
        ∀ i, i < p.bytecode.length →
          (program_set_bytecode p code).bytecode[i]? = p.bytecode[i]? := by
  refine ⟨fun up => ?_, ?_, ?_, ?_⟩
  · unfold parse_code
    exact parse_loop_length up.asmcode _ _ 0 (Nat.zero_le _) (Nat.zero_le _)
  · intro s up up1 p t p1 o hp hb hs ho hi
    rw [skip_space_total s p hp, Option.some.injEq] at hs
    subst hs
    have bt := scan_from_bounds isBlank s p hp
    have har := arity_le_mnemonic o
    have hlen := parse_instruction_length s _ up up1 _ p1 o hi
    rw [parse_instruction_eq_lookups s up _ o bt.2 ho] at hi
    have hadv := parse_instruction_lookups_advance s up up1 _ p1 o bt.2 ho hi
    omega
  · intro s up p t o r hp hb hs ho hi
    rw [skip_space_total s p hp, Option.some.injEq] at hs
    subst hs
    have bt := scan_from_bounds isBlank s p hp
    have har := arity_le_mnemonic o
    have hfit := (next_opcode_fits s _ o bt.2 ho).1
    have := (parse_instruction_exit_words s _ up _ o r hi).2
    omega
  · intro p code
    refine ⟨by simp [program_set_bytecode], by simp [program_set_bytecode], fun i hi => ?_⟩
    simp only [program_set_bytecode]
    exact List.getElem?_append_left hi

/-- At concrete inputs: the three characters `JMP` give the two words `[10, 0]`;
in `CMP` / `RET` the first round writes one word and moves the cursor by three characters;
on `INC` the round leaves through the error exit with one word written. -/
theorem bytecode_len_le_asmcode_len_witness :
    ((parse_code (program_of_source "JMP".toList 1000)).program.bytecode = [10, 0] ∧
      (parse_code (program_of_source "JMP".toList 1000)).program.bytecode.length ≤
        (program_of_source "JMP".toList 1000).asmcode.length) ∧
    (parse_instruction "CMP\nRET\n".toList "CMP\nRET\n".toList.length
        (program_of_source "CMP\nRET\n".toList 1000) 0 .CMP =
        .inl (program_set_bytecode (program_of_source "CMP\nRET\n".toList 1000) 15, 3) ∧
      (program_set_bytecode (program_of_source "CMP\nRET\n".toList 1000) 15).bytecode.length -
          (program_of_source "CMP\nRET\n".toList 1000).bytecode.length ≤ 3 - 0) ∧
    (parse_instruction "INC".toList "INC".toList.length (program_of_source "INC".toList 1000)
        0 .INC = .inr (.exit100 (program_set_bytecode (program_of_source "INC".toList 1000) 0)) ∧
      (parse_result.exit100
        (program_set_bytecode (program_of_source "INC".toList 1000) 0)).program.bytecode.length
          ≤ "INC".toList.length) :=
  ⟨⟨by decide, bytecode_len_le_asmcode_len.1 _⟩,
    ⟨rfl, (bytecode_len_le_asmcode_len.2.1 "CMP\nRET\n".toList
      (program_of_source "CMP\nRET\n".toList 1000) _ 0 0 3 .CMP (by decide) (by decide) rfl
      rfl rfl).2.2.2.1⟩,
    ⟨rfl, (bytecode_len_le_asmcode_len.2.2.1 "INC".toList
      (program_of_source "INC".toList 1000) 0 0 .INC _ (by decide) (by decide) rfl rfl
      rfl).2.2⟩⟩

/-- Claim C21 at the failing input `LABEL -1` / `RET`: `parse_code` writes `[9, -1]`, then
makes the store `labels[-1] = 1` without a test, outside the 10-entry table and into the
memory just before it, where `struct program` has `bytecode_len`; every check passes, so the
loop goes on to the line `RET` and calls `program_set_bytecode` again after that store. -/
theorem label_store_before_table :
    (parse_code (program_of_source minus_one_label_source 1000)).oob_label? = some (-1) ∧
      (parse_code (program_of_source minus_one_label_source 1000)).program.bytecode =
        [9, -1] ∧
      (parse_code (program_of_source minus_one_label_source 1000)).is_exit = false ∧
      next_opcode minus_one_label_source 9 minus_one_label_source.length = some .RET ∧
      parse_code_checks minus_one_label_source = .returned := by
  refine ⟨by decide, by decide, by decide, by decide, by decide⟩

end FightVM
